import Mathlib

/-!
# TempStat: per-station temperature aggregation

A shallow embedding of `TempStat.c`: the chained hash table of weather stations, the record
parser `process_line`, and the two ingestion drivers `process_file_fread` and
`process_file_mmap`.

Modelling conventions.

* A file, a buffer and a C string are lists of characters, one `Char` per byte.  A C string is
  the part of a buffer before its first NUL (`cstr`).
* `double` is IEEE-754 binary64 with round-to-nearest-even, written out over `Nat`/`Int`:
  `Double.fin neg m e` is `(-1)^neg * m * 2^e` in the canonical encoding (normal numbers have
  `2^52 ≤ m < 2^53` and `-1074 ≤ e ≤ 971`, subnormals and zero have `e = -1074`), so signed
  zeros are distinct values; NaN payloads are not distinguished.
* `atof` follows C's `strtod` in the "C" locale (decimal, hexadecimal, `inf`, `nan`), correctly
  rounded.
* The global `hash_table` is passed explicitly: a table maps each of the `HASH_TABLE_SIZE`
  bucket indices to its chain, a list of stations whose head is the chain head.
* `int` is the 32-bit two's-complement type `CInt`: its addition wraps around modulo `2^32`,
  so `count++` takes `INT_MAX` to `INT_MIN`, as the compiled program does (in C the overflow
  is undefined).
* `strcpy` into `name` stores the whole string.  This is what the C program does as long as
  the name and its terminator fit the array (`NameFits`).  From `MAX_NAME_LEN` bytes on,
  `strcpy` overruns the array and the behaviour is undefined: in the compiled program the
  fields that follow `name` are written later and change the string that is read back.  The
  properties of stored names are therefore stated for names that fit.
* The input file exists and can be read, `malloc` succeeds, and `char` is a signed 8-bit type
  (as on x86-64 Linux, the POSIX platform the program is written for).
* Loops over the file carry a fuel argument that is set to the length of the file; the
  lemmas `fread_lines_fuel` and `mmap_lines_unlines` show that more fuel changes nothing.
* `print_results` yields the arguments of its `printf` calls, in order; the rendering of the
  numbers by `%.2f` is not modelled.  `reset_stations` drops the chains it frees; the heap
  itself is not modelled.
-/

namespace TempStat

/-- Size of the `name` array of a station, terminator included. -/
def MAX_NAME_LEN : Nat := 100

/-- Number of buckets of the global hash table. -/
def HASH_TABLE_SIZE : Nat := 1000003

/-! ## IEEE-754 binary64 arithmetic -/

/-- A binary64 value: finite `(-1)^neg * m * 2^e`, an infinity, or NaN. -/
inductive Double where
  | fin (neg : Bool) (m : Nat) (e : Int)
  | inf (neg : Bool)
  | nan
  deriving DecidableEq

namespace Double

/-- Positive zero, the value of the literal `0`. -/
def zero : Double := .fin false 0 (-1074)

/-- The signed significand of a finite value. -/
def sig (neg : Bool) (m : Nat) : Int := if neg then -(m : Int) else (m : Int)

/-- The loop of `ilog2`: halve `n` until it is below `2`, counting the steps. -/
def ilog2Loop : Nat → Nat → Nat
  | 0, _ => 0
  | fuel + 1, n => if n < 2 then 0 else ilog2Loop fuel (n / 2) + 1

/-- The position of the leading bit: `⌊log₂ n⌋` for positive `n`. -/
def ilog2 (n : Nat) : Nat := ilog2Loop n n

/-- The binade of the positive rational `n / d`: the exponent `⌊log₂ (n / d)⌋`, found from
the leading bits of `n` and `d` and one comparison. -/
def binade (n d : Nat) : Int :=
  if d * 2 ^ ((ilog2 n : Int) - (ilog2 d : Int)).toNat ≤
      n * 2 ^ (-((ilog2 n : Int) - (ilog2 d : Int))).toNat
  then (ilog2 n : Int) - (ilog2 d : Int)
  else (ilog2 n : Int) - (ilog2 d : Int) - 1

/-- The multiple of `2^p` nearest to `n / d`, ties to the even multiple. -/
def nearestMultiple (n d : Nat) (p : Int) : Nat :=
  if 2 * (n * 2 ^ (-p).toNat % (d * 2 ^ p.toNat)) < d * 2 ^ p.toNat then
    n * 2 ^ (-p).toNat / (d * 2 ^ p.toNat)
  else if d * 2 ^ p.toNat < 2 * (n * 2 ^ (-p).toNat % (d * 2 ^ p.toNat)) then
    n * 2 ^ (-p).toNat / (d * 2 ^ p.toNat) + 1
  else if n * 2 ^ (-p).toNat / (d * 2 ^ p.toNat) % 2 = 0 then
    n * 2 ^ (-p).toNat / (d * 2 ^ p.toNat)
  else n * 2 ^ (-p).toNat / (d * 2 ^ p.toNat) + 1

/-- The double with significand `q` and exponent `p`, renormalised when rounding carried
into the next binade, infinite when the exponent leaves the format. -/
def pack (neg : Bool) (q : Nat) (p : Int) : Double :=
  if 971 < (if q = 2 ^ 53 then p + 1 else p) then .inf neg
  else .fin neg (if q = 2 ^ 53 then 2 ^ 52 else q) (if q = 2 ^ 53 then p + 1 else p)

/-- Nearest binary64 value to `(-1)^neg * n / d`, ties to even, overflow to infinity: the
quotient is rounded to a multiple of `2^p`, where `p` is 52 below its binade, and not below
the exponent `-1074` of the subnormal numbers. -/
def roundRatio (neg : Bool) (n d : Nat) : Double :=
  if n = 0 ∨ d = 0 then .fin neg 0 (-1074)
  else
    pack neg (nearestMultiple n d (max (binade n d) (-1022) - 52))
      (max (binade n d) (-1022) - 52)

/-- Conversion of an `int` to `double` (exact for 32-bit integers). -/
def ofInt (c : Int) : Double := roundRatio (decide (c < 0)) c.natAbs 1

/-- The comparison `a < b` of C: false as soon as one side is NaN. -/
def lt : Double → Double → Bool
  | .nan, _ => false
  | _, .nan => false
  | .inf n1, .inf n2 => n1 && !n2
  | .inf n1, .fin _ _ _ => n1
  | .fin _ _ _, .inf n2 => !n2
  | .fin s1 m1 e1, .fin s2 m2 e2 =>
    decide (sig s1 m1 * 2 ^ (e1 - min e1 e2).toNat < sig s2 m2 * 2 ^ (e2 - min e1 e2).toNat)

/-- The comparison `a <= b` of C. -/
def le : Double → Double → Bool
  | .nan, _ => false
  | _, .nan => false
  | .inf n1, .inf n2 => n1 || !n2
  | .inf n1, .fin _ _ _ => n1
  | .fin _ _ _, .inf n2 => !n2
  | .fin s1 m1 e1, .fin s2 m2 e2 =>
    decide (sig s1 m1 * 2 ^ (e1 - min e1 e2).toNat ≤ sig s2 m2 * 2 ^ (e2 - min e1 e2).toNat)

/-- The sum `a + b` of C. -/
def add : Double → Double → Double
  | .nan, _ => .nan
  | _, .nan => .nan
  | .inf n1, .inf n2 => if n1 = n2 then .inf n1 else .nan
  | .inf n1, .fin _ _ _ => .inf n1
  | .fin _ _ _, .inf n2 => .inf n2
  | .fin s1 m1 e1, .fin s2 m2 e2 =>
    let e : Int := min e1 e2
    let s : Int := sig s1 m1 * 2 ^ (e1 - e).toNat + sig s2 m2 * 2 ^ (e2 - e).toNat
    if s = 0 then .fin (s1 && s2) 0 (-1074)
    else roundRatio (decide (s < 0)) (s.natAbs * 2 ^ e.toNat) (2 ^ (-e).toNat)

/-- The quotient `a / b` of C. -/
def div : Double → Double → Double
  | .nan, _ => .nan
  | _, .nan => .nan
  | .inf _, .inf _ => .nan
  | .inf n1, .fin s2 _ _ => .inf (xor n1 s2)
  | .fin s1 _ _, .inf n2 => .fin (xor s1 n2) 0 (-1074)
  | .fin s1 m1 e1, .fin s2 m2 e2 =>
    if m2 = 0 then (if m1 = 0 then .nan else .inf (xor s1 s2))
    else roundRatio (xor s1 s2) (m1 * 2 ^ (e1 - e2).toNat) (m2 * 2 ^ (e2 - e1).toNat)

end Double

/-- The largest finite double, `(2^53 - 1) * 2^971`. -/
def DBL_MAX : Double := .fin false (2 ^ 53 - 1) 971

/-- The smallest positive normalised double, `2^-1022`. -/
def DBL_MIN : Double := .fin false (2 ^ 52) (-1074)

/-! ## `atof` -/

/-- The `isspace` of the "C" locale. -/
def isspace (c : Char) : Bool :=
  c = ' ' || c = '\t' || c = '\n' || c = '\x0b' || c = '\x0c' || c = '\r'

/-- Decimal digit test. -/
def isdigit (c : Char) : Bool := decide ('0' ≤ c) && decide (c ≤ '9')

/-- Hexadecimal digit test. -/
def isxdigit (c : Char) : Bool :=
  isdigit c || (decide ('a' ≤ c) && decide (c ≤ 'f')) || (decide ('A' ≤ c) && decide (c ≤ 'F'))

/-- Value of a hexadecimal digit. -/
def xdigitVal (c : Char) : Nat :=
  if isdigit c then c.toNat - 48
  else if decide ('a' ≤ c) && decide (c ≤ 'f') then c.toNat - 87
  else c.toNat - 55

/-- Value of a digit string in the given base, most significant digit first. -/
def digitsVal (base : Nat) (ds : List Char) : Nat :=
  ds.foldl (fun acc c => acc * base + xdigitVal c) 0

/-- An optional sign: whether it is `-`, and the text after it. -/
def takeSign : List Char → Bool × List Char
  | '-' :: r => (true, r)
  | '+' :: r => (false, r)
  | s => (false, s)

/-- An optional exponent part introduced by one of the two given letters: its value
(`0` when the letter is not followed by an optionally signed digit string). -/
def takeExponent (lo up : Char) : List Char → Int
  | [] => 0
  | c :: r =>
    if c = lo ∨ c = up then
      let ds := (takeSign r).2.takeWhile isdigit
      if ds = [] then 0
      else if (takeSign r).1 then -(digitsVal 10 ds : Int) else (digitsVal 10 ds : Int)
    else 0

/-- The fraction digits that follow an optional radix point, and the text after them. -/
def takeFraction (isd : Char → Bool) : List Char → List Char × List Char
  | '.' :: r => (r.takeWhile isd, r.dropWhile isd)
  | s => ([], s)

/-- A decimal floating constant at the head of `s`, if there is one. -/
def decFloat (neg : Bool) (s : List Char) : Option Double :=
  let ip := s.takeWhile isdigit
  let fr := takeFraction isdigit (s.dropWhile isdigit)
  if ip = [] ∧ fr.1 = [] then none
  else
    let x : Int := takeExponent 'e' 'E' fr.2 - (fr.1.length : Int)
    some (Double.roundRatio neg (digitsVal 10 (ip ++ fr.1) * 10 ^ x.toNat) (10 ^ (-x).toNat))

/-- A hexadecimal floating constant (after its `0x` prefix) at the head of `s`, if any. -/
def hexFloat (neg : Bool) (s : List Char) : Option Double :=
  let ip := s.takeWhile isxdigit
  let fr := takeFraction isxdigit (s.dropWhile isxdigit)
  if ip = [] ∧ fr.1 = [] then none
  else
    let x : Int := takeExponent 'p' 'P' fr.2 - 4 * (fr.1.length : Int)
    some (Double.roundRatio neg (digitsVal 16 (ip ++ fr.1) * 2 ^ x.toNat) (2 ^ (-x).toNat))

/-- Whether `s` starts with the lower-case word `w`, ignoring case. -/
def startsWithCI (s w : List Char) : Bool := (s.take w.length).map Char.toLower = w

/-- The subject sequence of `strtod` after white space and sign. -/
def strtodBody (neg : Bool) (s : List Char) : Option Double :=
  if startsWithCI s ['i', 'n', 'f'] then some (.inf neg)
  else if startsWithCI s ['n', 'a', 'n'] then some .nan
  else
    match s with
    | '0' :: x :: r =>
      if x = 'x' ∨ x = 'X' then
        match hexFloat neg r with
        | some d => some d
        | none => decFloat neg s
      else decFloat neg s
    | _ => decFloat neg s

/-- The conversion `strtod(s, NULL)`: `none` when no conversion is performed. -/
def strtod (s : List Char) : Option Double :=
  let t := takeSign (s.dropWhile isspace)
  strtodBody t.1 t.2

/-- The `atof` of C: the converted value, `0.0` when no conversion is performed. -/
def atof (s : List Char) : Double := (strtod s).getD Double.zero

/-! ## The station table -/

/-- The value of `int c = *str` for a byte, `char` being a signed type. -/
def charToInt (c : Char) : Int := if c.toNat < 128 then (c.toNat : Int) else (c.toNat : Int) - 256

/-- The loop of `hash` over the bytes of the string, on `uint32_t`:
`hash = ((hash << 5) + hash) + c`. -/
def hashLoop (h : Nat) : List Char → Nat
  | [] => h
  | c :: str =>
    hashLoop (((((h * 2 ^ 5 % 2 ^ 32 + h) % 2 ^ 32 : Nat) : Int) + charToInt c) % 2 ^ 32).toNat str

/-- The function `hash`: the bucket index of a name. -/
def hash (str : List Char) : Fin HASH_TABLE_SIZE :=
  ⟨hashLoop 5381 str % HASH_TABLE_SIZE, Nat.mod_lt _ (by decide)⟩

/-- The integer between `INT_MIN = -2^31` and `INT_MAX = 2^31 - 1` that is congruent to `x`
modulo `2^32`: what 32-bit two's-complement arithmetic keeps of `x`. -/
def wrapInt (x : Int) : Int := (x + 2 ^ 31) % 2 ^ 32 - 2 ^ 31

/-- The C type `int`, 32 bits wide: an object of the type, given by its value. -/
structure CInt where
  toInt : Int
  deriving DecidableEq

/-- The sum of two `int` values as the compiled program computes it: it wraps around modulo
`2^32`, so `INT_MAX + 1` is `INT_MIN`. -/
instance : Add CInt := ⟨fun a b => ⟨wrapInt (a.toInt + b.toInt)⟩⟩

/-- An integer constant as an `int`. -/
instance (n : Nat) : OfNat CInt n := ⟨⟨wrapInt (n : Int)⟩⟩

/-- A `WeatherStation` node; its `next` pointer is the tail of the chain that holds it. -/
structure WeatherStation where
  name : List Char
  min_temp : Double
  max_temp : Double
  total_temp : Double
  count : CInt
  deriving DecidableEq

/-- The global `hash_table`: the chain of every bucket, chain head first. -/
abbrev HashTable := Fin HASH_TABLE_SIZE → List WeatherStation

/-- The initial table, `{NULL}`. -/
def emptyTable : HashTable := fun _ => []

/-- The assignment `hash_table[index] = chain`. -/
def setBucket (t : HashTable) (index : Fin HASH_TABLE_SIZE) (chain : List WeatherStation) :
    HashTable :=
  fun i => if i = index then chain else t i

/-- The search loop of `find_or_create_station`: the position in the chain of the first
station whose name compares equal to `name`. -/
def findInChain (name : List Char) : List WeatherStation → Option Nat
  | [] => none
  | s :: rest => if s.name = name then some 0 else (findInChain name rest).map (· + 1)

/-- The station that `find_or_create_station` allocates on a miss. Its name is the string
that `strcpy` copies, which is what the `name` array holds afterwards whenever the string
and its terminator fit the array; a longer string overruns the array, which C leaves
undefined and which is not modelled beyond the copy itself. -/
def newStation (name : List Char) : WeatherStation :=
  { name := name, min_temp := DBL_MAX, max_temp := DBL_MIN, total_temp := Double.zero, count := 0 }

/-- The function `find_or_create_station`: the table after the call, and the position of the
returned station in the chain of bucket `hash name`. On a miss the name is stored by
`strcpy` without a bound (see `newStation`): the call stays within the `name` array, and
within defined behaviour, exactly when `NameFits name`. -/
def find_or_create_station (t : HashTable) (name : List Char) : HashTable × Nat :=
  match findInChain name (t (hash name)) with
  | some k => (t, k)
  | none => (setBucket t (hash name) (newStation name :: t (hash name)), 0)

/-- The four updates that `process_line` applies to the station it obtained; `count++` is
the addition of `CInt`, which wraps around at `INT_MAX`. -/
def updateStation (temp : Double) (s : WeatherStation) : WeatherStation :=
  let s1 := if Double.lt temp s.min_temp then { s with min_temp := temp } else s
  let s2 := if Double.lt s1.max_temp temp then { s1 with max_temp := temp } else s1
  { s2 with total_temp := Double.add s2.total_temp temp, count := s2.count + 1 }

/-- Apply `f` to the element at position `k` of a chain (a write through a node pointer). -/
def modifyAt (f : WeatherStation → WeatherStation) : Nat → List WeatherStation → List WeatherStation
  | _, [] => []
  | 0, s :: rest => f s :: rest
  | k + 1, s :: rest => s :: modifyAt f k rest

/-! ## The record parser -/

/-- The C string held in a buffer: the bytes before the first NUL. -/
def cstr (buf : List Char) : List Char := buf.takeWhile (· ≠ '\x00')

/-- One call of `strtok` with a single delimiter on the text at the saved position: the token
and the new saved position, or `none` when only delimiters are left. -/
def strtok (s : List Char) (delim : Char) : Option (List Char × List Char) :=
  let s1 := s.dropWhile (· = delim)
  if s1 = [] then none
  else some (s1.takeWhile (· ≠ delim), ((s1.dropWhile (· ≠ delim)).drop 1))

/-- The function `process_line` on the buffer `line`. -/
def process_line (t : HashTable) (line : List Char) : HashTable :=
  match strtok (cstr line) ';' with
  | none => t
  | some (name, saved) =>
    match strtok saved '\n' with
    | none => t
    | some (temp_str, _) =>
      let temp := atof temp_str
      let r := find_or_create_station t name
      setBucket r.1 (hash name) (modifyAt (updateStation temp) r.2 (r.1 (hash name)))

/-! ## The ingestion strategies -/

/-- The bytes one `fgets` call stores when the buffer has room for `n` of them, and the rest
of the stream: it stops after a newline, after `n` bytes, or at end of file. -/
def fgetsRead : Nat → List Char → List Char × List Char
  | 0, stream => ([], stream)
  | _ + 1, [] => ([], [])
  | n + 1, c :: stream =>
    if c = '\n' then ([c], stream)
    else (c :: (fgetsRead n stream).1, (fgetsRead n stream).2)

/-- The call `fgets(line, size, file)`: `none` (a null pointer) at end of file. -/
def fgets (size : Nat) (stream : List Char) : Option (List Char × List Char) :=
  if stream = [] then none else some (fgetsRead (size - 1) stream)

/-- The buffers that the loop of `process_file_fread` hands to `process_line`, in order. -/
def fread_lines : Nat → List Char → List (List Char)
  | 0, _ => []
  | fuel + 1, stream =>
    match fgets 256 stream with
    | none => []
    | some (line, rest) => line :: fread_lines fuel rest

/-- The function `process_file_fread` on a file that opens, with the given contents. -/
def process_file_fread (t : HashTable) (file : List Char) : HashTable :=
  (fread_lines file.length file).foldl process_line t

/-- The lines that the loop of `process_file_mmap` copies out of the range from `start` to
`end` and hands to `process_line`, in order. -/
def mmap_lines : Nat → List Char → List (List Char)
  | 0, _ => []
  | fuel + 1, range =>
    if range = [] then []
    else
      match range.dropWhile (· ≠ '\n') with
      | [] => [range.takeWhile (· ≠ '\n')]
      | _ :: rest => range.takeWhile (· ≠ '\n') :: mmap_lines fuel rest

/-- The scanning loop of `process_file_mmap` over the mapped bytes. -/
def mmap_scan (t : HashTable) (file : List Char) : HashTable :=
  (mmap_lines file.length file).foldl process_line t

/-- The function `process_file_mmap` on a file that opens, with the given contents: `none`
when the process exits with `EXIT_FAILURE` because `mmap` fails, which it does for a length
of zero. -/
def process_file_mmap (t : HashTable) (file : List Char) : Option HashTable :=
  if file.length = 0 then none else some (mmap_scan t file)

/-- The mean that `print_results` computes for a station, `total_temp / count`. -/
def mean_temp (s : WeatherStation) : Double :=
  Double.div s.total_temp (Double.ofInt s.count.toInt)

/-- The arguments of one `printf` call of `print_results`: the name and the three numbers
that the format prints with two decimals. -/
structure ReportLine where
  name : List Char
  min_temp : Double
  mean_temp : Double
  max_temp : Double
  deriving DecidableEq

/-- The line that `print_results` emits for a station. -/
def reportLine (s : WeatherStation) : ReportLine :=
  { name := s.name, min_temp := s.min_temp, mean_temp := mean_temp s, max_temp := s.max_temp }

/-- The output of the first `n` rounds of the `for` loop of `print_results`: round `i` walks
the chain of bucket `i` from its head and emits one line per station. -/
def print_loop (t : HashTable) : Nat → List ReportLine
  | 0 => []
  | n + 1 =>
    print_loop t n ++ (if h : n < HASH_TABLE_SIZE then (t ⟨n, h⟩).map reportLine else [])

/-- The function `print_results`: the lines it emits, in order. -/
def print_results (t : HashTable) : List ReportLine := print_loop t HASH_TABLE_SIZE

/-- The table after the first `n` rounds of the `for` loop of `reset_stations`: round `i`
frees the chain of bucket `i` and stores `NULL` in the bucket. -/
def reset_loop (t : HashTable) : Nat → HashTable
  | 0 => t
  | n + 1 =>
    if h : n < HASH_TABLE_SIZE then setBucket (reset_loop t n) ⟨n, h⟩ [] else reset_loop t n

/-- The function `reset_stations`. -/
def reset_stations (t : HashTable) : HashTable := reset_loop t HASH_TABLE_SIZE

/-- The bytes that `strcpy(new_station->name, name)` writes, starting at the first byte of
the `name` array: the string and its terminating NUL. -/
def strcpy_bytes (name : List Char) : List Char := name ++ ['\x00']

/-! ## Auxiliary notions used to state the properties -/

/-- The two tokens that `process_line` cuts out of a buffer, the name and the temperature
text, or `none` when it returns early. -/
def lineRecord (line : List Char) : Option (List Char × List Char) :=
  match strtok (cstr line) ';' with
  | none => none
  | some (name, saved) =>
    match strtok saved '\n' with
    | none => none
    | some (temp_str, _) => some (name, temp_str)

/-- The buffers of `process_file_fread` for a stream, with fuel for the whole stream. -/
def freadAll (stream : List Char) : List (List Char) := fread_lines stream.length stream

/-- The effect of the second half of `process_line`: fetch or create the station `name` and
fold the reading `temp` into it. -/
def applyReading (t : HashTable) (name : List Char) (temp : Double) : HashTable :=
  setBucket (find_or_create_station t name).1 (hash name)
    (modifyAt (updateStation temp) (find_or_create_station t name).2
      ((find_or_create_station t name).1 (hash name)))

/-- The text made of the given lines, each followed by a newline. -/
def unlines : List (List Char) → List Char
  | [] => []
  | l :: ls => l ++ '\n' :: unlines ls

/-- The list `[b]` of a final line without newline, nothing when `b` is empty. -/
def lastLine (b : List Char) : List (List Char) := if b = [] then [] else [b]

/-- The smaller of two doubles as a comparison computes it: `b` when `b < a`, else `a`. -/
def Double.min (a b : Double) : Double := if Double.lt b a then b else a

/-- The larger of two doubles as a comparison computes it: `b` when `a < b`, else `a`. -/
def Double.max (a b : Double) : Double := if Double.lt a b then b else a

/-- The text of a line before its first `;`. -/
def nameField (line : List Char) : List Char := line.takeWhile (· ≠ ';')

/-- A text without its final newline, if it ends with one. -/
def stripNewline (s : List Char) : List Char :=
  if s.getLast? = some '\n' then s.dropLast else s

/-- The text of a line after its first `;`, up to but not including a trailing newline. -/
def tempField (line : List Char) : List Char :=
  stripNewline ((line.dropWhile (· ≠ ';')).drop 1)

/-- The record parser as the specification words it: a line with a `;` updates the station
named by the text before the first `;` with the value of the text after it. -/
def process_line_spec (t : HashTable) (line : List Char) : HashTable :=
  if ';' ∈ line then applyReading t (nameField line) (atof (tempField line)) else t

/-- The station obtained by folding the readings `rs`, oldest first, into a new station. -/
def stationOf (name : List Char) (rs : List Double) : WeatherStation :=
  rs.foldl (fun s temp => updateStation temp s) (newStation name)

/-- The readings recorded for `name` in a list of (name, reading) records, in order. -/
def readingsOf (recs : List (List Char × Double)) (name : List Char) : List Double :=
  (recs.filter (fun r => decide (r.1 = name))).map (·.2)

/-- A name that fits the `name` array of a station: the bytes that `strcpy` writes for it,
the terminating NUL included, are at most `MAX_NAME_LEN`. -/
def NameFits (name : List Char) : Prop := (strcpy_bytes name).length ≤ MAX_NAME_LEN

instance (name : List Char) : Decidable (NameFits name) :=
  inferInstanceAs (Decidable ((strcpy_bytes name).length ≤ MAX_NAME_LEN))

/-- Tables reachable from the empty table by calls of `find_or_create_station` and
`process_line` that stay within the `name` array: every name handed to
`find_or_create_station`, directly or as the name token of a line, fits the array. -/
inductive Reachable : HashTable → Prop where
  | empty : Reachable emptyTable
  | find (t : HashTable) (name : List Char) :
      NameFits name → Reachable t → Reachable (find_or_create_station t name).1
  | line (t : HashTable) (line : List Char) :
      (∀ name temp_str : List Char, lineRecord line = some (name, temp_str) → NameFits name) →
      Reachable t → Reachable (process_line t line)

/-- Every station sits in the bucket of its name, and no chain holds a name twice. -/
def TableInv (t : HashTable) : Prop :=
  ∀ i, (∀ s ∈ t i, hash s.name = i) ∧ ((t i).map (·.name)).Nodup

/-- A table with one station, `Paris`, that has the single reading `1.5`. -/
def parisTable : HashTable := process_line emptyTable "Paris;1.5\n".toList

/-- A file of one line of 258 bytes: `A;1`, 252 blanks, then `B;2` and a newline. -/
def longLineFile : List Char := "A;1".toList ++ List.replicate 252 ' ' ++ "B;2\n".toList

/-- The line of `longLineFile`, without its newline: 258 bytes, name `A`. -/
def longLine : List Char := "A;1".toList ++ List.replicate 252 ' ' ++ "B;2".toList

/-- The (name, reading) record that `process_line` folds into the table for a buffer, or
`none` when it returns early. -/
def recordOf (line : List Char) : Option (List Char × Double) :=
  (lineRecord line).map (fun p => (p.1, atof p.2))

/-- A line of the form `name;value`: text without NUL or newline that holds a `;`, with a
non-empty name before the first `;` and a non-empty value after it. -/
def RecordLine (l : List Char) : Prop :=
  '\x00' ∉ l ∧ '\n' ∉ l ∧ ';' ∈ l ∧ nameField l ≠ [] ∧ tempField l ≠ []

/-- The table is the one obtained from the records `recs`: it satisfies the invariant,
every station is the fold of the readings recorded for its name, of which there is at least
one, and every name with a reading has its station. -/
def RecInv (t : HashTable) (recs : List (List Char × Double)) : Prop :=
  TableInv t ∧
    (∀ i, ∀ s ∈ t i, readingsOf recs s.name ≠ [] ∧ s = stationOf s.name (readingsOf recs s.name)) ∧
    (∀ name, readingsOf recs name ≠ [] → ∃ s ∈ t (hash name), s.name = name)

instance (l : List Char) : Decidable (RecordLine l) :=
  inferInstanceAs
    (Decidable ('\x00' ∉ l ∧ '\n' ∉ l ∧ ';' ∈ l ∧ nameField l ≠ [] ∧ tempField l ≠ []))

/-- The station that a reading for `name` is folded into: the first station of that name in
the chain of its bucket, or a new station when there is none. -/
def currentStation (t : HashTable) (name : List Char) : WeatherStation :=
  ((t (hash name)).find? (fun s => decide (s.name = name))).getD (newStation name)

/-- Whether a double is a finite number. -/
def Double.isFinite : Double → Bool
  | .fin _ _ _ => true
  | _ => false

/-- The rational number that a finite double stands for (`0` for infinities and NaN). -/
def Double.toRat : Double → ℚ
  | .fin s m e => (Double.sig s m : ℚ) * (2 : ℚ) ^ e
  | _ => 0

/-- The mean of the readings in exact arithmetic. -/
def exactMean (rs : List Double) : ℚ := (rs.map Double.toRat).sum / (rs.length : ℚ)

/-- A file with three readings `0.1` for one station. -/
def tenthsFile : List Char := "A;0.1\nA;0.1\nA;0.1\n".toList

/-- The station that both strategies build from `tenthsFile`: `0.1` is the double
`7205759403792794 * 2^-56`, and the sum of three of them is `5404319552844596 * 2^-54`. -/
def tenthsStation : WeatherStation :=
  { name := "A".toList, min_temp := .fin false 7205759403792794 (-56),
    max_temp := .fin false 7205759403792794 (-56),
    total_temp := .fin false 5404319552844596 (-54), count := 3 }

/-- A binary64 value: a finite one is in the canonical encoding. -/
def Double.IsBinary64 : Double → Prop
  | .fin _ m e => (2 ^ 52 ≤ m ∧ m < 2 ^ 53 ∧ -1074 ≤ e ∧ e ≤ 971) ∨ (m < 2 ^ 52 ∧ e = -1074)
  | _ => True

/-- The number of stations in the buckets with an index below `n`. -/
def chainsBelow (t : HashTable) : Nat → Nat
  | 0 => 0
  | n + 1 => chainsBelow t n + (if h : n < HASH_TABLE_SIZE then (t ⟨n, h⟩).length else 0)

/-- The 33-multiplier rolling hash as the specification words it, over the bytes of the
string: from `h`, each byte `c` takes `h` to `(33 * h + c) mod 2^32`. -/
def rolling33 (h : Nat) : List Char → Nat
  | [] => h
  | c :: str => rolling33 ((33 * h + c.toNat) % 2 ^ 32) str

/-- The same rolling hash over the values that the bytes have as `signed char`: a byte
below 128 counts as itself, a byte `c` from 128 on counts as `c - 256`. -/
def rolling33Signed (h : Int) : List Char → Int
  | [] => h
  | c :: str =>
    rolling33Signed
      ((33 * h + (if c.toNat < 128 then (c.toNat : Int) else (c.toNat : Int) - 256)) % 2 ^ 32) str

/-- The example input of the specification. -/
def exampleFile : List Char := "Tokyo;15.3\nTokyo;18.1\nParis;-2.0\n".toList

/-- The station `Tokyo` after the example input: `15.3` is `8613134287346074 * 2^-49`,
`18.1` is `5094697078462874 * 2^-48`, and their sum rounds to `4700632111067956 * 2^-47`. -/
def tokyoStation : WeatherStation :=
  { name := "Tokyo".toList, min_temp := .fin false 8613134287346074 (-49),
    max_temp := .fin false 5094697078462874 (-48),
    total_temp := .fin false 4700632111067956 (-47), count := 2 }

/-- The station `Paris` after the example input: `-2.0` is `-(2^52) * 2^-51`, and `max_temp`
is still `DBL_MIN`. -/
def parisStation : WeatherStation :=
  { name := "Paris".toList, min_temp := .fin true 4503599627370496 (-51),
    max_temp := .fin false 4503599627370496 (-1074),
    total_temp := .fin true 4503599627370496 (-51), count := 1 }

/-- The table with the two stations of the example and nothing else. -/
def exampleTable : HashTable :=
  setBucket (setBucket emptyTable (hash "Tokyo".toList) [tokyoStation])
    (hash "Paris".toList) [parisStation]

/-- A station name of `n` bytes. -/
def longName (n : Nat) : List Char := List.replicate n 'A'

/-- The readings that a sequence of buffers carries for the station `name`, in order: the
value that `atof` gives for the temperature token of every buffer whose name token is
`name`. -/
def stationReadings (bufs : List (List Char)) (name : List Char) : List Double :=
  readingsOf (bufs.filterMap recordOf) name

/-- A file with the readings `1.5` and `2.5` for one station. -/
def halvesFile : List Char := "A;1.5\nA;2.5\n".toList

/-- The station that the strategies build from `halvesFile`. -/
def halvesStation : WeatherStation :=
  { name := "A".toList, min_temp := atof "1.5".toList, max_temp := atof "2.5".toList,
    total_temp := atof "4".toList, count := 2 }

/-- The station that the strategies build from the single line `A;nan`. -/
def nanStation : WeatherStation :=
  { name := "A".toList, min_temp := DBL_MAX, max_temp := DBL_MIN, total_temp := .nan,
    count := 1 }

/-- The exponent of the last place to which `roundRatio` rounds the quotient `n / d`. -/
def lastPlace (n d : Nat) : Int := max (Double.binade n d) (-1022) - 52

/-- The significand that `roundRatio` obtains for `n / d`, before renormalisation. -/
def roundedSig (n d : Nat) : Nat := Double.nearestMultiple n d (lastPlace n d)

/-- A bound on the rounding error of the mean of `n` readings of magnitude at most `b`, as
`print_results` computes it: each of the `n` additions and the division errs by at most the
relative error `2^-53` of binary64, and a subnormal quotient by at most `2^-1075`. -/
def roundingSlack (n : Nat) (b : ℚ) : ℚ :=
  ((1 + (2 : ℚ) ^ (-53 : ℤ)) ^ (n + 1) - 1) * b + (2 : ℚ) ^ (-1075 : ℤ)

end TempStat

namespace TempStat

/-! ## Lists of characters -/

theorem takeWhile_ne_of_not_mem (c : Char) :
    ∀ l : List Char, c ∉ l → l.takeWhile (· ≠ c) = l
  | [], _ => rfl
  | x :: l, h => by
    have hx : x ≠ c := fun e => h (e ▸ List.mem_cons_self _ _)
    have hl : c ∉ l := fun m => h (List.mem_cons_of_mem _ m)
    rw [List.takeWhile_cons_of_pos (p := fun y => decide (y ≠ c)) (decide_eq_true hx), takeWhile_ne_of_not_mem c l hl]

theorem dropWhile_ne_of_not_mem (c : Char) :
    ∀ l : List Char, c ∉ l → l.dropWhile (· ≠ c) = []
  | [], _ => rfl
  | x :: l, h => by
    have hx : x ≠ c := fun e => h (e ▸ List.mem_cons_self _ _)
    have hl : c ∉ l := fun m => h (List.mem_cons_of_mem _ m)
    rw [List.dropWhile_cons_of_pos (p := fun y => decide (y ≠ c)) (decide_eq_true hx), dropWhile_ne_of_not_mem c l hl]

theorem takeWhile_ne_append (c : Char) (r : List Char) :
    ∀ l : List Char, c ∉ l → (l ++ c :: r).takeWhile (· ≠ c) = l
  | [], _ => by
    rw [List.nil_append, List.takeWhile_cons_of_neg]
    simp
  | x :: l, h => by
    have hx : x ≠ c := fun e => h (e ▸ List.mem_cons_self _ _)
    have hl : c ∉ l := fun m => h (List.mem_cons_of_mem _ m)
    rw [List.cons_append, List.takeWhile_cons_of_pos (p := fun y => decide (y ≠ c)) (decide_eq_true hx),
      takeWhile_ne_append c r l hl]

theorem dropWhile_ne_append (c : Char) (r : List Char) :
    ∀ l : List Char, c ∉ l → (l ++ c :: r).dropWhile (· ≠ c) = c :: r
  | [], _ => by
    rw [List.nil_append, List.dropWhile_cons_of_neg]
    simp
  | x :: l, h => by
    have hx : x ≠ c := fun e => h (e ▸ List.mem_cons_self _ _)
    have hl : c ∉ l := fun m => h (List.mem_cons_of_mem _ m)
    rw [List.cons_append, List.dropWhile_cons_of_pos (p := fun y => decide (y ≠ c)) (decide_eq_true hx),
      dropWhile_ne_append c r l hl]

/-- A text that holds `c` splits at the first occurrence of `c`. -/
theorem split_at_first (c : Char) :
    ∀ l : List Char, c ∈ l → ∃ a b, l = a ++ c :: b ∧ c ∉ a
  | [], h => by simp at h
  | x :: l, h => by
    by_cases hx : x = c
    · exact ⟨[], l, by simp [hx], by simp⟩
    · have hl : c ∈ l := by
        rcases List.mem_cons.1 h with e | m
        · exact absurd e.symm hx
        · exact m
      obtain ⟨a, b, hab, ha⟩ := split_at_first c l hl
      refine ⟨x :: a, b, by simp [hab], ?_⟩
      intro m
      rcases List.mem_cons.1 m with e | m
      · exact hx e.symm
      · exact ha m

/-! ## `strtok` -/

theorem strtok_nil (d : Char) : strtok [] d = none := by
  simp [strtok]

theorem strtok_cons_delim (d : Char) (s : List Char) : strtok (d :: s) d = strtok s d := by
  simp [strtok, List.dropWhile_cons]

theorem dropWhile_eq_of_head_ne (d x : Char) (s : List Char) (h : x ≠ d) :
    (x :: s).dropWhile (· = d) = x :: s := by
  simp [List.dropWhile_cons, h]

theorem strtok_of_not_mem (d : Char) (s : List Char) (hs : s ≠ []) (h : d ∉ s) :
    strtok s d = some (s, []) := by
  cases s with
  | nil => exact absurd rfl hs
  | cons x s =>
    have hx : x ≠ d := fun e => h (e ▸ List.mem_cons_self _ _)
    show (if (x :: s).dropWhile (· = d) = [] then none
      else some (((x :: s).dropWhile (· = d)).takeWhile (· ≠ d),
        (((x :: s).dropWhile (· = d)).dropWhile (· ≠ d)).drop 1)) = some (x :: s, [])
    rw [dropWhile_eq_of_head_ne d x s hx, takeWhile_ne_of_not_mem d _ h,
      dropWhile_ne_of_not_mem d _ h]
    simp

theorem strtok_append_delim (d : Char) (n r : List Char) (hn : n ≠ []) (h : d ∉ n) :
    strtok (n ++ d :: r) d = some (n, r) := by
  cases n with
  | nil => exact absurd rfl hn
  | cons x n =>
    have hx : x ≠ d := fun e => h (e ▸ List.mem_cons_self _ _)
    show (if (x :: n ++ d :: r).dropWhile (· = d) = [] then none
      else some (((x :: n ++ d :: r).dropWhile (· = d)).takeWhile (· ≠ d),
        (((x :: n ++ d :: r).dropWhile (· = d)).dropWhile (· ≠ d)).drop 1)) = some (x :: n, r)
    rw [List.cons_append, dropWhile_eq_of_head_ne d x _ hx, ← List.cons_append,
      takeWhile_ne_append d r _ h, dropWhile_ne_append d r _ h]
    simp

/-! ## `process_line` through its record -/

theorem process_line_eq (t : HashTable) (line : List Char) :
    process_line t line =
      match lineRecord line with
      | none => t
      | some (name, temp_str) => applyReading t name (atof temp_str) := by
  unfold process_line lineRecord
  cases strtok (cstr line) ';' with
  | none => rfl
  | some p =>
    obtain ⟨name, saved⟩ := p
    dsimp only
    cases strtok saved '\n' with
    | none => rfl
    | some q => rfl

theorem cstr_not_mem (c : Char) (line : List Char) (h : c ∉ line) : c ∉ cstr line :=
  fun m => h (List.takeWhile_subset _ m)

theorem lineRecord_of_no_delim (line : List Char) (h : ';' ∉ line) : lineRecord line = none := by
  have hc := cstr_not_mem ';' line h
  unfold lineRecord
  by_cases he : cstr line = []
  · rw [he, strtok_nil]
  · rw [strtok_of_not_mem ';' _ he hc]
    simp [strtok_nil]

/-- C5. A line without a `;` delimiter leaves the table exactly as it was: `process_line`
returns before it looks up or creates any station. -/
theorem process_line_no_delim (t : HashTable) (line : List Char) (h : ';' ∉ line) :
    process_line t line = t := by
  rw [process_line_eq, lineRecord_of_no_delim line h]

/-- Witness of C5: the line `BadLine` leaves a table that holds one station as it was. -/
theorem process_line_no_delim_witness :
    ';' ∉ "BadLine".toList ∧
      process_line (applyReading emptyTable "Oslo".toList Double.zero) "BadLine".toList =
        applyReading emptyTable "Oslo".toList Double.zero :=
  ⟨by decide, process_line_no_delim _ _ (by decide)⟩

/-- C2, the code at a first reading below zero. The line `Paris;-2.0` on the empty table
creates the station with `min_temp = -2.0` but leaves `max_temp` at its initial value
`DBL_MIN`, the smallest positive normalised double, which no negative reading exceeds. -/
theorem first_reading_negative_max :
    process_line emptyTable "Paris;-2.0\n".toList (hash "Paris".toList) =
        [{ name := "Paris".toList, min_temp := .fin true (2 ^ 52) (-51), max_temp := DBL_MIN,
           total_temp := .fin true (2 ^ 52) (-51), count := 1 }] ∧
      atof "-2.0".toList = .fin true (2 ^ 52) (-51) ∧
      DBL_MIN ≠ .fin true (2 ^ 52) (-51) ∧
      Double.lt DBL_MIN (.fin true (2 ^ 52) (-51)) = false := by
  decide!

/-! ## Chains and buckets -/

theorem setBucket_same (t : HashTable) (i : Fin HASH_TABLE_SIZE) (c : List WeatherStation) :
    setBucket t i c i = c := by
  simp [setBucket]

theorem setBucket_other (t : HashTable) (i j : Fin HASH_TABLE_SIZE) (c : List WeatherStation)
    (h : j ≠ i) : setBucket t i c j = t j := by
  simp [setBucket, h]

theorem setBucket_setBucket (t : HashTable) (i : Fin HASH_TABLE_SIZE)
    (c d : List WeatherStation) : setBucket (setBucket t i c) i d = setBucket t i d := by
  funext j
  by_cases h : j = i <;> simp [setBucket, h]

theorem findInChain_eq_none (name : List Char) :
    ∀ c : List WeatherStation, (∀ s ∈ c, s.name ≠ name) → findInChain name c = none
  | [], _ => rfl
  | x :: c, h => by
    have hx : x.name ≠ name := h x (List.mem_cons_self _ _)
    have hc := findInChain_eq_none name c (fun s m => h s (List.mem_cons_of_mem _ m))
    simp [findInChain, hx, hc]

theorem findInChain_append (name : List Char) (s : WeatherStation) (post : List WeatherStation)
    (hs : s.name = name) :
    ∀ pre : List WeatherStation, (∀ x ∈ pre, x.name ≠ name) →
      findInChain name (pre ++ s :: post) = some pre.length
  | [], _ => by simp [findInChain, hs]
  | x :: pre, h => by
    have hx : x.name ≠ name := h x (List.mem_cons_self _ _)
    have hp := findInChain_append name s post hs pre (fun y m => h y (List.mem_cons_of_mem _ m))
    simp [findInChain, hx, hp]

/-- A chain either holds no station called `name`, or splits at the first one. -/
theorem chain_cases (name : List Char) :
    ∀ c : List WeatherStation, (∀ s ∈ c, s.name ≠ name) ∨
      ∃ pre s post, c = pre ++ s :: post ∧ s.name = name ∧ ∀ x ∈ pre, x.name ≠ name
  | [] => Or.inl (by simp)
  | x :: c => by
    by_cases hx : x.name = name
    · exact Or.inr ⟨[], x, c, rfl, hx, by simp⟩
    · rcases chain_cases name c with h | ⟨pre, s, post, hc, hs, hpre⟩
      · left
        intro s m
        rcases List.mem_cons.1 m with e | m
        · exact e ▸ hx
        · exact h s m
      · right
        refine ⟨x :: pre, s, post, by simp [hc], hs, ?_⟩
        intro y m
        rcases List.mem_cons.1 m with e | m
        · exact e ▸ hx
        · exact hpre y m

theorem modifyAt_append (f : WeatherStation → WeatherStation) (s : WeatherStation)
    (post : List WeatherStation) :
    ∀ pre : List WeatherStation, modifyAt f pre.length (pre ++ s :: post) = pre ++ f s :: post
  | [] => rfl
  | x :: pre => by
    simp [modifyAt, modifyAt_append f s post pre]

theorem applyReading_hit (t : HashTable) (name : List Char) (temp : Double)
    (pre post : List WeatherStation) (s : WeatherStation)
    (hc : t (hash name) = pre ++ s :: post) (hs : s.name = name)
    (hpre : ∀ x ∈ pre, x.name ≠ name) :
    applyReading t name temp = setBucket t (hash name) (pre ++ updateStation temp s :: post) := by
  have hf : find_or_create_station t name = (t, pre.length) := by
    unfold find_or_create_station
    rw [hc, findInChain_append name s post hs pre hpre]
  unfold applyReading
  rw [hf]
  show setBucket t (hash name) (modifyAt (updateStation temp) pre.length (t (hash name))) = _
  rw [hc, modifyAt_append]

theorem applyReading_miss (t : HashTable) (name : List Char) (temp : Double)
    (h : ∀ s ∈ t (hash name), s.name ≠ name) :
    applyReading t name temp =
      setBucket t (hash name) (updateStation temp (newStation name) :: t (hash name)) := by
  have hf : find_or_create_station t name =
      (setBucket t (hash name) (newStation name :: t (hash name)), 0) := by
    unfold find_or_create_station
    rw [findInChain_eq_none name _ h]
  unfold applyReading
  rw [hf]
  show setBucket (setBucket t (hash name) (newStation name :: t (hash name))) (hash name)
    (modifyAt (updateStation temp) 0
      (setBucket t (hash name) (newStation name :: t (hash name)) (hash name))) = _
  rw [setBucket_same, setBucket_setBucket]
  rfl

theorem updateStation_name (temp : Double) (s : WeatherStation) :
    (updateStation temp s).name = s.name := by
  by_cases h1 : Double.lt temp s.min_temp = true <;>
    by_cases h2 : Double.lt s.max_temp temp = true <;>
    simp [updateStation, h1, h2]

theorem updateStation_fields (temp : Double) (s : WeatherStation) :
    updateStation temp s =
      { name := s.name, min_temp := Double.min s.min_temp temp,
        max_temp := Double.max s.max_temp temp,
        total_temp := Double.add s.total_temp temp, count := s.count + 1 } := by
  by_cases h1 : Double.lt temp s.min_temp = true <;>
    by_cases h2 : Double.lt s.max_temp temp = true <;>
    simp [updateStation, Double.min, Double.max, h1, h2]

/-! ## The table invariant -/

theorem map_name_update (temp : Double) (s : WeatherStation) (pre post : List WeatherStation) :
    (pre ++ updateStation temp s :: post).map (·.name) = (pre ++ s :: post).map (·.name) := by
  simp [updateStation_name]

theorem tableInv_empty : TableInv emptyTable := by
  intro i
  simp [emptyTable]

theorem tableInv_setBucket (t : HashTable) (i : Fin HASH_TABLE_SIZE) (c : List WeatherStation)
    (ht : TableInv t) (h1 : ∀ s ∈ c, hash s.name = i) (h2 : (c.map (·.name)).Nodup) :
    TableInv (setBucket t i c) := by
  intro j
  by_cases hj : j = i
  · subst hj
    rw [setBucket_same]
    exact ⟨h1, h2⟩
  · rw [setBucket_other t i j c hj]
    exact ht j

theorem tableInv_find (t : HashTable) (name : List Char) (ht : TableInv t) :
    TableInv (find_or_create_station t name).1 := by
  rcases chain_cases name (t (hash name)) with h | ⟨pre, s, post, hc, hs, hpre⟩
  · have hf : find_or_create_station t name =
        (setBucket t (hash name) (newStation name :: t (hash name)), 0) := by
      unfold find_or_create_station
      rw [findInChain_eq_none name _ h]
    rw [hf]
    apply tableInv_setBucket t _ _ ht
    · intro x m
      rcases List.mem_cons.1 m with e | m
      · rw [e]; rfl
      · exact (ht (hash name)).1 x m
    · rw [List.map_cons, List.nodup_cons]
      refine ⟨?_, (ht (hash name)).2⟩
      intro m
      obtain ⟨x, hx, hn⟩ := List.mem_map.1 m
      exact h x hx hn
  · have hf : find_or_create_station t name = (t, pre.length) := by
      unfold find_or_create_station
      rw [hc, findInChain_append name s post hs pre hpre]
    rw [hf]
    exact ht

theorem tableInv_applyReading (t : HashTable) (name : List Char) (temp : Double)
    (ht : TableInv t) : TableInv (applyReading t name temp) := by
  rcases chain_cases name (t (hash name)) with h | ⟨pre, s, post, hc, hs, hpre⟩
  · rw [applyReading_miss t name temp h]
    apply tableInv_setBucket t _ _ ht
    · intro x m
      rcases List.mem_cons.1 m with e | m
      · rw [e, updateStation_name]; rfl
      · exact (ht (hash name)).1 x m
    · rw [List.map_cons, List.nodup_cons, updateStation_name]
      refine ⟨?_, (ht (hash name)).2⟩
      intro m
      obtain ⟨x, hx, hn⟩ := List.mem_map.1 m
      exact h x hx hn
  · rw [applyReading_hit t name temp pre post s hc hs hpre]
    have hinv := ht (hash name)
    rw [hc] at hinv
    apply tableInv_setBucket t _ _ ht
    · intro x m
      rcases List.mem_append.1 m with m | m
      · exact hinv.1 x (List.mem_append_left _ m)
      · rcases List.mem_cons.1 m with e | m
        · rw [e, updateStation_name]
          exact hinv.1 s (List.mem_append_right _ (List.mem_cons_self _ _))
        · exact hinv.1 x (List.mem_append_right _ (List.mem_cons_of_mem _ m))
    · rw [map_name_update]
      exact hinv.2

theorem tableInv_process_line (t : HashTable) (line : List Char) (ht : TableInv t) :
    TableInv (process_line t line) := by
  rw [process_line_eq]
  cases lineRecord line with
  | none => exact ht
  | some p => exact tableInv_applyReading t p.1 (atof p.2) ht

theorem tableInv_of_reachable (t : HashTable) (ht : Reachable t) : TableInv t := by
  induction ht with
  | empty => exact tableInv_empty
  | find t name _ _ ih => exact tableInv_find t name ih
  | line t line _ _ ih => exact tableInv_process_line t line ih

/-- In a table that satisfies the invariant, the stations ahead of `s` in its chain have
other names, and the chain is the one of the bucket of `s.name`. -/
theorem tableInv_chain (t : HashTable) (ht : TableInv t) (i : Fin HASH_TABLE_SIZE)
    (pre post : List WeatherStation) (s : WeatherStation) (hc : t i = pre ++ s :: post) :
    hash s.name = i ∧ (∀ x ∈ pre, x.name ≠ s.name) ∧ (∀ x ∈ post, x.name ≠ s.name) := by
  have hinv := ht i
  rw [hc] at hinv
  refine ⟨hinv.1 s (List.mem_append_right _ (List.mem_cons_self _ _)), ?_, ?_⟩
  · intro x m e
    have hnd := hinv.2
    rw [List.map_append, List.map_cons] at hnd
    have hdis := (List.nodup_append.1 hnd).2.2
    exact hdis (List.mem_map_of_mem _ m) (e ▸ List.mem_cons_self _ _)
  · intro x m e
    have hnd := hinv.2
    rw [List.map_append, List.map_cons] at hnd
    have h2 := (List.nodup_cons.1 (List.nodup_append.1 hnd).2.1).1
    exact h2 (e ▸ List.mem_map_of_mem _ m)

/-! ## Texts as sequences of lines -/

theorem unlines_append :
    ∀ a b : List (List Char), unlines (a ++ b) = unlines a ++ unlines b
  | [], _ => rfl
  | l :: a, b => by
    simp [unlines, unlines_append a b]

theorem unlines_singleton (l : List Char) : unlines [l] = l ++ ['\n'] := rfl

/-- Every text is a sequence of newline-terminated lines followed by a last piece that has
no newline. -/
theorem exists_lines :
    ∀ s : List Char, ∃ ls b, s = unlines ls ++ b ∧ (∀ l ∈ ls, '\n' ∉ l) ∧ '\n' ∉ b
  | [] => ⟨[], [], rfl, by simp, by simp⟩
  | c :: s => by
    obtain ⟨ls, b, hs, hls, hb⟩ := exists_lines s
    by_cases hc : c = '\n'
    · refine ⟨[] :: ls, b, by simp [unlines, hs, hc], ?_, hb⟩
      intro l m
      rcases List.mem_cons.1 m with e | m
      · simp [e]
      · exact hls l m
    · have hc2 : ¬ '\n' = c := fun e => hc e.symm
      cases ls with
      | nil =>
        refine ⟨[], c :: b, by simp [unlines, hs], by simp, ?_⟩
        simp [hc2, hb]
      | cons l ls =>
        refine ⟨(c :: l) :: ls, b, by simp [unlines, hs], ?_, hb⟩
        intro x m
        rcases List.mem_cons.1 m with e | m
        · have hl := hls l (List.mem_cons_self _ _)
          simp [e, hc2, hl]
        · exact hls x (List.mem_cons_of_mem _ m)

theorem mmap_lines_nil (fuel : Nat) : mmap_lines fuel [] = [] := by
  cases fuel <;> simp [mmap_lines]

theorem mmap_lines_last (fuel : Nat) (b : List Char) (hb : b ≠ []) (hn : '\n' ∉ b) :
    mmap_lines (fuel + 1) b = [b] := by
  rw [mmap_lines, if_neg hb, dropWhile_ne_of_not_mem '\n' b hn, takeWhile_ne_of_not_mem '\n' b hn]

theorem mmap_lines_cons (fuel : Nat) (l rest : List Char) (hn : '\n' ∉ l) :
    mmap_lines (fuel + 1) (l ++ '\n' :: rest) = l :: mmap_lines fuel rest := by
  have hne : l ++ '\n' :: rest ≠ [] := by simp
  rw [mmap_lines, if_neg hne, dropWhile_ne_append '\n' rest l hn,
    takeWhile_ne_append '\n' rest l hn]

/-- The scanning loop on a text given by its lines: it yields exactly these lines, for any
fuel that covers the length of the text. -/
theorem mmap_lines_unlines (b : List Char) (hb : '\n' ∉ b) :
    ∀ (ls : List (List Char)) (fuel : Nat), (∀ l ∈ ls, '\n' ∉ l) →
      (unlines ls ++ b).length ≤ fuel → mmap_lines fuel (unlines ls ++ b) = ls ++ lastLine b
  | [], fuel, _, hf => by
    by_cases h : b = []
    · simp [unlines, lastLine, h, mmap_lines_nil]
    · cases fuel with
      | zero =>
        exfalso
        apply h
        simpa [unlines] using hf
      | succ fuel => simp [unlines, lastLine, h, mmap_lines_last fuel b h hb]
  | l :: ls, fuel, hls, hf => by
    have hl : '\n' ∉ l := hls l (List.mem_cons_self _ _)
    cases fuel with
    | zero => simp [unlines] at hf
    | succ fuel =>
      have hf2 : (unlines ls ++ b).length ≤ fuel := by
        simp [unlines] at hf ⊢
        omega
      have ih := mmap_lines_unlines b hb ls fuel
        (fun x m => hls x (List.mem_cons_of_mem _ m)) hf2
      show mmap_lines (fuel + 1) ((l ++ '\n' :: unlines ls) ++ b) = _
      rw [List.append_assoc, List.cons_append, mmap_lines_cons fuel l _ hl, ih]
      rfl

theorem intercalate_snoc (b : List Char) :
    ∀ ls : List (List Char), List.intercalate ['\n'] (ls ++ [b]) = unlines ls ++ b
  | [] => by simp [List.intercalate, unlines]
  | l :: ls => by
    have ih := intercalate_snoc b ls
    cases ls with
    | nil => simp [List.intercalate, unlines]
    | cons x ls =>
      simp only [List.intercalate, List.cons_append, List.intersperse, List.flatten_cons] at ih ⊢
      show l ++ (['\n'] ++ (List.intersperse ['\n'] (x :: (ls ++ [b]))).flatten) = _
      rw [ih]
      simp [unlines]

theorem stripNewline_snoc (x : List Char) : stripNewline (x ++ ['\n']) = x := by
  simp [stripNewline]

theorem stripNewline_of_last (x b : List Char) (hb : b ≠ []) (hn : '\n' ∉ b) :
    stripNewline (x ++ b) = x ++ b := by
  unfold stripNewline
  rw [List.getLast?_append_of_ne_nil _ hb]
  have h : b.getLast? ≠ some '\n' := by
    intro e
    exact hn (List.mem_of_getLast?_eq_some e)
  simp [h]

/-- C9. The scanning loop of `process_file_mmap` on a byte range `s` yields lines without
newline whose join with newlines is `s` minus one trailing newline; the empty range yields
no line; and a non-empty final segment without a terminating newline is the last line. -/
theorem mmap_lines_spec (s : List Char) :
    (∀ l ∈ mmap_lines s.length s, '\n' ∉ l) ∧
      List.intercalate ['\n'] (mmap_lines s.length s) = stripNewline s ∧
      mmap_lines ([] : List Char).length [] = [] ∧
      (∀ a b : List Char, s = a ++ b → b ≠ [] → '\n' ∉ b →
        (a = [] ∨ a.getLast? = some '\n') → (mmap_lines s.length s).getLast? = some b) := by
  obtain ⟨ls, b, hs, hls, hb⟩ := exists_lines s
  have hm : mmap_lines s.length s = ls ++ lastLine b := by
    rw [hs]
    exact mmap_lines_unlines b hb ls _ hls (Nat.le_refl _)
  refine ⟨?_, ?_, rfl, ?_⟩
  · intro l m
    rw [hm] at m
    rcases List.mem_append.1 m with m | m
    · exact hls l m
    · unfold lastLine at m
      split_ifs at m with h
      · simp at m
      · rw [List.mem_singleton.1 m]
        exact hb
  · rw [hm]
    by_cases h : b = []
    · subst h
      rw [hs]
      simp only [lastLine, if_true, List.append_nil]
      rcases List.eq_nil_or_concat ls with e | ⟨ls2, l, e⟩
      · subst e
        rfl
      · rw [List.concat_eq_append] at e
        subst e
        rw [intercalate_snoc, unlines_append, unlines_singleton,
          ← List.append_assoc, stripNewline_snoc]
    · rw [hs, stripNewline_of_last _ b h hb]
      simp only [lastLine, h, if_false]
      exact intercalate_snoc b ls
  · intro a b2 hab hb2 hn2 ha
    obtain ⟨la, b0, ha0, hla, hb0⟩ := exists_lines a
    have hb0nil : b0 = [] := by
      by_contra hne
      rcases ha with e | e
      · rw [e] at ha0
        have := congrArg List.length ha0
        simp at this
        exact hne (List.length_eq_zero.1 (by omega))
      · rw [ha0, List.getLast?_append_of_ne_nil _ hne] at e
        exact hb0 (List.mem_of_getLast?_eq_some e)
    subst hb0nil
    rw [List.append_nil] at ha0
    have hm2 : mmap_lines s.length s = la ++ lastLine b2 := by
      rw [hab, ha0]
      exact mmap_lines_unlines b2 hn2 la _ hla (Nat.le_refl _)
    rw [hm2]
    simp [lastLine, hb2]

/-- Witness of C9: the range `a;1\nb;2` ends with the unterminated line `b;2`. -/
theorem mmap_lines_spec_witness :
    (mmap_lines "a;1\nb;2".toList.length "a;1\nb;2".toList).getLast? = some "b;2".toList :=
  (mmap_lines_spec "a;1\nb;2".toList).2.2.2 "a;1\n".toList "b;2".toList (by decide) (by decide)
    (by decide) (Or.inr (by decide))

/-! ## A trailing newline does not change what `process_line` does -/

theorem lineRecord_nul_free (line : List Char) (h : '\x00' ∉ line) :
    lineRecord line =
      match strtok line ';' with
      | none => none
      | some (name, saved) =>
        match strtok saved '\n' with
        | none => none
        | some (temp_str, _) => some (name, temp_str) := by
  unfold lineRecord cstr
  rw [takeWhile_ne_of_not_mem '\x00' line h]

/-- The tokens of a NUL-free text that starts with a name, a `;` and a non-empty field. -/
theorem lineRecord_fields (name field rest : List Char) (hn : name ≠ []) (hd : ';' ∉ name)
    (hf : field ≠ []) (hnl : '\n' ∉ field) (hrest : rest = [] ∨ rest = ['\n'])
    (h0 : '\x00' ∉ name ++ ';' :: field ++ rest) :
    lineRecord (name ++ ';' :: field ++ rest) = some (name, field) := by
  rw [lineRecord_nul_free _ h0, List.append_assoc, List.cons_append,
    strtok_append_delim ';' name _ hn hd]
  dsimp only
  rcases hrest with e | e
  · subst e
    rw [List.append_nil, strtok_of_not_mem '\n' field hf hnl]
  · subst e
    rw [strtok_append_delim '\n' field [] hf hnl]

theorem tokens_newline :
    ∀ c : List Char, '\n' ∉ c →
      (match strtok (c ++ ['\n']) ';' with
        | none => (none : Option (List Char × List Char))
        | some (name, saved) =>
          match strtok saved '\n' with
          | none => none
          | some (temp_str, _) => some (name, temp_str)) =
      (match strtok c ';' with
        | none => none
        | some (name, saved) =>
          match strtok saved '\n' with
          | none => none
          | some (temp_str, _) => some (name, temp_str))
  | [], _ => by
    rw [List.nil_append, strtok_of_not_mem ';' ['\n'] (by simp) (by decide), strtok_nil]
    simp [strtok_nil]
  | x :: c, h => by
    have hc : '\n' ∉ c := fun m => h (List.mem_cons_of_mem _ m)
    by_cases hx : x = ';'
    · subst hx
      rw [List.cons_append, strtok_cons_delim, strtok_cons_delim]
      exact tokens_newline c hc
    · by_cases hm : ';' ∈ x :: c
      · obtain ⟨n, r, hnr, hn⟩ := split_at_first ';' (x :: c) hm
        have hn0 : n ≠ [] := by
          intro e
          rw [e, List.nil_append] at hnr
          exact hx (List.cons.inj hnr).1
        have hr : '\n' ∉ r := by
          intro m
          apply h
          rw [hnr]
          exact List.mem_append_right _ (List.mem_cons_of_mem _ m)
        rw [hnr, List.append_assoc, List.cons_append, strtok_append_delim ';' n _ hn0 hn,
          strtok_append_delim ';' n _ hn0 hn]
        dsimp only
        by_cases hr0 : r = []
        · subst hr0
          rw [List.nil_append, strtok_cons_delim, strtok_nil]
        · rw [strtok_append_delim '\n' r [] hr0 hr, strtok_of_not_mem '\n' r hr0 hr]
      · have hm2 : ';' ∉ (x :: c) ++ ['\n'] := by
          intro m
          rcases List.mem_append.1 m with m | m
          · exact hm m
          · simp at m
        rw [strtok_of_not_mem ';' _ (by simp) hm2, strtok_of_not_mem ';' _ (by simp) hm]
        simp [strtok_nil]

theorem lineRecord_newline (l : List Char) (h : '\n' ∉ l) :
    lineRecord (l ++ ['\n']) = lineRecord l := by
  by_cases h0 : '\x00' ∈ l
  · obtain ⟨a, b, hab, ha⟩ := split_at_first '\x00' l h0
    have e1 : cstr (l ++ ['\n']) = a := by
      rw [hab, List.append_assoc, List.cons_append]
      exact takeWhile_ne_append '\x00' _ a ha
    have e2 : cstr l = a := by
      rw [hab]
      exact takeWhile_ne_append '\x00' _ a ha
    unfold lineRecord
    rw [e1, e2]
  · have h1 : '\x00' ∉ l ++ ['\n'] := by
      intro m
      rcases List.mem_append.1 m with m | m
      · exact h0 m
      · simp at m
    rw [lineRecord_nul_free _ h1, lineRecord_nul_free _ h0]
    exact tokens_newline l h

theorem process_line_newline (t : HashTable) (l : List Char) (h : '\n' ∉ l) :
    process_line t (l ++ ['\n']) = process_line t l := by
  rw [process_line_eq, process_line_eq, lineRecord_newline l h]

theorem process_line_only_newline (t : HashTable) : process_line t ['\n'] = t := by
  rw [process_line_eq, lineRecord_of_no_delim ['\n'] (by decide)]

/-! ## `fgets` and the buffered loop -/

theorem fgetsRead_line (rest : List Char) :
    ∀ (n : Nat) (l : List Char), '\n' ∉ l → l.length < n →
      fgetsRead n (l ++ '\n' :: rest) = (l ++ ['\n'], rest)
  | 0, _, _, h => absurd h (Nat.not_lt_zero _)
  | n + 1, [], _, _ => by simp [fgetsRead]
  | n + 1, x :: l, hn, h => by
    have hx : x ≠ '\n' := fun e => hn (e ▸ List.mem_cons_self _ _)
    have hl : '\n' ∉ l := fun m => hn (List.mem_cons_of_mem _ m)
    have ih := fgetsRead_line rest n l hl (by simpa using h)
    simp [fgetsRead, hx, ih]

theorem fgetsRead_full (rest : List Char) :
    ∀ l : List Char, '\n' ∉ l → fgetsRead l.length (l ++ rest) = (l, rest)
  | [], _ => by simp [fgetsRead]
  | x :: l, hn => by
    have hx : x ≠ '\n' := fun e => hn (e ▸ List.mem_cons_self _ _)
    have hl : '\n' ∉ l := fun m => hn (List.mem_cons_of_mem _ m)
    have ih := fgetsRead_full rest l hl
    simp [fgetsRead, hx, ih]

theorem fgetsRead_eof :
    ∀ (n : Nat) (l : List Char), '\n' ∉ l → l.length ≤ n → fgetsRead n l = (l, [])
  | 0, l, _, h => by
    have : l = [] := List.length_eq_zero.1 (Nat.le_zero.1 h)
    simp [fgetsRead, this]
  | n + 1, [], _, _ => by simp [fgetsRead]
  | n + 1, x :: l, hn, h => by
    have hx : x ≠ '\n' := fun e => hn (e ▸ List.mem_cons_self _ _)
    have hl : '\n' ∉ l := fun m => hn (List.mem_cons_of_mem _ m)
    have ih := fgetsRead_eof n l hl (by simpa using h)
    simp [fgetsRead, hx, ih]

/-- What one `fgets` call reads: a prefix of the stream of at most `n` bytes, which is a line
with its newline, or has no newline and then fills the buffer or reaches the end of file. -/
theorem fgetsRead_cases :
    ∀ (n : Nat) (s : List Char),
      s = (fgetsRead n s).1 ++ (fgetsRead n s).2 ∧ (fgetsRead n s).1.length ≤ n ∧
      ((∃ l, (fgetsRead n s).1 = l ++ ['\n'] ∧ '\n' ∉ l ∧ l.length < n) ∨
        ('\n' ∉ (fgetsRead n s).1 ∧
          ((fgetsRead n s).1.length = n ∨ (fgetsRead n s).2 = [])))
  | 0, s => by simp [fgetsRead]
  | n + 1, [] => by simp [fgetsRead]
  | n + 1, x :: s => by
    by_cases hx : x = '\n'
    · subst hx
      refine ⟨by simp [fgetsRead], by simp [fgetsRead], Or.inl ⟨[], by simp [fgetsRead]⟩⟩
    · obtain ⟨h1, h2, h3⟩ := fgetsRead_cases n s
      have e1 : (fgetsRead (n + 1) (x :: s)).1 = x :: (fgetsRead n s).1 := by
        simp [fgetsRead, hx]
      have e2 : (fgetsRead (n + 1) (x :: s)).2 = (fgetsRead n s).2 := by
        simp [fgetsRead, hx]
      rw [e1, e2]
      refine ⟨by rw [List.cons_append, ← h1], by simpa using h2, ?_⟩
      rcases h3 with ⟨l, hl, hnl, hlen⟩ | ⟨hnl, hor⟩
      · left
        refine ⟨x :: l, by rw [hl]; rfl, ?_, by simpa using hlen⟩
        intro m
        rcases List.mem_cons.1 m with e | m
        · exact hx e.symm
        · exact hnl m
      · right
        refine ⟨?_, ?_⟩
        · intro m
          rcases List.mem_cons.1 m with e | m
          · exact hx e.symm
          · exact hnl m
        · rcases hor with e | e
          · left; simpa using e
          · right; exact e

theorem fgetsRead_rest_lt (n : Nat) (s : List Char) (hs : s ≠ []) :
    (fgetsRead (n + 1) s).2.length < s.length := by
  cases s with
  | nil => exact absurd rfl hs
  | cons x s =>
    by_cases hx : x = '\n'
    · simp [fgetsRead, hx]
    · have h := (fgetsRead_cases n s).1
      have e2 : (fgetsRead (n + 1) (x :: s)).2 = (fgetsRead n s).2 := by
        simp [fgetsRead, hx]
      rw [e2]
      have := congrArg List.length h
      simp at this ⊢
      omega

theorem fread_lines_nil (fuel : Nat) : fread_lines fuel [] = [] := by
  cases fuel <;> simp [fread_lines, fgets]

theorem fread_lines_succ (fuel : Nat) (s : List Char) (hs : s ≠ []) :
    fread_lines (fuel + 1) s = (fgetsRead 255 s).1 :: fread_lines fuel (fgetsRead 255 s).2 := by
  simp [fread_lines, fgets, hs]

/-- The buffered loop does not depend on the fuel once it covers the stream. -/
theorem fread_lines_fuel :
    ∀ (f1 f2 : Nat) (s : List Char), s.length ≤ f1 → s.length ≤ f2 →
      fread_lines f1 s = fread_lines f2 s
  | 0, f2, s, h1, _ => by
    have : s = [] := List.length_eq_zero.1 (Nat.le_zero.1 h1)
    rw [this, fread_lines_nil, fread_lines_nil]
  | f1 + 1, f2, s, h1, h2 => by
    by_cases hs : s = []
    · rw [hs, fread_lines_nil, fread_lines_nil]
    · have hlt : (fgetsRead 255 s).2.length < s.length := fgetsRead_rest_lt 254 s hs
      cases f2 with
      | zero => exact absurd (List.length_eq_zero.1 (Nat.le_zero.1 h2)) hs
      | succ f2 =>
        rw [fread_lines_succ f1 s hs, fread_lines_succ f2 s hs,
          fread_lines_fuel f1 f2 _ (by omega) (by omega)]

theorem freadAll_nil : freadAll [] = [] := rfl

theorem freadAll_cons (s : List Char) (hs : s ≠ []) :
    freadAll s = (fgetsRead 255 s).1 :: freadAll (fgetsRead 255 s).2 := by
  have hlt : (fgetsRead 255 s).2.length < s.length := fgetsRead_rest_lt 254 s hs
  unfold freadAll
  cases h : s.length with
  | zero => exact absurd (List.length_eq_zero.1 h) hs
  | succ k =>
    rw [fread_lines_succ k s hs]
    rw [fread_lines_fuel k _ _ (by omega) (Nat.le_refl _)]

theorem process_file_fread_eq (t : HashTable) (file : List Char) :
    process_file_fread t file = (freadAll file).foldl process_line t := rfl

theorem freadAll_newline : freadAll ['\n'] = [['\n']] := by
  rw [freadAll_cons _ (by simp)]
  simp [fgetsRead, freadAll_nil]

/-- The buffered loop on a stream without final newline and on the same stream with one
added leave the same table. -/
theorem fread_fold_newline :
    ∀ (k : Nat) (s : List Char) (t : HashTable), s.length ≤ k → s ≠ [] →
      s.getLast? ≠ some '\n' →
      (freadAll (s ++ ['\n'])).foldl process_line t = (freadAll s).foldl process_line t
  | 0, s, _, hk, hs, _ => absurd (List.length_eq_zero.1 (Nat.le_zero.1 hk)) hs
  | k + 1, s, t, hk, hs, hl => by
    obtain ⟨h1, h2, h3⟩ := fgetsRead_cases 255 s
    have hlt : (fgetsRead 255 s).2.length < s.length := fgetsRead_rest_lt 254 s hs
    have hs2 : s ++ ['\n'] ≠ [] := by simp
    rw [freadAll_cons s hs, freadAll_cons _ hs2]
    by_cases hr : (fgetsRead 255 s).2 = []
    · rw [hr] at h1 h3 ⊢
      rw [List.append_nil] at h1
      have hnl : '\n' ∉ s := by
        rcases h3 with ⟨l, hc, _, _⟩ | ⟨hnl, _⟩
        · exfalso
          apply hl
          rw [h1, hc]
          simp
        · rw [h1]; exact hnl
      rw [← h1] at h2 ⊢
      rcases Nat.lt_or_ge s.length 255 with hlen | hlen
      · rw [fgetsRead_line [] 255 s hnl hlen]
        simp only [freadAll_nil, List.foldl_cons, List.foldl_nil]
        exact process_line_newline t s hnl
      · have hlen2 : s.length = 255 := Nat.le_antisymm h2 hlen
        have hfull := fgetsRead_full ['\n'] s hnl
        rw [hlen2] at hfull
        rw [hfull]
        simp only [freadAll_newline, freadAll_nil, List.foldl_cons, List.foldl_nil]
        exact process_line_only_newline _
    · have hr2 : (fgetsRead 255 s).2.getLast? ≠ some '\n' := by
        intro e
        apply hl
        rw [h1, List.getLast?_append_of_ne_nil _ hr]
        exact e
      have hread : fgetsRead 255 (s ++ ['\n']) =
          ((fgetsRead 255 s).1, (fgetsRead 255 s).2 ++ ['\n']) := by
        rcases h3 with ⟨l, hc, hnl, hlen⟩ | ⟨hnl, hor⟩
        · have e : s ++ ['\n'] = l ++ '\n' :: ((fgetsRead 255 s).2 ++ ['\n']) := by
            conv_lhs => rw [h1, hc]
            simp
          rw [e, fgetsRead_line _ 255 l hnl hlen, hc]
        · rcases hor with hlen | e
          · have e : s ++ ['\n'] = (fgetsRead 255 s).1 ++ ((fgetsRead 255 s).2 ++ ['\n']) := by
              conv_lhs => rw [h1]
              simp
            have hfull := fgetsRead_full ((fgetsRead 255 s).2 ++ ['\n']) (fgetsRead 255 s).1 hnl
            rw [hlen] at hfull
            rw [e, hfull]
          · exact absurd e hr
      rw [hread]
      simp only [List.foldl_cons]
      exact fread_fold_newline k _ _ (by omega) hr hr2

/-- The buffered loop on a text whose lines have at most 255 bytes leaves the table that
`process_line` leaves on these lines. -/
theorem fread_fold_lines (b : List Char) (hb : '\n' ∉ b) (hbl : b.length ≤ 255) :
    ∀ (ls : List (List Char)) (t : HashTable), (∀ l ∈ ls, '\n' ∉ l ∧ l.length ≤ 255) →
      (freadAll (unlines ls ++ b)).foldl process_line t =
        (ls ++ lastLine b).foldl process_line t
  | [], t, _ => by
    by_cases h : b = []
    · simp [unlines, lastLine, h, freadAll_nil]
    · rw [show unlines [] ++ b = b from rfl, freadAll_cons b h, fgetsRead_eof 255 b hb hbl]
      simp [lastLine, h, freadAll_nil]
  | l :: ls, t, hls => by
    obtain ⟨hl, hlen⟩ := hls l (List.mem_cons_self _ _)
    have ih := fun t => fread_fold_lines b hb hbl ls t
      (fun x m => hls x (List.mem_cons_of_mem _ m))
    have e : unlines (l :: ls) ++ b = l ++ '\n' :: (unlines ls ++ b) := by
      simp [unlines]
    rw [e, freadAll_cons _ (by simp)]
    rcases Nat.lt_or_ge l.length 255 with h | h
    · rw [fgetsRead_line _ 255 l hl h]
      simp only [List.cons_append, List.foldl_cons]
      rw [process_line_newline t l hl, ih]
    · have hlen2 : l.length = 255 := Nat.le_antisymm hlen h
      have hfull := fgetsRead_full ('\n' :: (unlines ls ++ b)) l hl
      rw [hlen2] at hfull
      rw [hfull]
      simp only [List.cons_append, List.foldl_cons]
      rw [freadAll_cons _ (by simp)]
      have e2 : fgetsRead 255 ('\n' :: (unlines ls ++ b)) = (['\n'], unlines ls ++ b) := by
        simp [fgetsRead]
      rw [e2]
      simp only [List.foldl_cons]
      rw [process_line_only_newline, ih]

/-- C10. For a non-empty input that does not end with a newline, adding the newline
changes nothing: both strategies leave the same table with and without it, and the mapped
strategy succeeds on both inputs. -/
theorem trailing_newline_irrelevant (t : HashTable) (s : List Char) (hs : s ≠ [])
    (hl : s.getLast? ≠ some '\n') :
    process_file_fread t (s ++ ['\n']) = process_file_fread t s ∧
      process_file_mmap t (s ++ ['\n']) = process_file_mmap t s ∧
      process_file_mmap t s = some (mmap_scan t s) := by
  refine ⟨?_, ?_, ?_⟩
  · rw [process_file_fread_eq, process_file_fread_eq]
    exact fread_fold_newline s.length s t (Nat.le_refl _) hs hl
  · obtain ⟨ls, b, hsb, hls, hb⟩ := exists_lines s
    have hb0 : b ≠ [] := by
      intro e
      subst e
      rw [List.append_nil] at hsb
      rcases List.eq_nil_or_concat ls with e | ⟨ls2, l, e⟩
      · subst e
        exact hs hsb
      · rw [List.concat_eq_append] at e
        subst e
        apply hl
        rw [hsb, unlines_append, unlines_singleton, ← List.append_assoc]
        simp
    have h1 : (s ++ ['\n']).length ≠ 0 := by simp
    have h2 : s.length ≠ 0 := fun e => hs (List.length_eq_zero.1 e)
    have e1 : s ++ ['\n'] = unlines (ls ++ [b]) ++ [] := by
      rw [hsb, unlines_append, unlines_singleton]
      simp
    have hls2 : ∀ l ∈ ls ++ [b], '\n' ∉ l := by
      intro l m
      rcases List.mem_append.1 m with m | m
      · exact hls l m
      · rw [List.mem_singleton.1 m]; exact hb
    have m1 : mmap_lines (s ++ ['\n']).length (s ++ ['\n']) = ls ++ [b] := by
      rw [e1, mmap_lines_unlines [] (by simp) (ls ++ [b]) _ hls2 (Nat.le_refl _)]
      simp [lastLine]
    have m2 : mmap_lines s.length s = ls ++ [b] := by
      rw [hsb, mmap_lines_unlines b hb ls _ hls (Nat.le_refl _)]
      simp [lastLine, hb0]
    unfold process_file_mmap mmap_scan
    rw [if_neg h1, if_neg h2, m1, m2]
  · have h2 : s.length ≠ 0 := fun e => hs (List.length_eq_zero.1 e)
    unfold process_file_mmap
    rw [if_neg h2]

/-- Witness of C10: the file `Tokyo;15.3\nParis;-2.0` with and without a final newline. -/
theorem trailing_newline_irrelevant_witness :
    process_file_fread emptyTable ("Tokyo;15.3\nParis;-2.0".toList ++ ['\n']) =
        process_file_fread emptyTable "Tokyo;15.3\nParis;-2.0".toList ∧
      process_file_mmap emptyTable ("Tokyo;15.3\nParis;-2.0".toList ++ ['\n']) =
        process_file_mmap emptyTable "Tokyo;15.3\nParis;-2.0".toList ∧
      process_file_mmap emptyTable "Tokyo;15.3\nParis;-2.0".toList =
        some (mmap_scan emptyTable "Tokyo;15.3\nParis;-2.0".toList) :=
  trailing_newline_irrelevant emptyTable "Tokyo;15.3\nParis;-2.0".toList (by decide)
    (by decide)

/-! ## Rounding is exact on binary64 values -/

theorem ilog2Loop_spec :
    ∀ (fuel n : Nat), 0 < n → n ≤ fuel →
      2 ^ Double.ilog2Loop fuel n ≤ n ∧ n < 2 ^ (Double.ilog2Loop fuel n + 1)
  | 0, n, h0, h => by omega
  | fuel + 1, n, h0, h => by
    unfold Double.ilog2Loop
    by_cases h2 : n < 2
    · rw [if_pos h2]
      constructor
      · simpa using h0
      · simpa using h2
    · rw [if_neg h2]
      obtain ⟨a, b⟩ := ilog2Loop_spec fuel (n / 2) (by omega) (by omega)
      simp only [Nat.pow_succ] at b ⊢
      generalize 2 ^ Double.ilog2Loop fuel (n / 2) = P at a b ⊢
      omega

theorem ilog2_spec (n : Nat) (h : 0 < n) : 2 ^ Double.ilog2 n ≤ n ∧ n < 2 ^ (Double.ilog2 n + 1) :=
  ilog2Loop_spec n n h (Nat.le_refl n)

end TempStat

namespace TempStat

/-- A line with a `;` is its name field, the `;`, its temperature field, and possibly one
final newline. -/
theorem line_fields (line : List Char) (hd : ';' ∈ line) :
    ∃ rest, (rest = [] ∨ rest = ['\n']) ∧
      line = nameField line ++ ';' :: tempField line ++ rest ∧ ';' ∉ nameField line := by
  obtain ⟨n, r, hnr, hn⟩ := split_at_first ';' line hd
  have e1 : nameField line = n := by
    unfold nameField
    rw [hnr]
    exact takeWhile_ne_append ';' r n hn
  have e2 : tempField line = stripNewline r := by
    unfold tempField
    rw [hnr, dropWhile_ne_append ';' r n hn]
    rfl
  rw [e1, e2]
  by_cases hlast : r.getLast? = some '\n'
  · refine ⟨['\n'], Or.inr rfl, ?_, hn⟩
    have hr : r.dropLast ++ ['\n'] = r := List.dropLast_append_getLast? '\n' hlast
    simp only [stripNewline, hlast, if_true]
    rw [List.append_assoc, List.cons_append, hr]
    exact hnr
  · refine ⟨[], Or.inl rfl, ?_, hn⟩
    simp only [stripNewline, hlast, if_false]
    rw [List.append_nil]
    exact hnr

theorem lineRecord_of_fields (line : List Char) (h0 : '\x00' ∉ line) (hd : ';' ∈ line)
    (hn : nameField line ≠ []) (hf : tempField line ≠ []) (hnl : '\n' ∉ tempField line) :
    lineRecord line = some (nameField line, tempField line) := by
  obtain ⟨rest, hrest, hline, hsemi⟩ := line_fields line hd
  have h1 : '\x00' ∉ nameField line ++ ';' :: tempField line ++ rest := by
    rw [← hline]; exact h0
  have h := lineRecord_fields (nameField line) (tempField line) rest hn hsemi hf hnl hrest h1
  rw [← hline] at h
  exact h

/-- C6 as amended. For a NUL-free line with a `;` whose name field (the text before the
first `;`) is non-empty and whose temperature field (the text after the first `;`, without a
trailing newline) is non-empty and holds no newline, `process_line` does what the
specification says: it updates the station named by the name field with the value parsed
from the temperature field. -/
theorem process_line_fields (t : HashTable) (line : List Char) (h0 : '\x00' ∉ line)
    (hd : ';' ∈ line) (hn : nameField line ≠ []) (hf : tempField line ≠ [])
    (hnl : '\n' ∉ tempField line) :
    process_line t line = process_line_spec t line ∧
      process_line t line = applyReading t (nameField line) (atof (tempField line)) := by
  have h : process_line t line = applyReading t (nameField line) (atof (tempField line)) := by
    rw [process_line_eq, lineRecord_of_fields line h0 hd hn hf hnl]
  refine ⟨?_, h⟩
  rw [h]
  unfold process_line_spec
  rw [if_pos hd]

/-- Witness of C6 as amended on the line `Tokyo;15.3` with its newline. -/
theorem process_line_fields_witness :
    process_line emptyTable "Tokyo;15.3\n".toList =
        process_line_spec emptyTable "Tokyo;15.3\n".toList ∧
      process_line emptyTable "Tokyo;15.3\n".toList =
        applyReading emptyTable (nameField "Tokyo;15.3\n".toList)
          (atof (tempField "Tokyo;15.3\n".toList)) :=
  process_line_fields emptyTable "Tokyo;15.3\n".toList (by decide) (by decide) (by decide)
    (by decide) (by decide)

/-- C6 as stated fails. On the line `;A;5` the text before the first `;` is empty and the
text after it is `A;5`, but `strtok` skips the leading `;`: the code updates station `A`
with the reading `5`, where the claim has the station with the empty name updated. -/
theorem process_line_leading_delim :
    nameField ";A;5".toList = [] ∧ tempField ";A;5".toList = "A;5".toList ∧
      lineRecord ";A;5".toList = some ("A".toList, "5".toList) ∧
      process_line emptyTable ";A;5".toList ≠ process_line_spec emptyTable ";A;5".toList := by
  refine ⟨by decide, by decide, by decide, ?_⟩
  intro h
  have hne : process_line emptyTable ";A;5".toList (hash "A".toList) ≠
      process_line_spec emptyTable ";A;5".toList (hash "A".toList) := by
    decide!
  exact hne (congrFun h _)

theorem find_append_hit (name : List Char) (s : WeatherStation) (post : List WeatherStation)
    (hs : s.name = name) :
    ∀ pre : List WeatherStation, (∀ x ∈ pre, x.name ≠ name) →
      (pre ++ s :: post).find? (fun x => decide (x.name = name)) = some s
  | [], _ => by simp [List.find?, hs]
  | x :: pre, h => by
    have hx : x.name ≠ name := h x (List.mem_cons_self _ _)
    have ih := find_append_hit name s post hs pre (fun y m => h y (List.mem_cons_of_mem _ m))
    simp only [List.cons_append, List.find?, hx, decide_False]
    exact ih

theorem find_miss (name : List Char) :
    ∀ c : List WeatherStation, (∀ x ∈ c, x.name ≠ name) →
      c.find? (fun x => decide (x.name = name)) = none
  | [], _ => rfl
  | x :: c, h => by
    have hx : x.name ≠ name := h x (List.mem_cons_self _ _)
    have ih := find_miss name c (fun y m => h y (List.mem_cons_of_mem _ m))
    simp only [List.find?, hx, decide_False]
    exact ih

theorem currentStation_miss (t : HashTable) (name : List Char)
    (h : ∀ s ∈ t (hash name), s.name ≠ name) : currentStation t name = newStation name := by
  unfold currentStation
  rw [find_miss name _ h]
  rfl

theorem currentStation_hit (t : HashTable) (name : List Char) (pre post : List WeatherStation)
    (s : WeatherStation) (hc : t (hash name) = pre ++ s :: post) (hs : s.name = name)
    (hpre : ∀ x ∈ pre, x.name ≠ name) : currentStation t name = s := by
  unfold currentStation
  rw [hc, find_append_hit name s post hs pre hpre]
  rfl

theorem currentStation_name (t : HashTable) (name : List Char) :
    (currentStation t name).name = name := by
  rcases chain_cases name (t (hash name)) with h | ⟨pre, s, post, hc, hs, hpre⟩
  · rw [currentStation_miss t name h]; rfl
  · rw [currentStation_hit t name pre post s hc hs hpre]; exact hs

/-- The stations of the table after a reading: those of other names, unchanged and in their
buckets, and the updated station of the name. -/
theorem mem_applyReading (t : HashTable) (ht : TableInv t) (name : List Char) (temp : Double)
    (i : Fin HASH_TABLE_SIZE) (s : WeatherStation) :
    s ∈ applyReading t name temp i ↔
      (s.name ≠ name ∧ s ∈ t i) ∨
        (i = hash name ∧ s = updateStation temp (currentStation t name)) := by
  rcases chain_cases name (t (hash name)) with h | ⟨pre, s0, post, hc, hs, hpre⟩
  · rw [applyReading_miss t name temp h, currentStation_miss t name h]
    by_cases hi : i = hash name
    · subst hi
      rw [setBucket_same, List.mem_cons]
      constructor
      · rintro (e | m)
        · exact Or.inr ⟨rfl, e⟩
        · exact Or.inl ⟨h s m, m⟩
      · rintro (⟨_, m⟩ | ⟨_, e⟩)
        · exact Or.inr m
        · exact Or.inl e
    · rw [setBucket_other _ _ _ _ hi]
      constructor
      · intro m
        refine Or.inl ⟨?_, m⟩
        intro e
        exact hi (((ht i).1 s m).symm.trans (congrArg hash e))
      · rintro (⟨_, m⟩ | ⟨e, _⟩)
        · exact m
        · exact absurd e hi
  · obtain ⟨_, _, hpost⟩ := tableInv_chain t ht (hash name) pre post s0 hc
    rw [hs] at hpost
    rw [applyReading_hit t name temp pre post s0 hc hs hpre,
      currentStation_hit t name pre post s0 hc hs hpre]
    by_cases hi : i = hash name
    · subst hi
      rw [setBucket_same, hc]
      simp only [List.mem_append, List.mem_cons]
      constructor
      · rintro (m | e | m)
        · exact Or.inl ⟨hpre s m, Or.inl m⟩
        · exact Or.inr ⟨trivial, e⟩
        · exact Or.inl ⟨hpost s m, Or.inr (Or.inr m)⟩
      · rintro (⟨hne, m | e | m⟩ | ⟨_, e⟩)
        · exact Or.inl m
        · exact absurd (e ▸ hs) hne
        · exact Or.inr (Or.inr m)
        · exact Or.inr (Or.inl e)
    · rw [setBucket_other _ _ _ _ hi]
      constructor
      · intro m
        refine Or.inl ⟨?_, m⟩
        intro e
        exact hi (((ht i).1 s m).symm.trans (congrArg hash e))
      · rintro (⟨_, m⟩ | ⟨e, _⟩)
        · exact m
        · exact absurd e hi

theorem readingsOf_append (a b : List (List Char × Double)) (name : List Char) :
    readingsOf (a ++ b) name = readingsOf a name ++ readingsOf b name := by
  simp [readingsOf]

theorem readingsOf_single_same (name : List Char) (v : Double) :
    readingsOf [(name, v)] name = [v] := by
  simp [readingsOf]

theorem readingsOf_single_other (name other : List Char) (v : Double) (h : other ≠ name) :
    readingsOf [(other, v)] name = [] := by
  simp [readingsOf, h]

theorem stationOf_snoc (name : List Char) (rs : List Double) (v : Double) :
    stationOf name (rs ++ [v]) = updateStation v (stationOf name rs) := by
  simp [stationOf, List.foldl_append]

theorem stationOf_name (name : List Char) (rs : List Double) :
    (stationOf name rs).name = name := by
  induction rs using List.reverseRecOn with
  | nil => rfl
  | append_singleton rs v ih => rw [stationOf_snoc, updateStation_name, ih]

theorem recInv_empty : RecInv emptyTable [] := by
  refine ⟨tableInv_empty, ?_, ?_⟩
  · intro i s m
    simp [emptyTable] at m
  · intro name h
    simp [readingsOf] at h

theorem recInv_step (t : HashTable) (recs : List (List Char × Double)) (name : List Char)
    (temp : Double) (h : RecInv t recs) :
    RecInv (applyReading t name temp) (recs ++ [(name, temp)]) := by
  obtain ⟨ht, hst, hex⟩ := h
  have hcur : currentStation t name = stationOf name (readingsOf recs name) := by
    rcases chain_cases name (t (hash name)) with hm | ⟨pre, s0, post, hc, hs, hpre⟩
    · rw [currentStation_miss t name hm]
      have : readingsOf recs name = [] := by
        by_contra hne
        obtain ⟨s, m, e⟩ := hex name hne
        exact hm s m e
      rw [this]
      rfl
    · rw [currentStation_hit t name pre post s0 hc hs hpre]
      have m : s0 ∈ t (hash name) := by
        rw [hc]
        exact List.mem_append_right _ (List.mem_cons_self _ _)
      have := (hst _ s0 m).2
      rw [hs] at this
      exact this
  refine ⟨tableInv_applyReading t name temp ht, ?_, ?_⟩
  · intro i s m
    rcases (mem_applyReading t ht name temp i s).1 m with ⟨hne, m⟩ | ⟨_, e⟩
    · rw [readingsOf_append, readingsOf_single_other s.name name temp (fun e => hne e.symm),
        List.append_nil]
      exact hst i s m
    · have hname : s.name = name := by
        rw [e, updateStation_name, currentStation_name]
      rw [hname, readingsOf_append, readingsOf_single_same, stationOf_snoc, ← hcur]
      exact ⟨by simp, e⟩
  · intro m hm
    by_cases e : m = name
    · subst e
      exact ⟨updateStation temp (currentStation t m),
        (mem_applyReading t ht m temp _ _).2 (Or.inr ⟨rfl, rfl⟩),
        by rw [updateStation_name, currentStation_name]⟩
    · rw [readingsOf_append, readingsOf_single_other m name temp (fun h => e h.symm),
        List.append_nil] at hm
      obtain ⟨s, hs, hn⟩ := hex m hm
      exact ⟨s, (mem_applyReading t ht name temp _ _).2 (Or.inl ⟨hn ▸ e, hs⟩), hn⟩

/-- Processing any sequence of buffers keeps the table in step with the records that
`process_line` extracts from them. -/
theorem recInv_fold :
    ∀ (bufs : List (List Char)) (t : HashTable) (recs : List (List Char × Double)),
      RecInv t recs → RecInv (bufs.foldl process_line t) (recs ++ bufs.filterMap recordOf)
  | [], t, recs, h => by simpa using h
  | b :: bufs, t, recs, h => by
    rw [List.foldl_cons, process_line_eq]
    cases hb : lineRecord b with
    | none =>
      have e : recordOf b = none := by simp [recordOf, hb]
      rw [List.filterMap_cons_none e]
      exact recInv_fold bufs t recs h
    | some p =>
      have e : recordOf b = some (p.1, atof p.2) := by simp [recordOf, hb]
      rw [List.filterMap_cons_some e]
      have h2 := recInv_fold bufs _ _ (recInv_step t recs p.1 (atof p.2) h)
      rw [List.append_assoc] at h2
      exact h2

theorem recInv_ingest (bufs : List (List Char)) :
    RecInv (bufs.foldl process_line emptyTable) (bufs.filterMap recordOf) := by
  have h := recInv_fold bufs emptyTable [] recInv_empty
  rw [List.nil_append] at h
  exact h

/-! ## Counts and totals -/

theorem stationOf_total (name : List Char) (rs : List Double) :
    (stationOf name rs).total_temp = rs.foldl Double.add Double.zero := by
  induction rs using List.reverseRecOn with
  | nil => rfl
  | append_singleton rs v ih =>
    rw [stationOf_snoc, updateStation_fields]
    simp [ih, List.foldl_append]

theorem recordOf_recordLine (l : List Char) (h : RecordLine l) :
    recordOf l = some (nameField l, atof (tempField l)) := by
  obtain ⟨h0, hnl, hd, hn, hf⟩ := h
  obtain ⟨rest, _, hline, _⟩ := line_fields l hd
  have hnl2 : '\n' ∉ tempField l := by
    intro m
    apply hnl
    rw [hline]
    simp [m]
  unfold recordOf
  rw [lineRecord_of_fields l h0 hd hn hf hnl2]
  rfl

theorem filterMap_recordOf :
    ∀ lines : List (List Char), (∀ l ∈ lines, RecordLine l) →
      lines.filterMap recordOf = lines.map (fun l => (nameField l, atof (tempField l)))
  | [], _ => rfl
  | l :: lines, h => by
    rw [List.filterMap_cons_some (recordOf_recordLine l (h l (List.mem_cons_self _ _))),
      filterMap_recordOf lines (fun x m => h x (List.mem_cons_of_mem _ m))]
    rfl

theorem readingsOf_lines (name : List Char) :
    ∀ lines : List (List Char),
      readingsOf (lines.map (fun l => (nameField l, atof (tempField l)))) name =
        (lines.filter (fun l => decide (nameField l = name))).map (fun l => atof (tempField l))
  | [] => rfl
  | l :: lines => by
    have ih := readingsOf_lines name lines
    unfold readingsOf at ih ⊢
    by_cases h : nameField l = name
    · simp only [List.map_cons, List.filter_cons, h, decide_True, if_true]
      rw [ih]
    · simp only [List.map_cons, List.filter_cons, h, decide_False]
      exact ih

/-! ## Extrema and the mean -/

theorem two_zpow_split (e mn : Int) (h : mn ≤ e) :
    (2 : ℚ) ^ e = (2 : ℚ) ^ (e - mn).toNat * (2 : ℚ) ^ mn := by
  have h1 : ((e - mn).toNat : ℤ) = e - mn := Int.toNat_of_nonneg (sub_nonneg.2 h)
  rw [← zpow_natCast, h1, ← zpow_add₀ (two_ne_zero), sub_add_cancel]

theorem lt_fin_iff (s1 : Bool) (m1 : Nat) (e1 : Int) (s2 : Bool) (m2 : Nat) (e2 : Int) :
    Double.lt (.fin s1 m1 e1) (.fin s2 m2 e2) = true ↔
      Double.toRat (.fin s1 m1 e1) < Double.toRat (.fin s2 m2 e2) := by
  have hpos : (0 : ℚ) < (2 : ℚ) ^ (min e1 e2) := zpow_pos (by norm_num) _
  simp only [Double.lt, Double.toRat, decide_eq_true_eq]
  rw [two_zpow_split e1 (min e1 e2) (min_le_left _ _),
    two_zpow_split e2 (min e1 e2) (min_le_right _ _), ← mul_assoc, ← mul_assoc,
    mul_lt_mul_right hpos, ← Int.cast_lt (R := ℚ)]
  push_cast
  rfl

/-- Among finite doubles the comparison is the order of the rationals they stand for. -/
theorem lt_iff_toRat (a b : Double) (ha : a.isFinite = true) (hb : b.isFinite = true) :
    Double.lt a b = true ↔ a.toRat < b.toRat := by
  cases a with
  | fin s1 m1 e1 =>
    cases b with
    | fin s2 m2 e2 => exact lt_fin_iff s1 m1 e1 s2 m2 e2
    | inf n => simp [Double.isFinite] at hb
    | nan => simp [Double.isFinite] at hb
  | inf n => simp [Double.isFinite] at ha
  | nan => simp [Double.isFinite] at ha

theorem min_finite (a b : Double) (ha : a.isFinite = true) (hb : b.isFinite = true) :
    (Double.min a b).isFinite = true ∧
      (Double.min a b).toRat ≤ a.toRat ∧ (Double.min a b).toRat ≤ b.toRat := by
  unfold Double.min
  by_cases h : Double.lt b a = true
  · rw [if_pos h]
    exact ⟨hb, le_of_lt ((lt_iff_toRat b a hb ha).1 h), le_refl _⟩
  · rw [if_neg h]
    exact ⟨ha, le_refl _, not_lt.1 (fun hlt => h ((lt_iff_toRat b a hb ha).2 hlt))⟩

theorem max_finite (a b : Double) (ha : a.isFinite = true) (hb : b.isFinite = true) :
    (Double.max a b).isFinite = true ∧
      a.toRat ≤ (Double.max a b).toRat ∧ b.toRat ≤ (Double.max a b).toRat := by
  unfold Double.max
  by_cases h : Double.lt a b = true
  · rw [if_pos h]
    exact ⟨hb, le_of_lt ((lt_iff_toRat a b ha hb).1 h), le_refl _⟩
  · rw [if_neg h]
    exact ⟨ha, le_refl _, not_lt.1 (fun hlt => h ((lt_iff_toRat a b ha hb).2 hlt))⟩

/-- The extrema of a station built from finite readings are finite and enclose every one of
the readings. -/
theorem stationOf_bounds (name : List Char) (rs : List Double)
    (hfin : ∀ r ∈ rs, r.isFinite = true) :
    (stationOf name rs).min_temp.isFinite = true ∧
      (stationOf name rs).max_temp.isFinite = true ∧
      ∀ r ∈ rs, (stationOf name rs).min_temp.toRat ≤ r.toRat ∧
        r.toRat ≤ (stationOf name rs).max_temp.toRat := by
  induction rs using List.reverseRecOn with
  | nil => exact ⟨rfl, rfl, by simp⟩
  | append_singleton rs v ih =>
    have hv : v.isFinite = true := hfin v (by simp)
    obtain ⟨h1, h2, h3⟩ := ih (fun r m => hfin r (List.mem_append_left _ m))
    obtain ⟨a1, a2, a3⟩ := min_finite _ v h1 hv
    obtain ⟨b1, b2, b3⟩ := max_finite _ v h2 hv
    rw [stationOf_snoc, updateStation_fields]
    refine ⟨a1, b1, ?_⟩
    intro r m
    rcases List.mem_append.1 m with m | m
    · exact ⟨le_trans a2 (h3 r m).1, le_trans (h3 r m).2 b2⟩
    · rw [List.mem_singleton.1 m]
      exact ⟨a3, b3⟩

theorem exactMean_between (rs : List Double) (hne : rs ≠ []) (a b : ℚ)
    (h : ∀ r ∈ rs, a ≤ r.toRat ∧ r.toRat ≤ b) : a ≤ exactMean rs ∧ exactMean rs ≤ b := by
  have hlen : (0 : ℚ) < (rs.length : ℚ) := by
    have : 0 < rs.length := List.length_pos.2 hne
    exact_mod_cast this
  have hlo : (rs.length : ℚ) * a ≤ (rs.map Double.toRat).sum := by
    have := List.card_nsmul_le_sum (rs.map Double.toRat) a (by
      intro x hx
      obtain ⟨r, hr, e⟩ := List.mem_map.1 hx
      exact e ▸ (h r hr).1)
    simpa [nsmul_eq_mul] using this
  have hhi : (rs.map Double.toRat).sum ≤ (rs.length : ℚ) * b := by
    have := List.sum_le_card_nsmul (rs.map Double.toRat) b (by
      intro x hx
      obtain ⟨r, hr, e⟩ := List.mem_map.1 hx
      exact e ▸ (h r hr).2)
    simpa [nsmul_eq_mul] using this
  unfold exactMean
  constructor
  · rw [le_div_iff₀ hlen]
    linarith
  · rw [div_le_iff₀ hlen]
    linarith

/-! ## `reset_stations` and `print_results` -/

theorem reset_loop_apply (t : HashTable) (i : Fin HASH_TABLE_SIZE) :
    ∀ n : Nat, reset_loop t n i = if i.val < n then [] else t i
  | 0 => by simp [reset_loop]
  | n + 1 => by
    have ih := reset_loop_apply t i n
    unfold reset_loop
    by_cases h : n < HASH_TABLE_SIZE
    · rw [dif_pos h]
      by_cases hi : i = ⟨n, h⟩
      · subst hi
        simp [setBucket]
      · have hne : i.val ≠ n := fun e => hi (Fin.ext e)
        rw [setBucket_other _ _ _ _ hi, ih]
        by_cases hlt : i.val < n
        · simp [hlt, Nat.lt_succ_of_lt hlt]
        · have : ¬ i.val < n + 1 := by omega
          simp [hlt, this]
    · rw [dif_neg h, ih]
      have h1 : i.val < n := by
        have := i.isLt
        omega
      simp [h1, Nat.lt_succ_of_lt h1]

theorem reset_stations_eq (t : HashTable) : reset_stations t = emptyTable := by
  funext i
  unfold reset_stations
  rw [reset_loop_apply t i HASH_TABLE_SIZE, if_pos i.isLt]
  rfl

theorem print_loop_empty : ∀ n : Nat, print_loop emptyTable n = []
  | 0 => rfl
  | n + 1 => by
    unfold print_loop
    rw [print_loop_empty n]
    by_cases h : n < HASH_TABLE_SIZE
    · simp [h, emptyTable]
    · simp [h]

theorem print_results_empty : print_results emptyTable = [] :=
  print_loop_empty HASH_TABLE_SIZE

/-- C14. After `reset_stations`, whatever the table was, every bucket is empty: the table
is the initial empty table, and `print_results` emits nothing. -/
theorem reset_stations_empties (t : HashTable) :
    (∀ i, reset_stations t i = []) ∧ reset_stations t = emptyTable ∧
      print_results (reset_stations t) = [] := by
  refine ⟨fun i => ?_, reset_stations_eq t, ?_⟩
  · rw [reset_stations_eq]
    rfl
  · rw [reset_stations_eq]
    exact print_results_empty

/-- C15, the code on the empty file. The buffered strategy leaves the empty table, whose
report is empty, but the mapped strategy does not complete: it ends the process with
`EXIT_FAILURE`, because `mmap` refuses a length of zero. -/
theorem empty_file_strategies :
    process_file_fread emptyTable [] = emptyTable ∧
      print_results (process_file_fread emptyTable []) = [] ∧
      process_file_mmap emptyTable [] = none := by
  refine ⟨rfl, ?_, rfl⟩
  rw [show process_file_fread emptyTable [] = emptyTable from rfl]
  exact print_results_empty

/-! ## Names, buckets and lookups -/

theorem findInChain_some (name : List Char) :
    ∀ (chain : List WeatherStation) (s : WeatherStation), s ∈ chain → s.name = name →
      ∃ k x, findInChain name chain = some k ∧ chain[k]? = some x ∧ x.name = name
  | [], _, m, _ => by simp at m
  | y :: chain, s, m, hs => by
    by_cases hy : y.name = name
    · exact ⟨0, y, by simp [findInChain, hy], by simp, hy⟩
    · have ms : s ∈ chain := by
        rcases List.mem_cons.1 m with e | m
        · exact absurd (e ▸ hs) hy
        · exact m
      obtain ⟨k, x, h1, h2, h3⟩ := findInChain_some name chain s ms hs
      exact ⟨k + 1, x, by simp [findInChain, hy, h1], by simpa using h2, h3⟩

/-- In a chain without repeated names, the position of a name is unique. -/
theorem nodup_names_index :
    ∀ (chain : List WeatherStation), (chain.map (·.name)).Nodup →
      ∀ (k l : Nat) (x y : WeatherStation), chain[k]? = some x → chain[l]? = some y →
        x.name = y.name → k = l
  | [], _, k, l, x, y, hx, _, _ => by simp at hx
  | z :: chain, hnd, k, l, x, y, hx, hy, hxy => by
    rw [List.map_cons, List.nodup_cons] at hnd
    cases k with
    | zero =>
      cases l with
      | zero => rfl
      | succ l =>
        exfalso
        simp only [List.getElem?_cons_zero, Option.some.injEq] at hx
        simp only [List.getElem?_cons_succ] at hy
        apply hnd.1
        rw [hx, hxy]
        exact List.mem_map_of_mem _ (List.getElem?_mem hy)
    | succ k =>
      cases l with
      | zero =>
        exfalso
        simp only [List.getElem?_cons_zero, Option.some.injEq] at hy
        simp only [List.getElem?_cons_succ] at hx
        apply hnd.1
        rw [hy, ← hxy]
        exact List.mem_map_of_mem _ (List.getElem?_mem hx)
      | succ l =>
        simp only [List.getElem?_cons_succ] at hx hy
        rw [nodup_names_index chain hnd.2 k l x y hx hy hxy]

theorem find_hit (t : HashTable) (name : List Char) (k : Nat)
    (h : findInChain name (t (hash name)) = some k) :
    find_or_create_station t name = (t, k) := by
  unfold find_or_create_station
  rw [h]

theorem find_miss_table (t : HashTable) (name : List Char)
    (h : ∀ s ∈ t (hash name), s.name ≠ name) :
    find_or_create_station t name =
      (setBucket t (hash name) (newStation name :: t (hash name)), 0) := by
  unfold find_or_create_station
  rw [findInChain_eq_none name _ h]

/-! ## The conversion of a count to `double` -/

theorem nearestMultiple_ge (n d : Nat) (p : Int) :
    n * 2 ^ (-p).toNat / (d * 2 ^ p.toNat) ≤ Double.nearestMultiple n d p := by
  unfold Double.nearestMultiple
  split_ifs <;> omega

theorem chainsBelow_mono (t : HashTable) :
    ∀ (a b : Nat), a ≤ b → chainsBelow t a ≤ chainsBelow t b
  | a, 0, h => by
    have : a = 0 := Nat.le_zero.1 h
    rw [this]
  | a, b + 1, h => by
    rcases Nat.lt_or_ge a (b + 1) with hlt | hge
    · have ih := chainsBelow_mono t a b (Nat.lt_succ_iff.1 hlt)
      show chainsBelow t a ≤
        chainsBelow t b + (if h : b < HASH_TABLE_SIZE then (t ⟨b, h⟩).length else 0)
      omega
    · have : a = b + 1 := Nat.le_antisymm h hge
      rw [this]

theorem chainsBelow_succ (t : HashTable) (i : Fin HASH_TABLE_SIZE) :
    chainsBelow t (i.val + 1) = chainsBelow t i.val + (t i).length := by
  show chainsBelow t i.val +
    (if h : i.val < HASH_TABLE_SIZE then (t ⟨i.val, h⟩).length else 0) = _
  rw [dif_pos i.isLt]

theorem print_loop_length (t : HashTable) :
    ∀ n : Nat, (print_loop t n).length = chainsBelow t n
  | 0 => rfl
  | n + 1 => by
    unfold print_loop chainsBelow
    rw [List.length_append, print_loop_length t n]
    by_cases h : n < HASH_TABLE_SIZE
    · simp [h]
    · simp [h]

theorem print_loop_get (t : HashTable) (i : Fin HASH_TABLE_SIZE) (k : Nat)
    (s : WeatherStation) (hs : (t i)[k]? = some s) :
    ∀ n : Nat, i.val < n →
      (print_loop t n)[chainsBelow t i.val + k]? = some (reportLine s)
  | 0, h => absurd h (Nat.not_lt_zero _)
  | n + 1, h => by
    have hk : k < (t i).length := (List.getElem?_eq_some.1 hs).1
    unfold print_loop
    rcases Nat.lt_or_ge i.val n with hlt | hge
    · have hidx : chainsBelow t i.val + k < (print_loop t n).length := by
        rw [print_loop_length]
        have h1 := chainsBelow_succ t i
        have h2 := chainsBelow_mono t (i.val + 1) n hlt
        omega
      rw [List.getElem?_append_left hidx]
      exact print_loop_get t i k s hs n hlt
    · have hin : i.val = n := by omega
      have hn : n < HASH_TABLE_SIZE := hin ▸ i.isLt
      have hi : i = ⟨n, hn⟩ := Fin.ext hin
      rw [dif_pos hn, hin, List.getElem?_append_right (by rw [print_loop_length]; omega),
        print_loop_length, Nat.add_sub_cancel_left, ← hi, List.getElem?_map, hs]
      rfl

/-- C18. For every table, `print_results` emits exactly one line per station: the station
at position `k` of the chain of bucket `i` is reported at position `k` after the lines of all
buckets below `i`, there are as many lines as stations, and these positions grow with the
bucket index and, within a bucket, with the position in the chain. The head of a chain is
the station created last, as `find_or_create_station` puts a new station in front of the
chain of its bucket. -/
theorem print_results_order (t : HashTable) :
    (∀ (i : Fin HASH_TABLE_SIZE) (k : Nat) (s : WeatherStation), (t i)[k]? = some s →
        (print_results t)[chainsBelow t i.val + k]? = some (reportLine s)) ∧
      (print_results t).length = chainsBelow t HASH_TABLE_SIZE ∧
      (∀ (i j : Fin HASH_TABLE_SIZE) (k l : Nat), k < (t i).length → l < (t j).length →
        (i < j ∨ (i = j ∧ k < l)) → chainsBelow t i.val + k < chainsBelow t j.val + l) ∧
      ∀ name : List Char, (∀ s ∈ t (hash name), s.name ≠ name) →
        (find_or_create_station t name).1 (hash name) = newStation name :: t (hash name) := by
  refine ⟨?_, print_loop_length t HASH_TABLE_SIZE, ?_, ?_⟩
  · intro i k s hs
    exact print_loop_get t i k s hs HASH_TABLE_SIZE i.isLt
  · intro i j k l hk hl h
    rcases h with h | ⟨h, hkl⟩
    · have h1 := chainsBelow_succ t i
      have h2 := chainsBelow_mono t (i.val + 1) j.val h
      omega
    · rw [h]
      omega
  · intro name h
    rw [find_miss_table t name h]
    exact setBucket_same _ _ _

/-- Witness of C18: on the table of the example, `Paris` (bucket 638828) is reported before
`Tokyo` (bucket 878516), and a new station goes to the head of its chain. -/
theorem print_results_order_witness :
    (print_results exampleTable)[chainsBelow exampleTable (hash "Paris".toList).val + 0]? =
        some (reportLine parisStation) ∧
      chainsBelow exampleTable (hash "Paris".toList).val + 0 <
        chainsBelow exampleTable (hash "Tokyo".toList).val + 0 ∧
      (find_or_create_station exampleTable "Oslo".toList).1 (hash "Oslo".toList) =
        newStation "Oslo".toList :: exampleTable (hash "Oslo".toList) :=
  ⟨(print_results_order exampleTable).1 (hash "Paris".toList) 0 parisStation (by decide!),
    (print_results_order exampleTable).2.2.1 (hash "Paris".toList) (hash "Tokyo".toList) 0 0
      (by decide!) (by decide!) (Or.inl (by decide!)),
    (print_results_order exampleTable).2.2.2 "Oslo".toList (by decide!)⟩

/-! ## The example of the specification -/

theorem process_line_record (t : HashTable) (line name temp_str : List Char)
    (h : lineRecord line = some (name, temp_str)) :
    process_line t line = applyReading t name (atof temp_str) := by
  rw [process_line_eq, h]

/-- Three lines with the records of the example, processed from the empty table, leave the
table of the example. -/
theorem example_fold (a b c : List Char)
    (ha : lineRecord a = some ("Tokyo".toList, "15.3".toList))
    (hb : lineRecord b = some ("Tokyo".toList, "18.1".toList))
    (hc : lineRecord c = some ("Paris".toList, "-2.0".toList)) :
    [a, b, c].foldl process_line emptyTable = exampleTable := by
  have hne : hash "Paris".toList ≠ hash "Tokyo".toList := by decide!
  have e1 : applyReading emptyTable "Tokyo".toList (atof "15.3".toList) =
      setBucket emptyTable (hash "Tokyo".toList)
        [updateStation (atof "15.3".toList) (newStation "Tokyo".toList)] :=
    applyReading_miss emptyTable _ _ (by intro s m; simp [emptyTable] at m)
  have e2 : applyReading
      (setBucket emptyTable (hash "Tokyo".toList)
        [updateStation (atof "15.3".toList) (newStation "Tokyo".toList)])
      "Tokyo".toList (atof "18.1".toList) =
      setBucket emptyTable (hash "Tokyo".toList) [tokyoStation] := by
    rw [applyReading_hit
      (setBucket emptyTable (hash "Tokyo".toList)
        [updateStation (atof "15.3".toList) (newStation "Tokyo".toList)])
      "Tokyo".toList (atof "18.1".toList) [] []
      (updateStation (atof "15.3".toList) (newStation "Tokyo".toList))
      (by rw [setBucket_same]; rfl) (updateStation_name _ _) (by simp), setBucket_setBucket]
    have hv : updateStation (atof "18.1".toList)
        (updateStation (atof "15.3".toList) (newStation "Tokyo".toList)) = tokyoStation := by
      decide!
    rw [List.nil_append, hv]
  have e3 : applyReading (setBucket emptyTable (hash "Tokyo".toList) [tokyoStation])
      "Paris".toList (atof "-2.0".toList) = exampleTable := by
    have hbucket : setBucket emptyTable (hash "Tokyo".toList) [tokyoStation]
        (hash "Paris".toList) = [] := setBucket_other _ _ _ _ hne
    rw [applyReading_miss _ "Paris".toList (atof "-2.0".toList)
      (by rw [hbucket]; intro s m; simp at m), hbucket]
    have hv : updateStation (atof "-2.0".toList) (newStation "Paris".toList) =
        parisStation := by
      decide!
    rw [hv]
    rfl
  simp only [List.foldl_cons, List.foldl_nil]
  rw [process_line_record _ a _ _ ha, process_line_record _ b _ _ hb,
    process_line_record _ c _ _ hc, e1, e2, e3]

/-- C12, the code on the example input. Both strategies leave exactly two stations. `Tokyo`
has min 15.3, max 18.1 and count 2; its mean is the double next above 16.7. `Paris` has
min -2.0, count 1 and mean -2.0, but its `max_temp` is `DBL_MIN`, the initial value, and
not -2.0. -/
theorem example_input_table :
    process_file_fread emptyTable exampleFile = exampleTable ∧
      process_file_mmap emptyTable exampleFile = some exampleTable ∧
      (∀ i, exampleTable i =
        if i = hash "Paris".toList then [parisStation]
        else if i = hash "Tokyo".toList then [tokyoStation] else []) ∧
      tokyoStation.min_temp = atof "15.3".toList ∧
      tokyoStation.max_temp = atof "18.1".toList ∧
      atof "16.7".toList = .fin false 4700632111067955 (-48) ∧
      mean_temp tokyoStation = .fin false 4700632111067956 (-48) ∧
      parisStation.min_temp = atof "-2.0".toList ∧
      mean_temp parisStation = atof "-2.0".toList ∧
      parisStation.max_temp = DBL_MIN ∧
      Double.lt (atof "-2.0".toList) parisStation.max_temp = true := by
  refine ⟨?_, ?_, fun i => rfl, by decide!, by decide!, by decide!, by decide!, by decide!,
    by decide!, by decide!, by decide!⟩
  · rw [process_file_fread_eq,
      show freadAll exampleFile =
        ["Tokyo;15.3\n".toList, "Tokyo;18.1\n".toList, "Paris;-2.0\n".toList] by decide]
    exact example_fold _ _ _ (by decide) (by decide) (by decide)
  · unfold process_file_mmap mmap_scan
    rw [if_neg (by decide),
      show mmap_lines exampleFile.length exampleFile =
        ["Tokyo;15.3".toList, "Tokyo;18.1".toList, "Paris;-2.0".toList] by decide]
    rw [example_fold _ _ _ (by decide) (by decide) (by decide)]

/-! ## The name buffer -/

/-- C16, the code on a name of 100 bytes. A name of 99 bytes is copied in full and, with
its terminator, fills the 100 bytes of the `name` array. A name of 100 bytes is neither
truncated nor rejected: `find_or_create_station` creates the station with all 100 bytes,
and `strcpy` writes 101 bytes into the array of `MAX_NAME_LEN = 100`, one past its end. -/
theorem name_buffer_overflow :
    MAX_NAME_LEN = 100 ∧
      (find_or_create_station emptyTable (longName 99)).1 (hash (longName 99)) =
        [newStation (longName 99)] ∧
      (newStation (longName 99)).name = longName 99 ∧
      (strcpy_bytes (longName 99)).length = 100 ∧
      (find_or_create_station emptyTable (longName 100)).1 (hash (longName 100)) =
        [newStation (longName 100)] ∧
      (newStation (longName 100)).name = longName 100 ∧
      (newStation (longName 100)).name.length = 100 ∧
      (strcpy_bytes (longName 100)).length = 101 ∧
      MAX_NAME_LEN < (strcpy_bytes (longName 100)).length := by
  decide!

/-! ## The `int` counter -/

theorem wrapInt_of_range (x : Int) (h1 : -2147483648 ≤ x) (h2 : x < 2147483648) :
    wrapInt x = x := by
  unfold wrapInt
  omega

theorem wrapInt_range (x : Int) : -2147483648 ≤ wrapInt x ∧ wrapInt x < 2147483648 := by
  unfold wrapInt
  omega

theorem wrapInt_succ (x : Int) : wrapInt (wrapInt x + 1) = wrapInt (x + 1) := by
  unfold wrapInt
  omega

/-- The increment `count++`: the value wraps around at `INT_MAX`. -/
theorem cint_succ (c : CInt) : (c + 1).toInt = wrapInt (c.toInt + 1) := rfl

theorem updateStation_count (temp : Double) (s : WeatherStation) :
    (updateStation temp s).count = s.count + 1 := by
  rw [updateStation_fields]

/-- The counter of a station is the number of readings folded into it, modulo `2^32`. -/
theorem stationOf_count (name : List Char) (rs : List Double) :
    (stationOf name rs).count.toInt = wrapInt (rs.length : Int) := by
  induction rs using List.reverseRecOn with
  | nil => rfl
  | append_singleton rs v ih =>
    rw [stationOf_snoc, updateStation_count, cint_succ, ih, wrapInt_succ, List.length_append]
    rfl

theorem stationOf_count_small (name : List Char) (rs : List Double)
    (h : rs.length < 2147483648) : (stationOf name rs).count.toInt = (rs.length : Int) := by
  rw [stationOf_count]
  exact wrapInt_of_range _ (by omega) (by omega)

/-- The table after `n + 1` copies of one line that carries a record: a single station,
the fold of `n + 1` copies of the reading. -/
theorem fold_same_line (line name temp_str : List Char)
    (h : lineRecord line = some (name, temp_str)) :
    ∀ n : Nat, (List.replicate (n + 1) line).foldl process_line emptyTable =
      setBucket emptyTable (hash name)
        [stationOf name (List.replicate (n + 1) (atof temp_str))]
  | 0 => by
    show process_line emptyTable line = _
    rw [process_line_record _ _ _ _ h, applyReading_miss _ _ _ (by simp [emptyTable])]
    rfl
  | n + 1 => by
    rw [List.replicate_succ' (n + 1) line, List.foldl_append, fold_same_line line name temp_str h n,
      List.replicate_succ' (n + 1) (atof temp_str), stationOf_snoc]
    show process_line _ line = _
    rw [process_line_record _ _ _ _ h,
      applyReading_hit _ name (atof temp_str) [] []
        (stationOf name (List.replicate (n + 1) (atof temp_str)))
        (by rw [setBucket_same]; rfl) (stationOf_name _ _) (by simp),
      setBucket_setBucket]
    rfl

/-! ## Tables built from names that fit the name array -/

theorem mem_find (t : HashTable) (name : List Char) (i : Fin HASH_TABLE_SIZE)
    (s : WeatherStation) (h : s ∈ (find_or_create_station t name).1 i) :
    s ∈ t i ∨ s = newStation name := by
  rcases chain_cases name (t (hash name)) with hm | ⟨pre, s0, post, hc, hs, hpre⟩
  · rw [find_miss_table t name hm] at h
    change s ∈ setBucket t (hash name) (newStation name :: t (hash name)) i at h
    by_cases hi : i = hash name
    · subst hi
      rw [setBucket_same] at h
      rcases List.mem_cons.1 h with e | m
      · exact Or.inr e
      · exact Or.inl m
    · rw [setBucket_other _ _ _ _ hi] at h
      exact Or.inl h
  · have hf : find_or_create_station t name = (t, pre.length) := by
      unfold find_or_create_station
      rw [hc, findInChain_append name s0 post hs pre hpre]
    rw [hf] at h
    exact Or.inl h

/-- In a reachable table every stored name fits the `name` array and every counter holds a
value of the type `int`. -/
theorem reachable_stations (t : HashTable) (ht : Reachable t) :
    ∀ i, ∀ s ∈ t i,
      NameFits s.name ∧ -2147483648 ≤ s.count.toInt ∧ s.count.toInt < 2147483648 := by
  induction ht with
  | empty =>
    intro i s m
    simp [emptyTable] at m
  | find t name hfit _ ih =>
    intro i s m
    rcases mem_find t name i s m with m | e
    · exact ih i s m
    · rw [e]
      refine ⟨hfit, ?_, ?_⟩
      · show -2147483648 ≤ wrapInt 0
        decide
      · show wrapInt 0 < 2147483648
        decide
  | line t line hfit hr ih =>
    intro i s m
    rw [process_line_eq] at m
    cases hrec : lineRecord line with
    | none =>
      rw [hrec] at m
      exact ih i s m
    | some p =>
      rw [hrec] at m
      rcases (mem_applyReading t (tableInv_of_reachable t hr) p.1 (atof p.2) i s).1 m with
        ⟨_, m⟩ | ⟨_, e⟩
      · exact ih i s m
      · have hname : s.name = p.1 := by rw [e, updateStation_name, currentStation_name]
        refine ⟨?_, ?_⟩
        · rw [hname]
          exact hfit p.1 p.2 hrec
        · rw [e, updateStation_count, cint_succ]
          exact wrapInt_range _

theorem reachable_fold :
    ∀ (bufs : List (List Char)) (t : HashTable),
      (∀ l ∈ bufs, ∀ name temp_str : List Char,
        lineRecord l = some (name, temp_str) → NameFits name) →
      Reachable t → Reachable (bufs.foldl process_line t)
  | [], _, _, ht => ht
  | l :: bufs, t, h, ht =>
    reachable_fold bufs (process_line t l) (fun x m => h x (List.mem_cons_of_mem _ m))
      (Reachable.line t l (h l (List.mem_cons_self _ _)) ht)

/-- A name of 120 bytes does not fit the name array, `strcpy` writes 121 bytes for it; the
name hashes to bucket 676245 and its first 104 bytes hash to bucket 577822. -/
theorem long_name_buckets :
    (strcpy_bytes (longName 120)).length = 121 ∧ (hash (longName 120)).val = 676245 ∧
      (longName 120).take 104 = longName 104 ∧ (hash (longName 104)).val = 577822 := by
  decide!

theorem parisTable_reachable : Reachable parisTable := by
  refine Reachable.line _ _ ?_ Reachable.empty
  intro name temp_str h
  rw [show lineRecord "Paris;1.5\n".toList = some ("Paris".toList, "1.5".toList) by decide] at h
  cases h
  decide

/-- C20 for names that fit the name array. In every table reached with such names, each
station of bucket `i` has a name that fits the array and hashes to `i`; hence, whenever a
station called `name` exists in any bucket, the search of `find_or_create_station` through
bucket `hash name` alone finds a station of that name. A name that does not fit is outside this
statement: `strcpy` then writes past the array. -/
theorem bucket_of_name (t : HashTable) (ht : Reachable t) :
    (∀ i, ∀ s ∈ t i, NameFits s.name ∧ hash s.name = i) ∧
      ∀ (name : List Char) (i : Fin HASH_TABLE_SIZE) (s : WeatherStation), s ∈ t i →
        s.name = name →
        ∃ k x, findInChain name (t (hash name)) = some k ∧
          (t (hash name))[k]? = some x ∧ x.name = name := by
  have hinv := tableInv_of_reachable t ht
  refine ⟨fun i s m => ⟨(reachable_stations t ht i s m).1, (hinv i).1 s m⟩, ?_⟩
  intro name i s m hs
  have hi : hash name = i := by
    rw [← hs]
    exact (hinv i).1 s m
  rw [hi]
  exact findInChain_some name (t i) s m hs

/-- Witness of C20 within the name array, on the table that holds `Paris`. -/
theorem bucket_of_name_witness :
    (∀ i, ∀ s ∈ parisTable i, NameFits s.name ∧ hash s.name = i) ∧
      ∀ (name : List Char) (i : Fin HASH_TABLE_SIZE) (s : WeatherStation), s ∈ parisTable i →
        s.name = name →
        ∃ k x, findInChain name (parisTable (hash name)) = some k ∧
          (parisTable (hash name))[k]? = some x ∧ x.name = name :=
  bucket_of_name parisTable parisTable_reachable

/-- C11 for names that fit the name array. In every table reached with such names, every
stored name fits the array and no two entries have the same name: two positions that hold
stations of one name are the same position of the same bucket. When a station called `name`
exists, `find_or_create_station` returns the table as it is together with the position of
that station; when none exists and `name` fits the array, it returns the table with one new
station put in front of the chain of bucket `hash name`, every other station staying in
place. A name that does not fit is outside this statement: `strcpy` then writes past the
array. -/
theorem unique_names (t : HashTable) (ht : Reachable t) :
    (∀ i, ∀ s ∈ t i, NameFits s.name) ∧
      (∀ (i j : Fin HASH_TABLE_SIZE) (k l : Nat) (x y : WeatherStation),
        (t i)[k]? = some x → (t j)[l]? = some y → x.name = y.name → i = j ∧ k = l) ∧
      (∀ (name : List Char) (i : Fin HASH_TABLE_SIZE) (k : Nat) (x : WeatherStation),
        (t i)[k]? = some x → x.name = name →
        i = hash name ∧ find_or_create_station t name = (t, k)) ∧
      ∀ name : List Char, NameFits name → (∀ i, ∀ s ∈ t i, s.name ≠ name) →
        find_or_create_station t name =
          (setBucket t (hash name) (newStation name :: t (hash name)), 0) := by
  have hinv := tableInv_of_reachable t ht
  have huniq : ∀ (i j : Fin HASH_TABLE_SIZE) (k l : Nat) (x y : WeatherStation),
      (t i)[k]? = some x → (t j)[l]? = some y → x.name = y.name → i = j ∧ k = l := by
    intro i j k l x y hx hy hxy
    have hi := (hinv i).1 x (List.getElem?_mem hx)
    have hj := (hinv j).1 y (List.getElem?_mem hy)
    have hij : i = j := by rw [← hi, ← hj, hxy]
    subst hij
    exact ⟨rfl, nodup_names_index (t i) (hinv i).2 k l x y hx hy hxy⟩
  refine ⟨fun i s m => (reachable_stations t ht i s m).1, huniq, ?_, ?_⟩
  · intro name i k x hx hn
    have hi : hash name = i := by
      rw [← hn]
      exact (hinv i).1 x (List.getElem?_mem hx)
    subst hi
    refine ⟨rfl, ?_⟩
    obtain ⟨k2, x2, h1, h2, h3⟩ :=
      findInChain_some name (t (hash name)) x (List.getElem?_mem hx) hn
    have hk : k2 = k := (huniq _ _ k2 k x2 x h2 hx (h3.trans hn.symm)).2
    rw [find_hit t name k2 h1, hk]
  · intro name _ h
    exact find_miss_table t name (h (hash name))

/-- Witness of C11 within the name array, on the table that holds `Paris`. -/
theorem unique_names_witness :
    (∀ i, ∀ s ∈ parisTable i, NameFits s.name) ∧
      (∀ (i j : Fin HASH_TABLE_SIZE) (k l : Nat) (x y : WeatherStation),
        (parisTable i)[k]? = some x → (parisTable j)[l]? = some y → x.name = y.name →
        i = j ∧ k = l) ∧
      (∀ (name : List Char) (i : Fin HASH_TABLE_SIZE) (k : Nat) (x : WeatherStation),
        (parisTable i)[k]? = some x → x.name = name →
        i = hash name ∧ find_or_create_station parisTable name = (parisTable, k)) ∧
      ∀ name : List Char, NameFits name → (∀ i, ∀ s ∈ parisTable i, s.name ≠ name) →
        find_or_create_station parisTable name =
          (setBucket parisTable (hash name) (newStation name :: parisTable (hash name)), 0) :=
  unique_names parisTable parisTable_reachable

/-! ## The update of an existing station -/

theorem fold_then_line (line : List Char) (n : Nat) :
    process_line ((List.replicate n line).foldl process_line emptyTable) line =
      (List.replicate (n + 1) line).foldl process_line emptyTable := by
  rw [List.replicate_succ', List.foldl_append]
  rfl

/-- The names and counters in the bucket of the name after `n + 1` copies of one line. -/
theorem same_line_counts (line name temp_str : List Char)
    (h : lineRecord line = some (name, temp_str)) (n : Nat) :
    ((List.replicate (n + 1) line).foldl process_line emptyTable (hash name)).map
        (fun s => (s.name, s.count.toInt)) =
      [(name, wrapInt ((n : Int) + 1))] := by
  rw [fold_same_line line name temp_str h n, setBucket_same]
  simp only [List.map_cons, List.map_nil, stationOf_name, stationOf_count, List.length_replicate]
  push_cast
  rfl

theorem lineRecord_a1 : lineRecord "A;1".toList = some ("A".toList, "1".toList) := by
  decide

theorem replicate_a1_fits (n : Nat) :
    ∀ l ∈ List.replicate n "A;1".toList, ∀ name temp_str : List Char,
      lineRecord l = some (name, temp_str) → NameFits name := by
  intro l m name temp_str h
  rw [List.eq_of_mem_replicate m, lineRecord_a1] at h
  cases h
  decide

/-- C4 as amended. In a table reached with names that fit the name array, a line that gets
past both early returns and names an existing station `s` replaces `s` in place by the
station with `min(min, t)`, `max(max, t)`, `total + t` and the `int` sum `count + 1`, where
`t` is the parsed reading; every other station, the order of the chain and all other
buckets stay as they were. The `int` sum is the number `count + 1` as long as `count` is
below `INT_MAX = 2147483647`, and it is `INT_MIN` when `count` is `INT_MAX`. -/
theorem process_line_existing (t : HashTable) (ht : Reachable t) (i : Fin HASH_TABLE_SIZE)
    (pre post : List WeatherStation) (s : WeatherStation) (hc : t i = pre ++ s :: post)
    (line temp_str : List Char) (hrec : lineRecord line = some (s.name, temp_str)) :
    process_line t line =
        setBucket t i
          (pre ++
            { name := s.name, min_temp := Double.min s.min_temp (atof temp_str),
              max_temp := Double.max s.max_temp (atof temp_str),
              total_temp := Double.add s.total_temp (atof temp_str),
              count := s.count + 1 } :: post) ∧
      (s.count.toInt < 2147483647 → (s.count + 1).toInt = s.count.toInt + 1) ∧
      (s.count.toInt = 2147483647 → (s.count + 1).toInt = -2147483648) := by
  obtain ⟨hi, hpre, _⟩ := tableInv_chain t (tableInv_of_reachable t ht) i pre post s hc
  have hrange := (reachable_stations t ht i s
    (by rw [hc]; exact List.mem_append_right _ (List.mem_cons_self _ _))).2
  subst hi
  refine ⟨?_, ?_, ?_⟩
  · rw [process_line_eq, hrec]
    show applyReading t s.name (atof temp_str) = _
    rw [applyReading_hit t s.name (atof temp_str) pre post s hc rfl hpre, updateStation_fields]
  · intro h
    rw [cint_succ]
    exact wrapInt_of_range _ (by omega) (by omega)
  · intro h
    rw [cint_succ, h]
    decide

/-- Witness of C4 as amended: the table holding `Paris` with the reading `1.5` receives the
line `Paris;-2.0`. -/
theorem process_line_existing_witness :
    Reachable parisTable ∧
      parisTable (hash "Paris".toList) =
        [] ++ (⟨"Paris".toList, atof "1.5".toList, atof "1.5".toList, atof "1.5".toList, 1⟩ :
          WeatherStation) :: [] ∧
      lineRecord "Paris;-2.0\n".toList = some ("Paris".toList, "-2.0".toList) ∧
      process_line parisTable "Paris;-2.0\n".toList =
        setBucket parisTable (hash "Paris".toList)
          ([] ++
            { name := "Paris".toList,
              min_temp := Double.min (atof "1.5".toList) (atof "-2.0".toList),
              max_temp := Double.max (atof "1.5".toList) (atof "-2.0".toList),
              total_temp := Double.add (atof "1.5".toList) (atof "-2.0".toList),
              count := 1 + 1 } :: []) ∧
      ((1 : CInt) + 1).toInt = (1 : CInt).toInt + 1 :=
  ⟨parisTable_reachable, by decide!, by decide!,
    (process_line_existing parisTable parisTable_reachable (hash "Paris".toList)
      [] [] ⟨"Paris".toList, atof "1.5".toList, atof "1.5".toList, atof "1.5".toList, 1⟩
      (by decide!) "Paris;-2.0\n".toList "-2.0".toList (by decide!)).1,
    (process_line_existing parisTable parisTable_reachable (hash "Paris".toList)
      [] [] ⟨"Paris".toList, atof "1.5".toList, atof "1.5".toList, atof "1.5".toList, 1⟩
      (by decide!) "Paris;-2.0\n".toList "-2.0".toList (by decide!)).2.1 (by decide)⟩

/-- C4 as stated fails. After 2147483647 lines `A;1` the station `A` of the table has
`count = INT_MAX`; one more valid line for `A` leaves it with `count = INT_MIN`, that is
-2147483648, and not with `count + 1`. -/
theorem count_wraps_at_int_max :
    lineRecord "A;1".toList = some ("A".toList, "1".toList) ∧
      Reachable ((List.replicate 2147483647 "A;1".toList).foldl process_line emptyTable) ∧
      ((List.replicate 2147483647 "A;1".toList).foldl process_line emptyTable
          (hash "A".toList)).map (fun s => (s.name, s.count.toInt)) =
        [("A".toList, 2147483647)] ∧
      (process_line ((List.replicate 2147483647 "A;1".toList).foldl process_line emptyTable)
          "A;1".toList (hash "A".toList)).map (fun s => (s.name, s.count.toInt)) =
        [("A".toList, -2147483648)] := by
  refine ⟨lineRecord_a1, reachable_fold _ _ (replicate_a1_fits _) Reachable.empty, ?_, ?_⟩
  · exact same_line_counts _ _ _ lineRecord_a1 2147483646
  · rw [fold_then_line]
    exact same_line_counts _ _ _ lineRecord_a1 2147483647

/-! ## Counts and totals of a file -/

/-- The mapped strategy's loop hands the lines of the file to `process_line`, in order. -/
theorem mmap_scan_lines (ls : List (List Char)) (b : List Char) (hls : ∀ l ∈ ls, '\n' ∉ l)
    (hb : '\n' ∉ b) :
    mmap_scan emptyTable (unlines ls ++ b) = (ls ++ lastLine b).foldl process_line emptyTable := by
  unfold mmap_scan
  rw [mmap_lines_unlines b hb ls _ hls (Nat.le_refl _)]

theorem readingsOf_length_le (bufs : List (List Char)) (name : List Char) :
    (readingsOf (bufs.filterMap recordOf) name).length ≤ bufs.length := by
  unfold readingsOf
  rw [List.length_map]
  exact le_trans (List.length_filter_le _ _) (List.length_filterMap_le _ _)

/-- The names and counters in the bucket of the name after the mapped strategy has read a
file of `n + 1` copies of one line. -/
theorem mmap_same_line (line name temp_str : List Char)
    (h : lineRecord line = some (name, temp_str)) (hnl : '\n' ∉ line) (n : Nat) :
    (process_file_mmap emptyTable (unlines (List.replicate (n + 1) line))).map
        (fun t => (t (hash name)).map (fun s => (s.name, s.count.toInt))) =
      some [(name, wrapInt ((n : Int) + 1))] := by
  have hlen : (unlines (List.replicate (n + 1) line)).length ≠ 0 := by
    rw [List.replicate_succ]
    simp [unlines]
  have hscan := mmap_scan_lines (List.replicate (n + 1) line) []
    (fun l m => by rw [List.eq_of_mem_replicate m]; exact hnl) (by simp)
  rw [List.append_nil, show lastLine [] = [] from rfl, List.append_nil] at hscan
  unfold process_file_mmap
  rw [if_neg hlen, hscan, Option.map_some', same_line_counts line name temp_str h n]

/-- C3 as amended. Let the input consist of the lines `ls`, each followed by a newline, and
possibly a last line `b` without one, all of the form `name;value` with a non-empty value
and a non-empty name that fits the name array. Let `t` be the table that the mapped
strategy leaves from the empty table or, when no line has more than 255 bytes, the table
that the buffered strategy leaves. Then every name of a line has its station in `t`, and
for every station of `t` the name is the name of a line, `count` is the number of lines with
its name reduced to an `int` (modulo `2^32`), hence that number when it is below `2^31`, and
`total_temp` is the sum, in double arithmetic and in file order, of the values that `atof`
gives for the value texts of these lines. -/
theorem counts_and_totals (ls : List (List Char)) (b : List Char)
    (h : ∀ l ∈ ls ++ lastLine b, RecordLine l ∧ NameFits (nameField l)) (t : HashTable)
    (ht : process_file_mmap emptyTable (unlines ls ++ b) = some t ∨
      ((∀ l ∈ ls ++ lastLine b, l.length ≤ 255) ∧
        t = process_file_fread emptyTable (unlines ls ++ b))) :
    (∀ l ∈ ls ++ lastLine b, ∃ s ∈ t (hash (nameField l)), s.name = nameField l) ∧
      ∀ i, ∀ s ∈ t i,
        NameFits s.name ∧
          s.count.toInt =
            wrapInt (((ls ++ lastLine b).filter
              (fun l => decide (nameField l = s.name))).length : Int) ∧
          (((ls ++ lastLine b).filter (fun l => decide (nameField l = s.name))).length <
              2147483648 →
            s.count.toInt =
              (((ls ++ lastLine b).filter
                (fun l => decide (nameField l = s.name))).length : Int)) ∧
          s.total_temp =
            (((ls ++ lastLine b).filter (fun l => decide (nameField l = s.name))).map
              (fun l => atof (tempField l))).foldl Double.add Double.zero := by
  have hls : ∀ l ∈ ls, '\n' ∉ l := fun l m => (h l (List.mem_append_left _ m)).1.2.1
  have hb : '\n' ∉ b := by
    by_cases e : b = []
    · simp [e]
    · exact (h b (List.mem_append_right _ (by simp [lastLine, e]))).1.2.1
  have htab : t = (ls ++ lastLine b).foldl process_line emptyTable := by
    rcases ht with e | ⟨hlen, e⟩
    · unfold process_file_mmap at e
      split_ifs at e
      rw [← Option.some.inj e]
      exact mmap_scan_lines ls b hls hb
    · have hbl : b.length ≤ 255 := by
        by_cases e : b = []
        · simp [e]
        · exact hlen b (List.mem_append_right _ (by simp [lastLine, e]))
      rw [e, process_file_fread_eq,
        fread_fold_lines b hb hbl ls emptyTable
          (fun l m => ⟨hls l m, hlen l (List.mem_append_left _ m)⟩)]
  obtain ⟨_, hst, hex⟩ := recInv_ingest (ls ++ lastLine b)
  rw [filterMap_recordOf _ (fun l m => (h l m).1)] at hst hex
  rw [htab]
  refine ⟨?_, ?_⟩
  · intro l m
    apply hex
    rw [readingsOf_lines]
    intro e
    have hm : l ∈ (ls ++ lastLine b).filter (fun x => decide (nameField x = nameField l)) :=
      List.mem_filter.2 ⟨m, by simp⟩
    have := congrArg List.length e
    rw [List.length_map] at this
    exact List.ne_nil_of_mem hm (List.length_eq_zero.1 this)
  · intro i s m
    obtain ⟨hne, hs⟩ := hst i s m
    rw [readingsOf_lines] at hs hne
    have hcount : s.count.toInt =
        wrapInt (((ls ++ lastLine b).filter
          (fun l => decide (nameField l = s.name))).length : Int) := by
      rw [congrArg WeatherStation.count hs, stationOf_count, List.length_map]
    refine ⟨?_, hcount, ?_, ?_⟩
    · cases hf : (ls ++ lastLine b).filter (fun l => decide (nameField l = s.name)) with
      | nil =>
        rw [hf] at hne
        exact absurd rfl hne
      | cons l rest =>
        have hm : l ∈ (ls ++ lastLine b).filter (fun l => decide (nameField l = s.name)) := by
          rw [hf]
          exact List.mem_cons_self _ _
        obtain ⟨hl, hn⟩ := List.mem_filter.1 hm
        rw [← of_decide_eq_true hn]
        exact (h l hl).2
    · intro hlt
      rw [hcount]
      exact wrapInt_of_range _ (by omega) (by omega)
    · rw [congrArg WeatherStation.total_temp hs, stationOf_total]

/-- Witness of C3 as amended on the file `Tokyo;15.3\nTokyo;18.1\nParis;-2.0` (no final
newline), read by the mapped strategy. -/
theorem counts_and_totals_witness :
    (∀ l ∈ ["Tokyo;15.3".toList, "Tokyo;18.1".toList] ++ lastLine "Paris;-2.0".toList,
        ∃ s ∈ exampleTable (hash (nameField l)), s.name = nameField l) ∧
      ∀ i, ∀ s ∈ exampleTable i,
        NameFits s.name ∧
          s.count.toInt =
            wrapInt (((["Tokyo;15.3".toList, "Tokyo;18.1".toList] ++
              lastLine "Paris;-2.0".toList).filter
              (fun l => decide (nameField l = s.name))).length : Int) ∧
          (((["Tokyo;15.3".toList, "Tokyo;18.1".toList] ++ lastLine "Paris;-2.0".toList).filter
              (fun l => decide (nameField l = s.name))).length < 2147483648 →
            s.count.toInt =
              (((["Tokyo;15.3".toList, "Tokyo;18.1".toList] ++
                lastLine "Paris;-2.0".toList).filter
                (fun l => decide (nameField l = s.name))).length : Int)) ∧
          s.total_temp =
            (((["Tokyo;15.3".toList, "Tokyo;18.1".toList] ++ lastLine "Paris;-2.0".toList).filter
              (fun l => decide (nameField l = s.name))).map
              (fun l => atof (tempField l))).foldl Double.add Double.zero :=
  counts_and_totals ["Tokyo;15.3".toList, "Tokyo;18.1".toList] "Paris;-2.0".toList (by decide)
    exampleTable
    (Or.inl (by
      unfold process_file_mmap mmap_scan
      rw [if_neg (by decide),
        show mmap_lines
            (unlines ["Tokyo;15.3".toList, "Tokyo;18.1".toList] ++ "Paris;-2.0".toList).length
            (unlines ["Tokyo;15.3".toList, "Tokyo;18.1".toList] ++ "Paris;-2.0".toList) =
          ["Tokyo;15.3".toList, "Tokyo;18.1".toList, "Paris;-2.0".toList] by decide]
      rw [example_fold _ _ _ (by decide) (by decide) (by decide)]))

/-- C3 as stated fails, in two ways. The file `longLineFile` is one line of the form
`name;value` with the name `A`, yet the buffered strategy, which cuts the line after 255
bytes, leaves a station `B` with count 1 where no line has the name `B`. And after the
mapped strategy has read 2147483648 lines `A;1`, the count of station `A` is -2147483648,
not the number of lines. -/
theorem counts_differ :
    longLineFile = unlines [longLine] ∧ RecordLine longLine ∧
      nameField longLine = "A".toList ∧
      (process_file_fread emptyTable longLineFile (hash "B".toList)).map
          (fun s => (s.name, s.count.toInt)) = [("B".toList, 1)] ∧
      ([longLine].filter (fun l => decide (nameField l = "B".toList))).length = 0 ∧
      RecordLine "A;1".toList ∧
      (process_file_mmap emptyTable (unlines (List.replicate 2147483648 "A;1".toList))).map
          (fun t => (t (hash "A".toList)).map (fun s => (s.name, s.count.toInt))) =
        some [("A".toList, -2147483648)] := by
  refine ⟨by decide!, by decide!, by decide!, by decide!, by decide!, by decide, ?_⟩
  exact mmap_same_line _ _ _ lineRecord_a1 (by decide) 2147483647

/-! ## The count of a station -/

theorem hash_step (h : Nat) (c : Char) :
    (((((h * 2 ^ 5 % 2 ^ 32 + h) % 2 ^ 32 : Nat) : Int) + charToInt c) % 2 ^ 32) =
      (33 * (h : Int) + charToInt c) % 2 ^ 32 := by
  have h1 : (h * 2 ^ 5 % 2 ^ 32 + h) % 2 ^ 32 = 33 * h % 2 ^ 32 := by omega
  rw [h1]
  push_cast
  rw [Int.emod_add_emod]

/-- The loop of `hash` is the rolling hash over the `signed char` values of the bytes. -/
theorem hashLoop_eq_signed :
    ∀ (str : List Char) (h : Nat), (hashLoop h str : Int) = rolling33Signed (h : Int) str
  | [], _ => rfl
  | c :: str, h => by
    have hnn : 0 ≤ (33 * (h : Int) + charToInt c) % 2 ^ 32 :=
      Int.emod_nonneg _ (by norm_num)
    show (hashLoop (((((h * 2 ^ 5 % 2 ^ 32 + h) % 2 ^ 32 : Nat) : Int) + charToInt c) %
      2 ^ 32).toNat str : Int) = rolling33Signed ((33 * (h : Int) + charToInt c) % 2 ^ 32) str
    rw [hashLoop_eq_signed str, hash_step, Int.toNat_of_nonneg hnn]

/-- On bytes below 128 the loop of `hash` is the rolling hash over the bytes. -/
theorem hashLoop_eq_rolling33 :
    ∀ (str : List Char) (h : Nat), (∀ c ∈ str, c.toNat < 128) →
      hashLoop h str = rolling33 h str
  | [], _, _ => rfl
  | c :: str, h, hs => by
    have hc : c.toNat < 128 := hs c (List.mem_cons_self _ _)
    have e : (((((h * 2 ^ 5 % 2 ^ 32 + h) % 2 ^ 32 : Nat) : Int) + charToInt c) %
        2 ^ 32).toNat = (33 * h + c.toNat) % 2 ^ 32 := by
      unfold charToInt
      rw [if_pos hc]
      omega
    show hashLoop (((((h * 2 ^ 5 % 2 ^ 32 + h) % 2 ^ 32 : Nat) : Int) + charToInt c) %
      2 ^ 32).toNat str = rolling33 ((33 * h + c.toNat) % 2 ^ 32) str
    rw [e]
    exact hashLoop_eq_rolling33 str _ (fun x m => hs x (List.mem_cons_of_mem _ m))

/-- C19 as amended. For every string, `hash` is the 33-multiplier rolling hash that starts
at 5381 and takes `h` to `(33 * h + c) mod 2^32` for each byte, where `c` is the value of
the byte as a `signed char`, reduced modulo the bucket count 1000003; when all bytes are
below 128 it is the rolling hash over the bytes themselves; and it is always a bucket index
below 1000003. -/
theorem hash_is_rolling33 (s : List Char) :
    (((hash s).val : Nat) : Int) = rolling33Signed 5381 s % 1000003 ∧
      ((∀ c ∈ s, c.toNat < 128) → (hash s).val = rolling33 5381 s % 1000003) ∧
      (hash s).val < 1000003 ∧ HASH_TABLE_SIZE = 1000003 := by
  refine ⟨?_, ?_, (hash s).isLt, rfl⟩
  · show (((hashLoop 5381 s % HASH_TABLE_SIZE : Nat)) : Int) = _
    rw [Int.ofNat_emod, hashLoop_eq_signed]
    rfl
  · intro h
    show hashLoop 5381 s % HASH_TABLE_SIZE = _
    rw [hashLoop_eq_rolling33 s 5381 h]
    rfl

/-- Witness of C19 as amended: `Paris` consists of bytes below 128, and its bucket 638828
is the rolling hash over its bytes. -/
theorem hash_is_rolling33_witness :
    (hash "Paris".toList).val = rolling33 5381 "Paris".toList % 1000003 ∧
      rolling33 5381 "Paris".toList % 1000003 = 638828 :=
  ⟨(hash_is_rolling33 "Paris".toList).2.1 (by decide), by decide⟩

/-- C19 as stated fails. For the string of the single byte 233 (0xE9) `hash` returns
177550, because the byte enters the sum as the `signed char` value -23; the rolling hash
over the byte 233 is 177806. -/
theorem hash_of_high_byte :
    (Char.ofNat 233).toNat = 233 ∧ (hash [Char.ofNat 233]).val = 177550 ∧
      rolling33 5381 [Char.ofNat 233] % 1000003 = 177806 ∧
      charToInt (Char.ofNat 233) = -23 ∧
      rolling33Signed 5381 [Char.ofNat 233] % 1000003 = 177550 := by
  decide!

/-! ## Rounding to nearest and the mean of a station -/

/-- The quotient of the two scale factors of an exponent `p` is `2^p`. -/
theorem two_pow_toNat_div (p : Int) :
    ((2 ^ p.toNat : Nat) : ℚ) / ((2 ^ (-p).toNat : Nat) : ℚ) = (2 : ℚ) ^ p := by
  rcases le_total 0 p with h | h
  · have h1 : (p.toNat : ℤ) = p := Int.toNat_of_nonneg h
    have h2 : (-p).toNat = 0 := Int.toNat_eq_zero.2 (by omega)
    rw [h2]
    push_cast
    rw [div_one, ← zpow_natCast, h1]
  · have h1 : ((-p).toNat : ℤ) = -p := Int.toNat_of_nonneg (by omega)
    have h2 : p.toNat = 0 := Int.toNat_eq_zero.2 h
    rw [h2]
    push_cast
    rw [one_div, ← zpow_natCast, h1, zpow_neg, inv_inv]

/-- Scaling numerator and denominator by the factors of `p` divides the ratio by `2^p`. -/
theorem scaled_ratio (n d : Nat) (p : Int) :
    ((n * 2 ^ (-p).toNat : Nat) : ℚ) / ((d * 2 ^ p.toNat : Nat) : ℚ) =
      (n : ℚ) / (d : ℚ) / (2 : ℚ) ^ p := by
  rw [← two_pow_toNat_div p]
  have h1 : ((2 ^ p.toNat : Nat) : ℚ) ≠ 0 := by positivity
  have h2 : ((2 ^ (-p).toNat : Nat) : ℚ) ≠ 0 := by positivity
  push_cast
  by_cases hd : (d : ℚ) = 0
  · simp [hd]
  · field_simp

theorem binade_spec (n d : Nat) (hn : 0 < n) (hd : 0 < d) :
    (2 : ℚ) ^ Double.binade n d ≤ (n : ℚ) / d ∧ (n : ℚ) / d < (2 : ℚ) ^ (Double.binade n d + 1) := by
  obtain ⟨a1, a2⟩ := ilog2_spec n hn
  obtain ⟨c1, c2⟩ := ilog2_spec d hd
  have hdq : (0 : ℚ) < d := by exact_mod_cast hd
  have A1 : (2 : ℚ) ^ (Double.ilog2 n : ℤ) ≤ n := by
    rw [zpow_natCast]; exact_mod_cast a1
  have A2 : (n : ℚ) < 2 * (2 : ℚ) ^ (Double.ilog2 n : ℤ) := by
    rw [zpow_natCast]
    have : n < 2 * 2 ^ Double.ilog2 n := by rw [Nat.pow_succ] at a2; omega
    exact_mod_cast this
  have C1 : (2 : ℚ) ^ (Double.ilog2 d : ℤ) ≤ d := by
    rw [zpow_natCast]; exact_mod_cast c1
  have C2 : (d : ℚ) < 2 * (2 : ℚ) ^ (Double.ilog2 d : ℤ) := by
    rw [zpow_natCast]
    have : d < 2 * 2 ^ Double.ilog2 d := by rw [Nat.pow_succ] at c2; omega
    exact_mod_cast this
  have hA : (0 : ℚ) < (2 : ℚ) ^ (Double.ilog2 n : ℤ) := zpow_pos (by norm_num) _
  have hC : (0 : ℚ) < (2 : ℚ) ^ (Double.ilog2 d : ℤ) := zpow_pos (by norm_num) _
  have hu : (2 : ℚ) ^ ((Double.ilog2 n : ℤ) - (Double.ilog2 d : ℤ)) =
      (2 : ℚ) ^ (Double.ilog2 n : ℤ) / (2 : ℚ) ^ (Double.ilog2 d : ℤ) :=
    zpow_sub₀ (by norm_num) _ _
  -- the comparison of `binade` is the comparison of the ratio with `2^k`
  have hcond : d * 2 ^ ((Double.ilog2 n : ℤ) - (Double.ilog2 d : ℤ)).toNat ≤
      n * 2 ^ (-((Double.ilog2 n : ℤ) - (Double.ilog2 d : ℤ))).toNat ↔
      (2 : ℚ) ^ ((Double.ilog2 n : ℤ) - (Double.ilog2 d : ℤ)) ≤ (n : ℚ) / d := by
    have hs := scaled_ratio n d ((Double.ilog2 n : ℤ) - (Double.ilog2 d : ℤ))
    have hD : (0 : ℚ) < ((d * 2 ^ ((Double.ilog2 n : ℤ) - (Double.ilog2 d : ℤ)).toNat : Nat) : ℚ) := by
      have : 0 < d * 2 ^ ((Double.ilog2 n : ℤ) - (Double.ilog2 d : ℤ)).toNat :=
        Nat.mul_pos hd (Nat.two_pow_pos _)
      exact_mod_cast this
    have hp : (0 : ℚ) < (2 : ℚ) ^ ((Double.ilog2 n : ℤ) - (Double.ilog2 d : ℤ)) :=
      zpow_pos (by norm_num) _
    rw [← Nat.cast_le (α := ℚ), ← one_le_div hD, hs, le_div_iff₀ hp, one_mul]
  unfold Double.binade
  generalize (Double.ilog2 n : ℤ) = a at *
  generalize (Double.ilog2 d : ℤ) = c at *
  split_ifs with h
  · refine ⟨hcond.1 h, ?_⟩
    rw [zpow_add₀ (by norm_num), hu, zpow_one, div_lt_iff₀ hdq, div_mul_eq_mul_div, div_mul_eq_mul_div,
      lt_div_iff₀ hC]
    nlinarith
  · have h' := not_le.1 (fun hh => h (hcond.2 hh))
    rw [sub_add_cancel]
    refine ⟨?_, h'⟩
    rw [zpow_sub₀ (by norm_num), hu, zpow_one, le_div_iff₀ hdq, div_div, div_mul_eq_mul_div,
      div_le_iff₀ (by positivity)]
    nlinarith


theorem le_nearestMultiple (n d : Nat) (p : Int) (hd : 0 < d) (z : Nat)
    (h : z * (d * 2 ^ p.toNat) ≤ n * 2 ^ (-p).toNat) : z ≤ Double.nearestMultiple n d p := by
  have hD : 0 < d * 2 ^ p.toNat := Nat.mul_pos hd (Nat.two_pow_pos _)
  have h1 : z ≤ n * 2 ^ (-p).toNat / (d * 2 ^ p.toNat) := (Nat.le_div_iff_mul_le hD).2 h
  exact le_trans h1 (nearestMultiple_ge n d p)

theorem nearestMultiple_le (n d : Nat) (p : Int) (hd : 0 < d) (z : Nat)
    (h : n * 2 ^ (-p).toNat ≤ z * (d * 2 ^ p.toNat)) : Double.nearestMultiple n d p ≤ z := by
  have hD : 0 < d * 2 ^ p.toNat := Nat.mul_pos hd (Nat.two_pow_pos _)
  generalize hN : n * 2 ^ (-p).toNat = N at h
  generalize hDD : d * 2 ^ p.toNat = D at h hD
  have h1 : N / D ≤ z := Nat.div_le_of_le_mul (by rw [Nat.mul_comm]; exact h)
  have h2 : 0 < N % D → N / D + 1 ≤ z := by
    intro hr
    have hne : N ≠ z * D := by
      intro e
      rw [e, Nat.mul_mod_left] at hr
      exact absurd hr (Nat.lt_irrefl 0)
    exact (Nat.div_lt_iff_lt_mul hD).2 (lt_of_le_of_ne h hne)
  unfold Double.nearestMultiple
  rw [hN, hDD]
  split_ifs with c1 c2 c3
  · exact h1
  · exact h2 (by omega)
  · exact h1
  · exact h2 (by omega)

theorem le_nearestMultiple_rat (n d : Nat) (p : Int) (hd : 0 < d) (z : Nat)
    (h : (z : ℚ) * (2 : ℚ) ^ p ≤ (n : ℚ) / d) : z ≤ Double.nearestMultiple n d p := by
  apply le_nearestMultiple n d p hd
  have hD : (0 : ℚ) < ((d * 2 ^ p.toNat : Nat) : ℚ) := by
    have : 0 < d * 2 ^ p.toNat := Nat.mul_pos hd (Nat.two_pow_pos _)
    exact_mod_cast this
  have hp : (0 : ℚ) < (2 : ℚ) ^ p := zpow_pos (by norm_num) _
  have hs := scaled_ratio n d p
  have h1 : (z : ℚ) ≤ ((n * 2 ^ (-p).toNat : Nat) : ℚ) / ((d * 2 ^ p.toNat : Nat) : ℚ) := by
    rw [hs, le_div_iff₀ hp]
    exact h
  rw [le_div_iff₀ hD] at h1
  exact_mod_cast h1

theorem nearestMultiple_le_rat (n d : Nat) (p : Int) (hd : 0 < d) (z : Nat)
    (h : (n : ℚ) / d ≤ (z : ℚ) * (2 : ℚ) ^ p) : Double.nearestMultiple n d p ≤ z := by
  apply nearestMultiple_le n d p hd
  have hD : (0 : ℚ) < ((d * 2 ^ p.toNat : Nat) : ℚ) := by
    have : 0 < d * 2 ^ p.toNat := Nat.mul_pos hd (Nat.two_pow_pos _)
    exact_mod_cast this
  have hp : (0 : ℚ) < (2 : ℚ) ^ p := zpow_pos (by norm_num) _
  have hs := scaled_ratio n d p
  have h1 : ((n * 2 ^ (-p).toNat : Nat) : ℚ) / ((d * 2 ^ p.toNat : Nat) : ℚ) ≤ (z : ℚ) := by
    rw [hs, div_le_iff₀ hp]
    exact h
  rw [div_le_iff₀ hD] at h1
  exact_mod_cast h1


theorem roundRatio_eq (neg : Bool) (n d : Nat) (hn : 0 < n) (hd : 0 < d) :
    Double.roundRatio neg n d = Double.pack neg (roundedSig n d) (lastPlace n d) := by
  unfold Double.roundRatio
  rw [if_neg (by omega)]
  rfl

theorem lastPlace_ge (n d : Nat) : -1074 ≤ lastPlace n d := by
  unfold lastPlace
  omega

theorem two_zpow_52 (b : Int) : (2 : ℚ) ^ b = 2 ^ 52 * (2 : ℚ) ^ (b - 52) := by
  rw [← zpow_natCast, ← zpow_add₀ (by norm_num)]
  norm_num

theorem two_zpow_53 (b : Int) : (2 : ℚ) ^ (b + 1) = 2 ^ 53 * (2 : ℚ) ^ (b - 52) := by
  rw [← zpow_natCast, ← zpow_add₀ (by norm_num)]
  congr 1
  push_cast
  ring

/-- In the normal range the rounded significand has 53 bits, or is `2^53` after a carry. -/
theorem rounded_normal (n d : Nat) (hn : 0 < n) (hd : 0 < d) (hb : -1022 ≤ Double.binade n d) :
    2 ^ 52 ≤ roundedSig n d ∧ roundedSig n d ≤ 2 ^ 53 := by
  obtain ⟨h1, h2⟩ := binade_spec n d hn hd
  have hP : lastPlace n d = Double.binade n d - 52 := by
    unfold lastPlace
    rw [max_eq_left hb]
  unfold roundedSig
  rw [hP]
  constructor
  · apply le_nearestMultiple_rat n d _ hd
    rw [two_zpow_52] at h1
    exact_mod_cast h1
  · apply nearestMultiple_le_rat n d _ hd
    rw [two_zpow_53] at h2
    exact_mod_cast le_of_lt h2

/-- Below the normal range the rounded significand is at most `2^52`. -/
theorem rounded_subnormal (n d : Nat) (hn : 0 < n) (hd : 0 < d)
    (hb : Double.binade n d < -1022) : roundedSig n d ≤ 2 ^ 52 := by
  obtain ⟨_, h2⟩ := binade_spec n d hn hd
  have hP : lastPlace n d = -1074 := by
    unfold lastPlace
    rw [max_eq_right (le_of_lt hb)]
    rfl
  unfold roundedSig
  rw [hP]
  apply nearestMultiple_le_rat n d _ hd
  have h3 : (2 : ℚ) ^ (Double.binade n d + 1) ≤ (2 : ℚ) ^ (-1022 : ℤ) :=
    zpow_le_zpow_right₀ (by norm_num) (by omega)
  have h4 : (2 : ℚ) ^ (-1022 : ℤ) = ((2 ^ 52 : Nat) : ℚ) * (2 : ℚ) ^ (-1074 : ℤ) := by
    have := two_zpow_52 (-1022)
    rw [this]
    norm_num
  rw [← h4]
  exact le_of_lt (lt_of_lt_of_le h2 h3)


theorem lastPlace_normal (n d : Nat) (h : -1074 < lastPlace n d) :
    -1022 ≤ Double.binade n d ∧ lastPlace n d = Double.binade n d - 52 := by
  unfold lastPlace at h ⊢
  omega

theorem lastPlace_cases (n d : Nat) :
    (-1022 ≤ Double.binade n d ∧ lastPlace n d = Double.binade n d - 52) ∨
      (Double.binade n d < -1022 ∧ lastPlace n d = -1074) := by
  unfold lastPlace
  omega

/-- A double with fewer than 54 bits and an exponent below the last place of `n / d` is
smaller than `2^52` units of that last place. -/
theorem below_lastPlace (m : Nat) (e P : Int) (hm : m < 2 ^ 53) (h : e < P) :
    (m : ℚ) * (2 : ℚ) ^ e < 2 ^ 52 * (2 : ℚ) ^ P := by
  have h1 : (2 : ℚ) ^ e ≤ (2 : ℚ) ^ (P - 1) := zpow_le_zpow_right₀ (by norm_num) (by omega)
  have h2 : (2 : ℚ) ^ P = 2 * (2 : ℚ) ^ (P - 1) := by
    rw [← zpow_one_add₀ (by norm_num)]
    congr 1
    ring
  have h3 : (0 : ℚ) < (2 : ℚ) ^ e := zpow_pos (by norm_num) _
  have h4 : (m : ℚ) < 2 ^ 53 := by exact_mod_cast hm
  rw [h2]
  nlinarith

theorem scaled_value (m : Nat) (e P : Int) (h : P ≤ e) :
    ((m * 2 ^ (e - P).toNat : Nat) : ℚ) * (2 : ℚ) ^ P = (m : ℚ) * (2 : ℚ) ^ e := by
  rw [two_zpow_split e P h]
  push_cast
  ring

/-- The rounded magnitude does not exceed a double that bounds the quotient from above. -/
theorem rounded_le (n d : Nat) (hn : 0 < n) (hd : 0 < d) (m : Nat) (e : Int) (hm : m < 2 ^ 53)
    (he : -1074 ≤ e) (hx : (n : ℚ) / d ≤ (m : ℚ) * (2 : ℚ) ^ e) :
    (roundedSig n d : ℚ) * (2 : ℚ) ^ lastPlace n d ≤ (m : ℚ) * (2 : ℚ) ^ e := by
  have hp : (0 : ℚ) < (2 : ℚ) ^ lastPlace n d := zpow_pos (by norm_num) _
  by_cases hPe : lastPlace n d ≤ e
  · rw [← scaled_value m e _ hPe] at hx ⊢
    have := nearestMultiple_le_rat n d (lastPlace n d) hd _ hx
    have h2 : (roundedSig n d : ℚ) ≤ ((m * 2 ^ (e - lastPlace n d).toNat : Nat) : ℚ) := by
      exact_mod_cast this
    exact mul_le_mul_of_nonneg_right h2 (le_of_lt hp)
  · exfalso
    have hlt := below_lastPlace m e (lastPlace n d) hm (not_le.1 hPe)
    rcases lastPlace_cases n d with ⟨hb, hP⟩ | ⟨hb, hP⟩
    · obtain ⟨h1, _⟩ := binade_spec n d hn hd
      rw [two_zpow_52, ← hP] at h1
      linarith
    · omega

/-- The rounded magnitude is not below a double that bounds the quotient from below. -/
theorem le_rounded (n d : Nat) (hn : 0 < n) (hd : 0 < d) (m : Nat) (e : Int) (hm : m < 2 ^ 53)
    (he : -1074 ≤ e) (hx : (m : ℚ) * (2 : ℚ) ^ e ≤ (n : ℚ) / d) :
    (m : ℚ) * (2 : ℚ) ^ e ≤ (roundedSig n d : ℚ) * (2 : ℚ) ^ lastPlace n d := by
  have hp : (0 : ℚ) < (2 : ℚ) ^ lastPlace n d := zpow_pos (by norm_num) _
  by_cases hPe : lastPlace n d ≤ e
  · rw [← scaled_value m e _ hPe] at hx ⊢
    have := le_nearestMultiple_rat n d (lastPlace n d) hd _ hx
    have h2 : ((m * 2 ^ (e - lastPlace n d).toNat : Nat) : ℚ) ≤ (roundedSig n d : ℚ) := by
      exact_mod_cast this
    exact mul_le_mul_of_nonneg_right h2 (le_of_lt hp)
  · have hlt := below_lastPlace m e (lastPlace n d) hm (not_le.1 hPe)
    rcases lastPlace_cases n d with ⟨hb, _⟩ | ⟨_, hP⟩
    · have h2 : ((2 ^ 52 : Nat) : ℚ) ≤ (roundedSig n d : ℚ) := by
        exact_mod_cast (rounded_normal n d hn hd hb).1
      push_cast at h2
      have := mul_le_mul_of_nonneg_right h2 (le_of_lt hp)
      linarith
    · omega

theorem pack_fin (neg : Bool) (q : Nat) (P : Int)
    (h : ¬ 971 < (if q = 2 ^ 53 then P + 1 else P)) :
    ∃ (q' : Nat) (P' : Int), Double.pack neg q P = .fin neg q' P' ∧
      (q' : ℚ) * (2 : ℚ) ^ P' = (q : ℚ) * (2 : ℚ) ^ P := by
  unfold Double.pack
  rw [if_neg h]
  refine ⟨_, _, rfl, ?_⟩
  by_cases hq : q = 2 ^ 53
  · rw [if_pos hq, if_pos hq, hq, zpow_add₀ (by norm_num)]
    push_cast
    ring
  · rw [if_neg hq, if_neg hq]

theorem pack_inf_or_fin (neg : Bool) (q : Nat) (P : Int) :
    Double.pack neg q P = .inf neg ∨
      ∃ (q' : Nat) (P' : Int), Double.pack neg q P = .fin neg q' P' ∧
        (q' : ℚ) * (2 : ℚ) ^ P' = (q : ℚ) * (2 : ℚ) ^ P := by
  by_cases h : 971 < (if q = 2 ^ 53 then P + 1 else P)
  · left
    unfold Double.pack
    rw [if_pos h]
  · exact Or.inr (pack_fin neg q P h)

/-- Rounding a quotient that a finite double bounds from above gives a finite double that
the same double bounds. -/
theorem roundRatio_le (neg : Bool) (n d : Nat) (hn : 0 < n) (hd : 0 < d) (m : Nat) (e : Int)
    (hm : m < 2 ^ 53) (he1 : -1074 ≤ e) (he2 : e ≤ 971)
    (hx : (n : ℚ) / d ≤ (m : ℚ) * (2 : ℚ) ^ e) :
    ∃ (q' : Nat) (P' : Int), Double.roundRatio neg n d = .fin neg q' P' ∧
      (q' : ℚ) * (2 : ℚ) ^ P' ≤ (m : ℚ) * (2 : ℚ) ^ e := by
  have hle := rounded_le n d hn hd m e hm he1 hx
  have hfin : ¬ 971 < (if roundedSig n d = 2 ^ 53 then lastPlace n d + 1 else lastPlace n d) := by
    intro hc
    have hPe : e < lastPlace n d + 1 := by
      split_ifs at hc <;> omega
    have hp : (0 : ℚ) < (2 : ℚ) ^ lastPlace n d := zpow_pos (by norm_num) _
    by_cases hq : roundedSig n d = 2 ^ 53
    · rw [if_pos hq] at hc
      have h1 := below_lastPlace m e (lastPlace n d + 1) hm (by omega)
      rw [zpow_add₀ (by norm_num), zpow_one] at h1
      rw [hq] at hle
      push_cast at hle
      linarith
    · rw [if_neg hq] at hc
      have h1 := below_lastPlace m e (lastPlace n d) hm (by omega)
      obtain ⟨hb, _⟩ := lastPlace_normal n d (by omega)
      have h2 : ((2 ^ 52 : Nat) : ℚ) ≤ (roundedSig n d : ℚ) := by
        exact_mod_cast (rounded_normal n d hn hd hb).1
      push_cast at h2
      have := mul_le_mul_of_nonneg_right h2 (le_of_lt hp)
      linarith
  obtain ⟨q', P', h1, h2⟩ := pack_fin neg _ _ hfin
  exact ⟨q', P', by rw [roundRatio_eq neg n d hn hd, h1], by rw [h2]; exact hle⟩

/-- Rounding a quotient that a double bounds from below gives an infinity or a finite
double that the same double bounds. -/
theorem le_roundRatio (neg : Bool) (n d : Nat) (hn : 0 < n) (hd : 0 < d) (m : Nat) (e : Int)
    (hm : m < 2 ^ 53) (he1 : -1074 ≤ e) (hx : (m : ℚ) * (2 : ℚ) ^ e ≤ (n : ℚ) / d) :
    Double.roundRatio neg n d = .inf neg ∨
      ∃ (q' : Nat) (P' : Int), Double.roundRatio neg n d = .fin neg q' P' ∧
        (m : ℚ) * (2 : ℚ) ^ e ≤ (q' : ℚ) * (2 : ℚ) ^ P' := by
  have hle := le_rounded n d hn hd m e hm he1 hx
  rw [roundRatio_eq neg n d hn hd]
  rcases pack_inf_or_fin neg (roundedSig n d) (lastPlace n d) with h | ⟨q', P', h1, h2⟩
  · exact Or.inl h
  · exact Or.inr ⟨q', P', h1, by rw [h2]; exact hle⟩

/-- The result of `roundRatio` is a binary64 value. -/
theorem roundRatio_isBinary64 (neg : Bool) (n d : Nat) :
    Double.IsBinary64 (Double.roundRatio neg n d) := by
  by_cases h0 : n = 0 ∨ d = 0
  · unfold Double.roundRatio
    rw [if_pos h0]
    exact Or.inr ⟨by norm_num, rfl⟩
  · have hn : 0 < n := by omega
    have hd : 0 < d := by omega
    rw [roundRatio_eq neg n d hn hd]
    have hP := lastPlace_ge n d
    unfold Double.pack
    split_ifs with c1 c2 c3
    · trivial
    · exact Or.inl ⟨le_refl _, by norm_num, by omega, by omega⟩
    · trivial
    · rcases lastPlace_cases n d with ⟨hb, _⟩ | ⟨hb, hPe⟩
      · obtain ⟨q1, q2⟩ := rounded_normal n d hn hd hb
        exact Or.inl ⟨q1, by omega, hP, by omega⟩
      · have q2 := rounded_subnormal n d hn hd hb
        by_cases hq : roundedSig n d = 2 ^ 52
        · exact Or.inl ⟨by omega, by omega, hP, by omega⟩
        · exact Or.inr ⟨by omega, hPe⟩


theorem isBinary64_bounds (s : Bool) (m : Nat) (e : Int)
    (h : Double.IsBinary64 (.fin s m e)) : m < 2 ^ 53 ∧ -1074 ≤ e ∧ e ≤ 971 := by
  rcases h with ⟨_, h2, h3, h4⟩ | ⟨h1, h2⟩
  · exact ⟨h2, h3, h4⟩
  · exact ⟨by omega, by omega, by omega⟩

theorem decFloat_isBinary64 (neg : Bool) (s : List Char) (d : Double)
    (h : decFloat neg s = some d) : Double.IsBinary64 d := by
  unfold decFloat at h
  dsimp only at h
  split_ifs at h
  rw [← Option.some.inj h]
  exact roundRatio_isBinary64 _ _ _

theorem hexFloat_isBinary64 (neg : Bool) (s : List Char) (d : Double)
    (h : hexFloat neg s = some d) : Double.IsBinary64 d := by
  unfold hexFloat at h
  dsimp only at h
  split_ifs at h
  rw [← Option.some.inj h]
  exact roundRatio_isBinary64 _ _ _

theorem strtodBody_isBinary64 (neg : Bool) (s : List Char) (d : Double)
    (h : strtodBody neg s = some d) : Double.IsBinary64 d := by
  unfold strtodBody at h
  split_ifs at h with h1 h2
  · rw [← Option.some.inj h]
    trivial
  · rw [← Option.some.inj h]
    trivial
  · split at h
    · split_ifs at h
      · split at h
        · rename_i d0 hd0
          rw [← Option.some.inj h]
          exact hexFloat_isBinary64 _ _ _ hd0
        · exact decFloat_isBinary64 _ _ _ h
      · exact decFloat_isBinary64 _ _ _ h
    · exact decFloat_isBinary64 _ _ _ h

/-- Every value that `atof` returns is a binary64 value. -/
theorem atof_isBinary64 (s : List Char) : Double.IsBinary64 (atof s) := by
  unfold atof strtod
  dsimp only
  cases h : strtodBody (takeSign (s.dropWhile isspace)).1 (takeSign (s.dropWhile isspace)).2 with
  | none => exact Or.inr ⟨by norm_num, rfl⟩
  | some d => exact strtodBody_isBinary64 _ _ _ h

theorem le_fin_iff (s1 : Bool) (m1 : Nat) (e1 : Int) (s2 : Bool) (m2 : Nat) (e2 : Int) :
    Double.le (.fin s1 m1 e1) (.fin s2 m2 e2) = true ↔
      Double.toRat (.fin s1 m1 e1) ≤ Double.toRat (.fin s2 m2 e2) := by
  have hpos : (0 : ℚ) < (2 : ℚ) ^ (min e1 e2) := zpow_pos (by norm_num) _
  simp only [Double.le, Double.toRat, decide_eq_true_eq]
  rw [two_zpow_split e1 (min e1 e2) (min_le_left _ _),
    two_zpow_split e2 (min e1 e2) (min_le_right _ _), ← mul_assoc, ← mul_assoc,
    mul_le_mul_right hpos, ← Int.cast_le (R := ℚ)]
  push_cast
  rfl

theorem toRat_pos (m : Nat) (e : Int) :
    Double.toRat (.fin false m e) = (m : ℚ) * (2 : ℚ) ^ e := by
  simp [Double.toRat, Double.sig]

theorem toRat_neg (m : Nat) (e : Int) :
    Double.toRat (.fin true m e) = -((m : ℚ) * (2 : ℚ) ^ e) := by
  simp [Double.toRat, Double.sig]

/-- The conversion of a positive `int` to `double` is exact. -/
theorem ofInt_exact (c : Int) (h1 : 1 ≤ c) (h2 : c < 2 ^ 53) :
    ∃ (m : Nat) (e : Int), Double.ofInt c = .fin false m e ∧ (m : ℚ) * (2 : ℚ) ^ e = (c : ℚ) := by
  have hn : 0 < c.natAbs := Int.natAbs_pos.2 (by omega)
  have hm : c.natAbs < 2 ^ 53 := by omega
  have hc : ((c.natAbs : Nat) : ℚ) = (c : ℚ) := by
    have : ((c.natAbs : Nat) : ℤ) = c := Int.natAbs_of_nonneg (by omega)
    rw [← Int.cast_natCast, this]
  have hx : ((c.natAbs : Nat) : ℚ) / ((1 : Nat) : ℚ) = (c.natAbs : ℚ) * (2 : ℚ) ^ (0 : ℤ) := by
    simp
  unfold Double.ofInt
  rw [decide_eq_false (by omega)]
  obtain ⟨q, P, hq, hle⟩ :=
    roundRatio_le false c.natAbs 1 hn (by decide) c.natAbs 0 hm (by decide) (by decide)
      (le_of_eq hx)
  rcases le_roundRatio false c.natAbs 1 hn (by decide) c.natAbs 0 hm (by decide)
      (le_of_eq hx.symm) with hinf | ⟨q2, P2, hq2, hge⟩
  · rw [hq] at hinf
    cases hinf
  · rw [hq] at hq2
    cases hq2
    refine ⟨q, P, hq, ?_⟩
    rw [← hc]
    have : (c.natAbs : ℚ) * (2 : ℚ) ^ (0 : ℤ) = (c.natAbs : ℚ) := by simp
    rw [this] at hle hge
    exact le_antisymm hle hge


theorem div_ratio (m1 m2 : Nat) (e1 e2 : Int) (hm2 : 0 < m2) :
    ((m1 * 2 ^ (e1 - e2).toNat : Nat) : ℚ) / ((m2 * 2 ^ (e2 - e1).toNat : Nat) : ℚ) =
      ((m1 : ℚ) * (2 : ℚ) ^ e1) / ((m2 : ℚ) * (2 : ℚ) ^ e2) := by
  have h := scaled_ratio m1 m2 (e2 - e1)
  rw [neg_sub] at h
  have hm : (m2 : ℚ) ≠ 0 := by exact_mod_cast (Nat.pos_iff_ne_zero.1 hm2)
  have h1 : (2 : ℚ) ^ e1 ≠ 0 := zpow_ne_zero _ (by norm_num)
  have h2 : (2 : ℚ) ^ e2 ≠ 0 := zpow_ne_zero _ (by norm_num)
  rw [h, zpow_sub₀ (by norm_num)]
  field_simp

/-- The quotient of a finite double by a positive `int` count lies between two finite
doubles whenever the exact quotient does: rounding to nearest does not cross a double. -/
theorem div_between (tot A B : Double) (c : Int) (hc1 : 1 ≤ c) (hc2 : c < 2 ^ 53)
    (htot : tot.isFinite = true) (hA : A.isFinite = true) (hB : B.isFinite = true)
    (hA64 : Double.IsBinary64 A) (hB64 : Double.IsBinary64 B)
    (h1 : A.toRat ≤ tot.toRat / (c : ℚ)) (h2 : tot.toRat / (c : ℚ) ≤ B.toRat) :
    Double.le A (Double.div tot (Double.ofInt c)) = true ∧
      Double.le (Double.div tot (Double.ofInt c)) B = true := by
  obtain ⟨m2, e2, hof, hval⟩ := ofInt_exact c hc1 hc2
  have hcq : (0 : ℚ) < (c : ℚ) := by exact_mod_cast (by omega : (0 : ℤ) < c)
  have hm2 : 0 < m2 := by
    rcases Nat.eq_zero_or_pos m2 with h | h
    · rw [h] at hval
      simp at hval
      linarith
    · exact h
  cases tot with
  | inf _ => simp [Double.isFinite] at htot
  | nan => simp [Double.isFinite] at htot
  | fin s1 m1 e1 =>
    cases A with
    | inf _ => simp [Double.isFinite] at hA
    | nan => simp [Double.isFinite] at hA
    | fin sa ma ea =>
      cases B with
      | inf _ => simp [Double.isFinite] at hB
      | nan => simp [Double.isFinite] at hB
      | fin sb mb eb =>
        obtain ⟨hma, hea1, _⟩ := isBinary64_bounds _ _ _ hA64
        obtain ⟨hmb, heb1, heb2⟩ := isBinary64_bounds _ _ _ hB64
        obtain ⟨_, _, hea2⟩ := isBinary64_bounds _ _ _ hA64
        rw [hof]
        have hdiv : Double.div (.fin s1 m1 e1) (.fin false m2 e2) =
            Double.roundRatio s1 (m1 * 2 ^ (e1 - e2).toNat) (m2 * 2 ^ (e2 - e1).toNat) := by
          simp only [Double.div, Bool.xor_false]
          rw [if_neg (Nat.pos_iff_ne_zero.1 hm2)]
        rw [hdiv]
        suffices h : ∃ (q : Nat) (P : Int),
            Double.roundRatio s1 (m1 * 2 ^ (e1 - e2).toNat) (m2 * 2 ^ (e2 - e1).toNat) =
              .fin s1 q P ∧
            Double.toRat (.fin sa ma ea) ≤ Double.toRat (.fin s1 q P) ∧
            Double.toRat (.fin s1 q P) ≤ Double.toRat (.fin sb mb eb) by
          obtain ⟨q, P, hR, l1, l2⟩ := h
          rw [hR]
          exact ⟨(le_fin_iff _ _ _ _ _ _).2 l1, (le_fin_iff _ _ _ _ _ _).2 l2⟩
        have hd : 0 < m2 * 2 ^ (e2 - e1).toNat := Nat.mul_pos hm2 (Nat.two_pow_pos _)
        have hx := div_ratio m1 m2 e1 e2 hm2
        rw [hval] at hx
        have hpa : (0 : ℚ) ≤ (ma : ℚ) * (2 : ℚ) ^ ea := by positivity
        have hpb : (0 : ℚ) ≤ (mb : ℚ) * (2 : ℚ) ^ eb := by positivity
        by_cases hm1 : m1 = 0
        · subst hm1
          refine ⟨0, -1074, ?_, ?_, ?_⟩
          · unfold Double.roundRatio
            rw [if_pos (Or.inl (Nat.zero_mul _))]
          · have e0 : Double.toRat (.fin s1 0 (-1074)) = 0 := by simp [Double.toRat, Double.sig]
            have e1 : Double.toRat (.fin s1 0 e1) = 0 := by simp [Double.toRat, Double.sig]
            rw [e1, zero_div] at h1
            rw [e0]
            exact h1
          · have e0 : Double.toRat (.fin s1 0 (-1074)) = 0 := by simp [Double.toRat, Double.sig]
            have e1 : Double.toRat (.fin s1 0 e1) = 0 := by simp [Double.toRat, Double.sig]
            rw [e1, zero_div] at h2
            rw [e0]
            exact h2
        · have hn : 0 < m1 * 2 ^ (e1 - e2).toNat :=
            Nat.mul_pos (Nat.pos_of_ne_zero hm1) (Nat.two_pow_pos _)
          have hxpos : (0 : ℚ) < ((m1 : ℚ) * (2 : ℚ) ^ e1) / (c : ℚ) := by
            have : (0 : ℚ) < (m1 : ℚ) := by exact_mod_cast Nat.pos_of_ne_zero hm1
            positivity
          cases s1 with
          | false =>
            rw [toRat_pos] at h1 h2
            cases sb with
            | true =>
              rw [toRat_neg] at h2
              linarith
            | false =>
              rw [toRat_pos] at h2
              obtain ⟨q, P, hR, hle⟩ := roundRatio_le false _ _ hn hd mb eb hmb heb1 heb2
                (by rw [hx]; exact h2)
              refine ⟨q, P, hR, ?_, by rw [toRat_pos, toRat_pos]; exact hle⟩
              cases sa with
              | true =>
                rw [toRat_neg, toRat_pos]
                have : (0 : ℚ) ≤ (q : ℚ) * (2 : ℚ) ^ P := by positivity
                linarith
              | false =>
                rw [toRat_pos] at h1
                rcases le_roundRatio false _ _ hn hd ma ea hma hea1 (by rw [hx]; exact h1) with
                  hinf | ⟨q2, P2, hR2, hge⟩
                · rw [hR] at hinf
                  cases hinf
                · rw [hR] at hR2
                  cases hR2
                  rw [toRat_pos, toRat_pos]
                  exact hge
          | true =>
            rw [toRat_neg, neg_div] at h1 h2
            cases sa with
            | false =>
              rw [toRat_pos] at h1
              linarith
            | true =>
              rw [toRat_neg] at h1
              obtain ⟨q, P, hR, hle⟩ := roundRatio_le true _ _ hn hd ma ea hma hea1 hea2
                (by rw [hx]; linarith)
              refine ⟨q, P, hR, by rw [toRat_neg, toRat_neg]; linarith, ?_⟩
              cases sb with
              | false =>
                rw [toRat_neg, toRat_pos]
                have : (0 : ℚ) ≤ (q : ℚ) * (2 : ℚ) ^ P := by positivity
                linarith
              | true =>
                rw [toRat_neg] at h2
                rcases le_roundRatio true _ _ hn hd mb eb hmb heb1 (by rw [hx]; linarith) with
                  hinf | ⟨q2, P2, hR2, hge⟩
                · rw [hR] at hinf
                  cases hinf
                · rw [hR] at hR2
                  cases hR2
                  rw [toRat_neg, toRat_neg]
                  linarith


theorem nearest_half (N D : Nat) (hD : 0 < D) :
    |((if 2 * (N % D) < D then N / D
        else if D < 2 * (N % D) then N / D + 1
        else if N / D % 2 = 0 then N / D else N / D + 1 : Nat) : ℚ) - (N : ℚ) / D| ≤ 1 / 2 := by
  have hDq : (0 : ℚ) < (D : ℚ) := by exact_mod_cast hD
  have hdm : (N : ℚ) = (D : ℚ) * ((N / D : Nat) : ℚ) + ((N % D : Nat) : ℚ) := by
    exact_mod_cast (Nat.div_add_mod N D).symm
  have hq : (N : ℚ) / D = ((N / D : Nat) : ℚ) + ((N % D : Nat) : ℚ) / D := by
    rw [hdm]
    field_simp
    ring
  have h0 : (0 : ℚ) ≤ ((N % D : Nat) : ℚ) / D := by positivity
  rw [hq]
  split_ifs with c1 c2 c3
  · have : ((N % D : Nat) : ℚ) / D ≤ 1 / 2 := by
      rw [div_le_iff₀ hDq]
      have : ((2 * (N % D) : Nat) : ℚ) < (D : ℚ) := by exact_mod_cast c1
      push_cast at this
      linarith
    rw [abs_le]
    constructor <;> linarith
  · have : 1 / 2 ≤ ((N % D : Nat) : ℚ) / D := by
      rw [le_div_iff₀ hDq]
      have : (D : ℚ) < ((2 * (N % D) : Nat) : ℚ) := by exact_mod_cast c2
      push_cast at this
      linarith
    have h1 : ((N % D : Nat) : ℚ) / D ≤ 1 := by
      rw [div_le_iff₀ hDq, one_mul]
      exact_mod_cast le_of_lt (Nat.mod_lt N hD)
    rw [abs_le]
    push_cast
    constructor <;> linarith
  · have e : 2 * (N % D) = D := by omega
    have : ((N % D : Nat) : ℚ) / D = 1 / 2 := by
      rw [div_eq_iff (ne_of_gt hDq)]
      have : ((2 * (N % D) : Nat) : ℚ) = (D : ℚ) := by exact_mod_cast e
      push_cast at this
      linarith
    rw [abs_le]
    constructor <;> linarith
  · have e : 2 * (N % D) = D := by omega
    have : ((N % D : Nat) : ℚ) / D = 1 / 2 := by
      rw [div_eq_iff (ne_of_gt hDq)]
      have : ((2 * (N % D) : Nat) : ℚ) = (D : ℚ) := by exact_mod_cast e
      push_cast at this
      linarith
    rw [abs_le]
    push_cast
    constructor <;> linarith

/-- The multiple of `2^p` that `nearestMultiple` picks is within half a unit of the quotient. -/
theorem nearestMultiple_half (n d : Nat) (p : Int) (hd : 0 < d) :
    |(Double.nearestMultiple n d p : ℚ) * (2 : ℚ) ^ p - (n : ℚ) / d| ≤ (2 : ℚ) ^ p / 2 := by
  have hp : (0 : ℚ) < (2 : ℚ) ^ p := zpow_pos (by norm_num) _
  have hD : 0 < d * 2 ^ p.toNat := Nat.mul_pos hd (Nat.two_pow_pos _)
  have hs := scaled_ratio n d p
  have hx : (n : ℚ) / d =
      ((n * 2 ^ (-p).toNat : Nat) : ℚ) / ((d * 2 ^ p.toNat : Nat) : ℚ) * (2 : ℚ) ^ p := by
    rw [hs, div_mul_cancel₀ _ (ne_of_gt hp)]
  rw [hx, ← sub_mul, abs_mul, abs_of_pos hp]
  have key := nearest_half (n * 2 ^ (-p).toNat) (d * 2 ^ p.toNat) hD
  calc _ ≤ 1 / 2 * (2 : ℚ) ^ p := mul_le_mul_of_nonneg_right key (le_of_lt hp)
    _ = _ := by ring

theorem pack_value (neg : Bool) (q : Nat) (P : Int) (s : Bool) (q' : Nat) (P' : Int)
    (h : Double.pack neg q P = .fin s q' P') :
    s = neg ∧ (q' : ℚ) * (2 : ℚ) ^ P' = (q : ℚ) * (2 : ℚ) ^ P := by
  unfold Double.pack at h
  split_ifs at h with c1 c2 c3
  · simp only [Double.fin.injEq] at h
    obtain ⟨h1, h2, h3⟩ := h
    refine ⟨h1.symm, ?_⟩
    rw [← h2, ← h3, c1, zpow_add₀ (by norm_num)]
    push_cast
    ring
  · simp only [Double.fin.injEq] at h
    obtain ⟨h1, h2, h3⟩ := h
    exact ⟨h1.symm, by rw [← h2, ← h3]⟩

/-- The rounding error of `roundRatio`: at most the relative error `2^-53` in the normal
range, at most `2^-1075` below it. -/
theorem roundRatio_error (neg : Bool) (n d : Nat) (hn : 0 < n) (hd : 0 < d) (s : Bool)
    (q' : Nat) (P' : Int) (h : Double.roundRatio neg n d = .fin s q' P') :
    s = neg ∧
      |(q' : ℚ) * (2 : ℚ) ^ P' - (n : ℚ) / d| ≤
        (if -1022 ≤ Double.binade n d then (2 : ℚ) ^ (-53 : ℤ) * ((n : ℚ) / d)
          else (2 : ℚ) ^ (-1075 : ℤ)) := by
  rw [roundRatio_eq neg n d hn hd] at h
  obtain ⟨hs, hv⟩ := pack_value _ _ _ _ _ _ h
  refine ⟨hs, ?_⟩
  rw [hv]
  have hhalf := nearestMultiple_half n d (lastPlace n d) hd
  change |(roundedSig n d : ℚ) * (2 : ℚ) ^ lastPlace n d - (n : ℚ) / d| ≤ _ at hhalf
  refine le_trans hhalf ?_
  rcases lastPlace_cases n d with ⟨hb, hP⟩ | ⟨hb, hP⟩
  · rw [if_pos hb, hP]
    obtain ⟨h1, _⟩ := binade_spec n d hn hd
    have e : (2 : ℚ) ^ (Double.binade n d - 52) / 2 =
        (2 : ℚ) ^ (-53 : ℤ) * (2 : ℚ) ^ Double.binade n d := by
      rw [← zpow_add₀ (by norm_num), div_eq_mul_inv, ← zpow_neg_one, ← zpow_add₀ (by norm_num)]
      congr 1
      ring
    rw [e]
    exact mul_le_mul_of_nonneg_left h1 (le_of_lt (zpow_pos (by norm_num) _))
  · rw [if_neg (not_le.2 hb), hP]
    apply le_of_eq
    rw [div_eq_mul_inv, ← zpow_neg_one, ← zpow_add₀ (by norm_num)]
    norm_num


/-- Rounding a quotient with a power of two as denominator, as an addition produces it: in
the subnormal range such a quotient is a multiple of the last place and is not rounded, so
the error is relative throughout. -/
theorem roundRatio_error_dyadic (neg : Bool) (A : Nat) (e : Int) (hA : 0 < A) (he : -1074 ≤ e)
    (s : Bool) (q' : Nat) (P' : Int)
    (h : Double.roundRatio neg (A * 2 ^ e.toNat) (2 ^ (-e).toNat) = .fin s q' P') :
    s = neg ∧
      |(q' : ℚ) * (2 : ℚ) ^ P' - (A : ℚ) * (2 : ℚ) ^ e| ≤
        (2 : ℚ) ^ (-53 : ℤ) * ((A : ℚ) * (2 : ℚ) ^ e) := by
  have hn : 0 < A * 2 ^ e.toNat := Nat.mul_pos hA (Nat.two_pow_pos _)
  have hd : 0 < 2 ^ (-e).toNat := Nat.two_pow_pos _
  have hx : ((A * 2 ^ e.toNat : Nat) : ℚ) / ((2 ^ (-e).toNat : Nat) : ℚ) =
      (A : ℚ) * (2 : ℚ) ^ e := by
    rw [← two_pow_toNat_div e]
    push_cast
    ring
  obtain ⟨hs, herr⟩ := roundRatio_error neg _ _ hn hd s q' P' h
  refine ⟨hs, ?_⟩
  rw [hx] at herr
  split_ifs at herr with hb
  · exact herr
  · -- below the normal range the quotient is a multiple of `2^-1074`
    have hP : lastPlace (A * 2 ^ e.toNat) (2 ^ (-e).toNat) = -1074 := by
      rcases lastPlace_cases (A * 2 ^ e.toNat) (2 ^ (-e).toNat) with ⟨h1, _⟩ | ⟨_, h2⟩
      · exact absurd h1 hb
      · exact h2
    have hz : ((A * 2 ^ (e - (-1074)).toNat : Nat) : ℚ) * (2 : ℚ) ^ (-1074 : ℤ) =
        (A : ℚ) * (2 : ℚ) ^ e := scaled_value A e (-1074) he
    have h1 := nearestMultiple_le_rat (A * 2 ^ e.toNat) (2 ^ (-e).toNat) (-1074) hd
      (A * 2 ^ (e - (-1074)).toNat) (by rw [hx, hz])
    have h2 := le_nearestMultiple_rat (A * 2 ^ e.toNat) (2 ^ (-e).toNat) (-1074) hd
      (A * 2 ^ (e - (-1074)).toNat) (by rw [hx, hz])
    have hq : roundedSig (A * 2 ^ e.toNat) (2 ^ (-e).toNat) = A * 2 ^ (e - (-1074)).toNat := by
      unfold roundedSig
      rw [hP]
      exact le_antisymm h1 h2
    rw [roundRatio_eq neg _ _ hn hd, hq, hP] at h
    obtain ⟨_, hv⟩ := pack_value _ _ _ _ _ _ h
    rw [hv, hz, sub_self, abs_zero]
    positivity

theorem add_fin_toRat (s1 : Bool) (m1 : Nat) (e1 : Int) (s2 : Bool) (m2 : Nat) (e2 : Int) :
    Double.toRat (.fin s1 m1 e1) + Double.toRat (.fin s2 m2 e2) =
      ((Double.sig s1 m1 * 2 ^ (e1 - min e1 e2).toNat +
        Double.sig s2 m2 * 2 ^ (e2 - min e1 e2).toNat : Int) : ℚ) * (2 : ℚ) ^ (min e1 e2) := by
  simp only [Double.toRat]
  rw [two_zpow_split e1 (min e1 e2) (min_le_left _ _),
    two_zpow_split e2 (min e1 e2) (min_le_right _ _)]
  push_cast
  ring

theorem add_isBinary64 (a b : Double) : Double.IsBinary64 (Double.add a b) := by
  cases a with
  | nan => cases b <;> trivial
  | inf n1 =>
    cases b with
    | nan => trivial
    | inf n2 =>
      show Double.IsBinary64 (if n1 = n2 then .inf n1 else .nan)
      split_ifs <;> trivial
    | fin _ _ _ => trivial
  | fin s1 m1 e1 =>
    cases b with
    | nan => trivial
    | inf n2 => trivial
    | fin s2 m2 e2 =>
      unfold Double.add
      dsimp only
      split_ifs
      · exact Or.inr ⟨by norm_num, rfl⟩
      · exact roundRatio_isBinary64 _ _ _

/-- The rounding error of an addition whose result is finite: both operands are finite and
the error is at most the relative error `2^-53`. -/
theorem add_error (a b : Double) (ha : Double.IsBinary64 a) (hb : Double.IsBinary64 b)
    (hfin : (Double.add a b).isFinite = true) :
    a.isFinite = true ∧ b.isFinite = true ∧
      |(Double.add a b).toRat - (a.toRat + b.toRat)| ≤
        (2 : ℚ) ^ (-53 : ℤ) * |a.toRat + b.toRat| := by
  cases a with
  | nan => cases b <;> simp [Double.add, Double.isFinite] at hfin
  | inf n1 =>
    cases b with
    | nan => simp [Double.add, Double.isFinite] at hfin
    | inf n2 =>
      exfalso
      have : Double.add (.inf n1) (.inf n2) = if n1 = n2 then .inf n1 else .nan := rfl
      rw [this] at hfin
      split_ifs at hfin <;> simp [Double.isFinite] at hfin
    | fin _ _ _ => simp [Double.add, Double.isFinite] at hfin
  | fin s1 m1 e1 =>
    cases b with
    | nan => simp [Double.add, Double.isFinite] at hfin
    | inf n2 => simp [Double.add, Double.isFinite] at hfin
    | fin s2 m2 e2 =>
      refine ⟨rfl, rfl, ?_⟩
      obtain ⟨_, he1, _⟩ := isBinary64_bounds _ _ _ ha
      obtain ⟨_, he2, _⟩ := isBinary64_bounds _ _ _ hb
      have hsum := add_fin_toRat s1 m1 e1 s2 m2 e2
      have hu : (0 : ℚ) ≤ (2 : ℚ) ^ (-53 : ℤ) := le_of_lt (zpow_pos (by norm_num) _)
      rw [hsum]
      unfold Double.add at hfin ⊢
      dsimp only at hfin ⊢
      generalize hS : Double.sig s1 m1 * 2 ^ (e1 - min e1 e2).toNat +
        Double.sig s2 m2 * 2 ^ (e2 - min e1 e2).toNat = S at hfin ⊢
      by_cases h0 : S = 0
      · rw [if_pos h0, h0]
        simp [Double.toRat, Double.sig]
      · rw [if_neg h0] at hfin ⊢
        have hA : 0 < S.natAbs := Int.natAbs_pos.2 h0
        have hmin : -1074 ≤ min e1 e2 := le_min he1 he2
        cases hR : Double.roundRatio (decide (S < 0)) (S.natAbs * 2 ^ (min e1 e2).toNat)
            (2 ^ (-min e1 e2).toNat) with
        | nan => rw [hR] at hfin; simp [Double.isFinite] at hfin
        | inf _ => rw [hR] at hfin; simp [Double.isFinite] at hfin
        | fin s q P =>
          obtain ⟨hs, herr⟩ :=
            roundRatio_error_dyadic _ S.natAbs (min e1 e2) hA hmin s q P hR
          have hp : (0 : ℚ) < (2 : ℚ) ^ (min e1 e2) := zpow_pos (by norm_num) _
          rcases lt_or_gt_of_ne h0 with hneg | hpos
          · have hs' : s = true := by rw [hs]; exact decide_eq_true hneg
            have hcast : ((S.natAbs : Nat) : ℚ) = -(S : ℚ) := by
              have : ((S.natAbs : Nat) : ℤ) = -S := by omega
              rw [← Int.cast_natCast, this]
              push_cast
              rfl
            rw [hs', toRat_neg]
            rw [hcast] at herr
            have habs : |(S : ℚ) * (2 : ℚ) ^ (min e1 e2)| = -(S : ℚ) * (2 : ℚ) ^ (min e1 e2) := by
              have : (S : ℚ) < 0 := by exact_mod_cast hneg
              rw [abs_of_neg (by nlinarith)]
              ring
            rw [habs]
            rw [abs_le] at herr ⊢
            constructor <;> linarith [herr.1, herr.2]
          · have hs' : s = false := by rw [hs]; exact decide_eq_false (by omega)
            have hcast : ((S.natAbs : Nat) : ℚ) = (S : ℚ) := by
              have : ((S.natAbs : Nat) : ℤ) = S := by omega
              rw [← Int.cast_natCast, this]
            rw [hs', toRat_pos]
            rw [hcast] at herr
            have habs : |(S : ℚ) * (2 : ℚ) ^ (min e1 e2)| = (S : ℚ) * (2 : ℚ) ^ (min e1 e2) := by
              have : (0 : ℚ) < (S : ℚ) := by exact_mod_cast hpos
              exact abs_of_pos (by positivity)
            rw [habs]
            exact herr


theorem abs_sum_toRat_le :
    ∀ rs : List Double, |(rs.map Double.toRat).sum| ≤ (rs.map (fun r => |r.toRat|)).sum
  | [] => by simp
  | r :: rs => by
    simp only [List.map_cons, List.sum_cons]
    exact le_trans (abs_add _ _) (add_le_add_left (abs_sum_toRat_le rs) _)

theorem foldl_add_isBinary64 (rs : List Double) :
    Double.IsBinary64 (rs.foldl Double.add Double.zero) := by
  induction rs using List.reverseRecOn with
  | nil => exact Or.inr ⟨by norm_num, rfl⟩
  | append_singleton rs v _ =>
    rw [List.foldl_append]
    exact add_isBinary64 _ _

/-- The rounding error of a total that is finite: every reading is finite, and the total
differs from the exact sum by at most `(1 + 2^-53)^n - 1` times the sum of the magnitudes. -/
theorem total_error (rs : List Double) (h64 : ∀ r ∈ rs, Double.IsBinary64 r)
    (hfin : (rs.foldl Double.add Double.zero).isFinite = true) :
    (∀ r ∈ rs, r.isFinite = true) ∧
      |(rs.foldl Double.add Double.zero).toRat - (rs.map Double.toRat).sum| ≤
        ((1 + (2 : ℚ) ^ (-53 : ℤ)) ^ rs.length - 1) * (rs.map (fun r => |r.toRat|)).sum := by
  induction rs using List.reverseRecOn with
  | nil =>
    refine ⟨by simp, ?_⟩
    simp [Double.zero, Double.toRat, Double.sig]
  | append_singleton rs v ih =>
    rw [List.foldl_append] at hfin ⊢
    simp only [List.foldl_cons, List.foldl_nil] at hfin ⊢
    obtain ⟨hT, hv, herr⟩ := add_error _ v (foldl_add_isBinary64 rs) (h64 v (by simp)) hfin
    obtain ⟨ihfin, iherr⟩ := ih (fun r m => h64 r (List.mem_append_left _ m)) hT
    refine ⟨?_, ?_⟩
    · intro r m
      rcases List.mem_append.1 m with m | m
      · exact ihfin r m
      · rw [List.mem_singleton.1 m]
        exact hv
    · have hu : (0 : ℚ) < (2 : ℚ) ^ (-53 : ℤ) := zpow_pos (by norm_num) _
      have hc : (1 : ℚ) ≤ (1 + (2 : ℚ) ^ (-53 : ℤ)) ^ rs.length :=
        one_le_pow₀ (by linarith)
      have hA : (0 : ℚ) ≤ (rs.map (fun r => |r.toRat|)).sum :=
        List.sum_nonneg (by
          intro x hx
          obtain ⟨r, _, e⟩ := List.mem_map.1 hx
          rw [← e]
          exact abs_nonneg _)
      have hS : |(rs.map Double.toRat).sum| ≤ (rs.map (fun r => |r.toRat|)).sum :=
        abs_sum_toRat_le rs
      simp only [List.map_append, List.map_cons, List.map_nil, List.sum_append, List.sum_cons,
        List.sum_nil, add_zero, List.length_append, List.length_singleton]
      rw [pow_succ]
      generalize (rs.foldl Double.add Double.zero).toRat = T at *
      generalize (Double.add (rs.foldl Double.add Double.zero) v).toRat = T' at *
      generalize (rs.map Double.toRat).sum = S at *
      generalize (rs.map (fun r => |r.toRat|)).sum = A at *
      generalize (1 + (2 : ℚ) ^ (-53 : ℤ)) ^ rs.length = c at *
      generalize (2 : ℚ) ^ (-53 : ℤ) = u at *
      have hv0 : (0 : ℚ) ≤ |v.toRat| := abs_nonneg _
      have h1 : |T + v.toRat| ≤ (c - 1) * A + A + |v.toRat| := by
        have : T + v.toRat = (T - S) + S + v.toRat := by ring
        rw [this]
        calc |(T - S) + S + v.toRat| ≤ |(T - S) + S| + |v.toRat| := abs_add _ _
          _ ≤ |T - S| + |S| + |v.toRat| := by linarith [abs_add (T - S) S]
          _ ≤ (c - 1) * A + A + |v.toRat| := by linarith
      have h2 : |T' - (S + v.toRat)| ≤ |T' - (T + v.toRat)| + |T - S| := by
        have : T' - (S + v.toRat) = (T' - (T + v.toRat)) + (T - S) := by ring
        rw [this]
        exact abs_add _ _
      have h3 : u * |T + v.toRat| ≤ u * ((c - 1) * A + A + |v.toRat|) :=
        mul_le_mul_of_nonneg_left h1 (le_of_lt hu)
      have h4 : (0 : ℚ) ≤ (c - 1) * |v.toRat| := mul_nonneg (by linarith) hv0
      have h5 : (0 : ℚ) ≤ u * (c * |v.toRat|) := by positivity
      nlinarith


/-- The rounding error of the division of a finite total by a positive `int` count: the
quotient is finite and errs by at most the relative error `2^-53` plus `2^-1075`. -/
theorem div_error (tot : Double) (c : Int) (hc1 : 1 ≤ c) (hc2 : c < 2 ^ 53)
    (htot : tot.isFinite = true) (h64 : Double.IsBinary64 tot) :
    (Double.div tot (Double.ofInt c)).isFinite = true ∧
      |(Double.div tot (Double.ofInt c)).toRat - tot.toRat / (c : ℚ)| ≤
        (2 : ℚ) ^ (-53 : ℤ) * |tot.toRat / (c : ℚ)| + (2 : ℚ) ^ (-1075 : ℤ) := by
  obtain ⟨m2, e2, hof, hval⟩ := ofInt_exact c hc1 hc2
  have hcq : (1 : ℚ) ≤ (c : ℚ) := by exact_mod_cast hc1
  have hu : (0 : ℚ) < (2 : ℚ) ^ (-53 : ℤ) := zpow_pos (by norm_num) _
  have hη : (0 : ℚ) < (2 : ℚ) ^ (-1075 : ℤ) := zpow_pos (by norm_num) _
  have hm2 : 0 < m2 := by
    rcases Nat.eq_zero_or_pos m2 with h | h
    · rw [h] at hval
      simp at hval
      linarith
    · exact h
  cases tot with
  | inf _ => simp [Double.isFinite] at htot
  | nan => simp [Double.isFinite] at htot
  | fin s1 m1 e1 =>
    obtain ⟨hm1, he1a, he1b⟩ := isBinary64_bounds _ _ _ h64
    rw [hof]
    have hdiv : Double.div (.fin s1 m1 e1) (.fin false m2 e2) =
        Double.roundRatio s1 (m1 * 2 ^ (e1 - e2).toNat) (m2 * 2 ^ (e2 - e1).toNat) := by
      simp only [Double.div, Bool.xor_false]
      rw [if_neg (Nat.pos_iff_ne_zero.1 hm2)]
    rw [hdiv]
    by_cases h0 : m1 = 0
    · subst h0
      have hR : Double.roundRatio s1 (0 * 2 ^ (e1 - e2).toNat) (m2 * 2 ^ (e2 - e1).toNat) =
          .fin s1 0 (-1074) := by
        unfold Double.roundRatio
        rw [if_pos (Or.inl (Nat.zero_mul _))]
      rw [hR]
      refine ⟨rfl, ?_⟩
      have e0 : Double.toRat (.fin s1 0 (-1074)) = 0 := by simp [Double.toRat, Double.sig]
      have e1 : Double.toRat (.fin s1 0 e1) = 0 := by simp [Double.toRat, Double.sig]
      rw [e0, e1]
      simp only [zero_div, sub_zero, abs_zero, mul_zero, zero_add]
      exact le_of_lt hη
    · have hn : 0 < m1 * 2 ^ (e1 - e2).toNat :=
        Nat.mul_pos (Nat.pos_of_ne_zero h0) (Nat.two_pow_pos _)
      have hd : 0 < m2 * 2 ^ (e2 - e1).toNat := Nat.mul_pos hm2 (Nat.two_pow_pos _)
      have hx := div_ratio m1 m2 e1 e2 hm2
      rw [hval] at hx
      have hX : (0 : ℚ) ≤ (m1 : ℚ) * (2 : ℚ) ^ e1 := by positivity
      have hxle : ((m1 * 2 ^ (e1 - e2).toNat : Nat) : ℚ) / ((m2 * 2 ^ (e2 - e1).toNat : Nat) : ℚ) ≤
          (m1 : ℚ) * (2 : ℚ) ^ e1 := by
        rw [hx]
        exact div_le_self hX hcq
      obtain ⟨q, P, hR, _⟩ := roundRatio_le s1 _ _ hn hd m1 e1 hm1 he1a he1b hxle
      obtain ⟨_, herr⟩ := roundRatio_error s1 _ _ hn hd s1 q P hR
      rw [hx] at herr
      have hxpos : (0 : ℚ) ≤ (m1 : ℚ) * (2 : ℚ) ^ e1 / (c : ℚ) := by positivity
      have herr2 : |(q : ℚ) * (2 : ℚ) ^ P - (m1 : ℚ) * (2 : ℚ) ^ e1 / (c : ℚ)| ≤
          (2 : ℚ) ^ (-53 : ℤ) * ((m1 : ℚ) * (2 : ℚ) ^ e1 / (c : ℚ)) + (2 : ℚ) ^ (-1075 : ℤ) := by
        refine le_trans herr ?_
        split_ifs
        · linarith
        · have : (0 : ℚ) ≤ (2 : ℚ) ^ (-53 : ℤ) * ((m1 : ℚ) * (2 : ℚ) ^ e1 / (c : ℚ)) := by
            positivity
          linarith
      rw [hR]
      refine ⟨rfl, ?_⟩
      cases s1 with
      | false =>
        rw [toRat_pos, toRat_pos, abs_of_nonneg hxpos]
        exact herr2
      | true =>
        rw [toRat_neg, toRat_neg, neg_div, abs_neg, abs_of_nonneg hxpos]
        have e : -((q : ℚ) * (2 : ℚ) ^ P) - -((m1 : ℚ) * (2 : ℚ) ^ e1 / (c : ℚ)) =
            -((q : ℚ) * (2 : ℚ) ^ P - (m1 : ℚ) * (2 : ℚ) ^ e1 / (c : ℚ)) := by ring
        rw [e, abs_neg]
        exact herr2


theorem sum_abs_le (rs : List Double) (B : ℚ) (h : ∀ r ∈ rs, |r.toRat| ≤ B) :
    (rs.map (fun r => |r.toRat|)).sum ≤ (rs.length : ℚ) * B := by
  have := List.sum_le_card_nsmul (rs.map (fun r => |r.toRat|)) B (by
    intro x hx
    obtain ⟨r, hr, e⟩ := List.mem_map.1 hx
    exact e ▸ h r hr)
  simpa [nsmul_eq_mul] using this

/-- The mean that `print_results` computes for the fold of a non-empty list of fewer than
`2^31` readings, when the total is finite: the readings are finite, the mean is finite, and
it leaves the interval from `min_temp` to `max_temp` by at most the rounding slack. -/
theorem mean_slack (name : List Char) (rs : List Double) (hne : rs ≠ [])
    (hlen : rs.length < 2147483648) (h64 : ∀ r ∈ rs, Double.IsBinary64 r)
    (hfin : (stationOf name rs).total_temp.isFinite = true) :
    (∀ r ∈ rs, r.isFinite = true) ∧ (mean_temp (stationOf name rs)).isFinite = true ∧
      (stationOf name rs).min_temp.toRat -
          roundingSlack rs.length
            (max |(stationOf name rs).min_temp.toRat| |(stationOf name rs).max_temp.toRat|) ≤
        (mean_temp (stationOf name rs)).toRat ∧
      (mean_temp (stationOf name rs)).toRat ≤
        (stationOf name rs).max_temp.toRat +
          roundingSlack rs.length
            (max |(stationOf name rs).min_temp.toRat| |(stationOf name rs).max_temp.toRat|) := by
  have htot := stationOf_total name rs
  rw [htot] at hfin
  obtain ⟨hrfin, hT⟩ := total_error rs h64 hfin
  obtain ⟨_, _, hbd⟩ := stationOf_bounds name rs hrfin
  obtain ⟨b1, b2⟩ := exactMean_between rs hne _ _ hbd
  have hcnt := stationOf_count_small name rs hlen
  have hpos : 0 < rs.length := List.length_pos.2 hne
  obtain ⟨hMfin, hM⟩ := div_error (rs.foldl Double.add Double.zero) (rs.length : Int)
    (by omega) (by omega) hfin (foldl_add_isBinary64 rs)
  have hmean : mean_temp (stationOf name rs) =
      Double.div (rs.foldl Double.add Double.zero) (Double.ofInt (rs.length : Int)) := by
    unfold mean_temp
    rw [htot, hcnt]
  rw [hmean]
  refine ⟨hrfin, hMfin, ?_⟩
  have hB : ∀ r ∈ rs, |r.toRat| ≤
      max |(stationOf name rs).min_temp.toRat| |(stationOf name rs).max_temp.toRat| :=
    fun r m => abs_le_max_abs_abs (hbd r m).1 (hbd r m).2
  have hA := sum_abs_le rs _ hB
  have hS := abs_sum_toRat_le rs
  have hu : (0 : ℚ) < (2 : ℚ) ^ (-53 : ℤ) := zpow_pos (by norm_num) _
  have hc : (1 : ℚ) ≤ (1 + (2 : ℚ) ^ (-53 : ℤ)) ^ rs.length := one_le_pow₀ (by linarith)
  have hn : (0 : ℚ) < (rs.length : ℚ) := by exact_mod_cast hpos
  have hB0 : (0 : ℚ) ≤
      max |(stationOf name rs).min_temp.toRat| |(stationOf name rs).max_temp.toRat| :=
    le_trans (abs_nonneg _) (le_max_left _ _)
  unfold exactMean at b1 b2
  unfold roundingSlack
  rw [pow_succ]
  push_cast at hM
  generalize (stationOf name rs).min_temp.toRat = mn at *
  generalize (stationOf name rs).max_temp.toRat = mx at *
  generalize (Double.div (rs.foldl Double.add Double.zero) (Double.ofInt (rs.length : Int))).toRat
    = M at *
  generalize (rs.foldl Double.add Double.zero).toRat = T at *
  generalize (rs.map Double.toRat).sum = S at *
  generalize (rs.map (fun r => |r.toRat|)).sum = A at *
  generalize (1 + (2 : ℚ) ^ (-53 : ℤ)) ^ rs.length = c at *
  generalize (2 : ℚ) ^ (-53 : ℤ) = u at *
  generalize (2 : ℚ) ^ (-1075 : ℤ) = η at *
  generalize (rs.length : ℚ) = n at *
  generalize max |mn| |mx| = B at *
  -- per-reading quantities
  have ha : A / n ≤ B := by
    rw [div_le_iff₀ hn]
    linarith
  have ha0 : 0 ≤ A / n := div_nonneg (le_trans (abs_nonneg _) hS) (le_of_lt hn)
  have hts : |T / n - S / n| ≤ (c - 1) * (A / n) := by
    rw [← sub_div, abs_div, abs_of_pos hn, div_le_iff₀ hn]
    have : (c - 1) * (A / n) * n = (c - 1) * A := by
      field_simp
    rw [this]
    exact hT
  have hσ : |S / n| ≤ A / n := by
    rw [abs_div, abs_of_pos hn]
    exact div_le_div_of_nonneg_right hS (le_of_lt hn)
  have ht : |T / n| ≤ c * (A / n) := by
    have : T / n = (T / n - S / n) + S / n := by ring
    rw [this]
    calc |(T / n - S / n) + S / n| ≤ |T / n - S / n| + |S / n| := abs_add _ _
      _ ≤ (c - 1) * (A / n) + A / n := by linarith
      _ = c * (A / n) := by ring
  have hMs : |M - S / n| ≤ (c * (1 + u) - 1) * B + η := by
    have : M - S / n = (M - T / n) + (T / n - S / n) := by ring
    rw [this]
    have h1 : u * |T / n| ≤ u * (c * (A / n)) := mul_le_mul_of_nonneg_left ht (le_of_lt hu)
    have h2 : (c * (1 + u) - 1) * (A / n) ≤ (c * (1 + u) - 1) * B :=
      mul_le_mul_of_nonneg_left ha (by nlinarith)
    calc |(M - T / n) + (T / n - S / n)| ≤ |M - T / n| + |T / n - S / n| := abs_add _ _
      _ ≤ (u * |T / n| + η) + (c - 1) * (A / n) := by linarith
      _ ≤ (c * (1 + u) - 1) * (A / n) + η := by nlinarith
      _ ≤ (c * (1 + u) - 1) * B + η := by linarith
  rw [abs_le] at hMs
  constructor <;> linarith [hMs.1, hMs.2]

theorem stationOf_isBinary64 (name : List Char) (rs : List Double)
    (h : ∀ r ∈ rs, Double.IsBinary64 r) :
    Double.IsBinary64 (stationOf name rs).min_temp ∧
      Double.IsBinary64 (stationOf name rs).max_temp := by
  induction rs using List.reverseRecOn with
  | nil =>
    exact ⟨Or.inl ⟨by norm_num, by norm_num, by norm_num, by norm_num⟩,
      Or.inl ⟨by norm_num, by norm_num, by norm_num, by norm_num⟩⟩
  | append_singleton rs v ih =>
    have hv : Double.IsBinary64 v := h v (by simp)
    obtain ⟨h1, h2⟩ := ih (fun r m => h r (List.mem_append_left _ m))
    rw [stationOf_snoc, updateStation_fields]
    constructor
    · show Double.IsBinary64 (Double.min _ v)
      unfold Double.min
      split_ifs
      · exact hv
      · exact h1
    · show Double.IsBinary64 (Double.max _ v)
      unfold Double.max
      split_ifs
      · exact hv
      · exact h2

theorem mem_stationReadings (bufs : List (List Char)) (name : List Char) (r : Double)
    (h : r ∈ stationReadings bufs name) :
    ∃ l ∈ bufs, ∃ temp_str : List Char,
      lineRecord l = some (name, temp_str) ∧ r = atof temp_str := by
  unfold stationReadings readingsOf at h
  obtain ⟨p, hp, e⟩ := List.mem_map.1 h
  obtain ⟨hp1, hp2⟩ := List.mem_filter.1 hp
  obtain ⟨l, hl, hr⟩ := List.mem_filterMap.1 hp1
  unfold recordOf at hr
  cases hrec : lineRecord l with
  | none => rw [hrec] at hr; cases hr
  | some x =>
    rw [hrec] at hr
    have e2 : (x.1, atof x.2) = p := Option.some.inj hr
    have hn : p.1 = name := of_decide_eq_true hp2
    refine ⟨l, hl, x.2, ?_, ?_⟩
    · rw [← hn, ← e2]
      exact hrec
    · rw [← e, ← e2]

/-- C8 as amended. Let `bufs` be the buffers that a strategy hands to `process_line` for a
file, fewer than `2^31` of them and with name tokens that fit the name array, and let `s` be
a station of the table that the strategy leaves. Then `s` is the fold of the readings that
the buffers carry for its name, of which there is at least one, and `count` is their
number. When these readings are all finite, their mean in exact arithmetic lies between
`min_temp` and `max_temp`. When `total_temp` is finite, the readings are finite and the
double quotient `total_temp / count` of `print_results` is finite and leaves the interval
from `min_temp` to `max_temp` by at most the rounding slack
`((1 + 2^-53)^(count + 1) - 1) * max(|min_temp|, |max_temp|) + 2^-1075`; and when moreover
`total_temp` is the exact sum of the readings, the quotient lies between `min_temp` and
`max_temp`, whatever the rounding of the division. -/
theorem mean_between_extrema (file : List Char) (bufs : List (List Char)) (t : HashTable)
    (ht : (bufs = freadAll file ∧ t = process_file_fread emptyTable file) ∨
      (bufs = mmap_lines file.length file ∧ process_file_mmap emptyTable file = some t))
    (hfit : ∀ l ∈ bufs, ∀ name temp_str : List Char,
      lineRecord l = some (name, temp_str) → NameFits name)
    (hlen : bufs.length < 2147483648)
    (i : Fin HASH_TABLE_SIZE) (s : WeatherStation) (hs : s ∈ t i) :
    NameFits s.name ∧ stationReadings bufs s.name ≠ [] ∧
      s = stationOf s.name (stationReadings bufs s.name) ∧
      s.count.toInt = ((stationReadings bufs s.name).length : Int) ∧
      ((∀ r ∈ stationReadings bufs s.name, r.isFinite = true) →
        s.min_temp.toRat ≤ exactMean (stationReadings bufs s.name) ∧
          exactMean (stationReadings bufs s.name) ≤ s.max_temp.toRat) ∧
      (s.total_temp.isFinite = true →
        (∀ r ∈ stationReadings bufs s.name, r.isFinite = true) ∧
          (mean_temp s).isFinite = true ∧
          s.min_temp.toRat -
              roundingSlack (stationReadings bufs s.name).length
                (max |s.min_temp.toRat| |s.max_temp.toRat|) ≤ (mean_temp s).toRat ∧
          (mean_temp s).toRat ≤
            s.max_temp.toRat +
              roundingSlack (stationReadings bufs s.name).length
                (max |s.min_temp.toRat| |s.max_temp.toRat|) ∧
          (s.total_temp.toRat = ((stationReadings bufs s.name).map Double.toRat).sum →
            Double.le s.min_temp (mean_temp s) = true ∧
              Double.le (mean_temp s) s.max_temp = true)) := by
  have htab : t = bufs.foldl process_line emptyTable := by
    rcases ht with ⟨e1, e2⟩ | ⟨e1, e2⟩
    · rw [e2, e1]
      rfl
    · unfold process_file_mmap at e2
      split_ifs at e2
      rw [← Option.some.inj e2, e1]
      rfl
  obtain ⟨_, hst, _⟩ := recInv_ingest bufs
  rw [htab] at hs
  obtain ⟨hne, hfold⟩ := hst i s hs
  change stationReadings bufs s.name ≠ [] at hne
  change s = stationOf s.name (stationReadings bufs s.name) at hfold
  have hlen2 : (stationReadings bufs s.name).length < 2147483648 :=
    lt_of_le_of_lt (readingsOf_length_le bufs s.name) hlen
  have hcnt : s.count.toInt = ((stationReadings bufs s.name).length : Int) := by
    rw [congrArg WeatherStation.count hfold]
    exact stationOf_count_small _ _ hlen2
  have hpos : 0 < (stationReadings bufs s.name).length := List.length_pos.2 hne
  have h64r : ∀ r ∈ stationReadings bufs s.name, Double.IsBinary64 r := by
    intro r hr
    obtain ⟨l, _, temp_str, _, e⟩ := mem_stationReadings bufs s.name r hr
    rw [e]
    exact atof_isBinary64 _
  refine ⟨?_, hne, hfold, hcnt, ?_, ?_⟩
  · obtain ⟨r, hr⟩ := List.exists_mem_of_ne_nil _ hne
    obtain ⟨l, hl, temp_str, hrec, _⟩ := mem_stationReadings bufs s.name r hr
    exact hfit l hl s.name temp_str hrec
  · intro hfin
    obtain ⟨_, _, hbd⟩ := stationOf_bounds s.name _ hfin
    rw [← hfold] at hbd
    exact exactMean_between _ hne _ _ hbd
  · intro htf
    have htf2 : (stationOf s.name (stationReadings bufs s.name)).total_temp.isFinite = true := by
      rw [← hfold]
      exact htf
    obtain ⟨hrfin, hMfin, l1, l2⟩ := mean_slack s.name _ hne hlen2 h64r htf2
    rw [← hfold] at hMfin l1 l2
    refine ⟨hrfin, hMfin, l1, l2, ?_⟩
    intro hsum
    obtain ⟨hmin, hmax, hbd⟩ := stationOf_bounds s.name _ hrfin
    rw [← hfold] at hbd hmin hmax
    obtain ⟨b1, b2⟩ := exactMean_between _ hne _ _ hbd
    have h64 := stationOf_isBinary64 s.name (stationReadings bufs s.name) h64r
    rw [← hfold] at h64
    have hmean : s.total_temp.toRat / ((s.count.toInt : Int) : ℚ) =
        exactMean (stationReadings bufs s.name) := by
      rw [hcnt, hsum]
      unfold exactMean
      push_cast
      rfl
    unfold mean_temp
    apply div_between s.total_temp s.min_temp s.max_temp s.count.toInt (by omega) (by omega)
      htf hmin hmax h64.1 h64.2
    · rw [hmean]; exact b1
    · rw [hmean]; exact b2

theorem halvesFile_fits :
    ∀ l ∈ freadAll halvesFile, ∀ name temp_str : List Char,
      lineRecord l = some (name, temp_str) → NameFits name := by
  rw [show freadAll halvesFile = ["A;1.5\n".toList, "A;2.5\n".toList] by decide!]
  intro l hl name temp_str h
  simp only [List.mem_cons, List.mem_singleton, List.not_mem_nil, or_false] at hl
  rcases hl with e | e
  · rw [e, show lineRecord "A;1.5\n".toList = some ("A".toList, "1.5".toList) by decide] at h
    cases h
    decide
  · rw [e, show lineRecord "A;2.5\n".toList = some ("A".toList, "2.5".toList) by decide] at h
    cases h
    decide

theorem halvesFile_sum :
    halvesStation.total_temp.toRat =
      ((stationReadings (freadAll halvesFile) halvesStation.name).map Double.toRat).sum := by
  rw [show stationReadings (freadAll halvesFile) halvesStation.name =
      [.fin false 6755399441055744 (-52), .fin false 5629499534213120 (-51)] by decide!,
    show halvesStation.total_temp = .fin false 4503599627370496 (-50) by decide!]
  norm_num [Double.toRat, Double.sig]

/-- Witness of C8 as amended: the file with the readings `1.5` and `2.5` gives the total
`4.0` without rounding, and the mean `2.0` lies between the extrema. -/
theorem mean_between_extrema_witness :
    process_file_fread emptyTable halvesFile (hash "A".toList) = [halvesStation] ∧
      mean_temp halvesStation = atof "2".toList ∧
      Double.le halvesStation.min_temp (mean_temp halvesStation) = true ∧
      Double.le (mean_temp halvesStation) halvesStation.max_temp = true :=
  ⟨by decide!, by decide!,
    ((mean_between_extrema halvesFile (freadAll halvesFile)
      (process_file_fread emptyTable halvesFile) (Or.inl ⟨rfl, rfl⟩) halvesFile_fits
      (by decide!) (hash "A".toList) halvesStation (by decide!)).2.2.2.2.2
        (by decide!)).2.2.2.2 halvesFile_sum⟩

/-- C8 as stated fails. After the file `A;0.1\nA;0.1\nA;0.1\n` both strategies hold the
station `A` with `max_temp = 0.1`; the sum of the three readings rounds up, and
`total_temp / count` is the next double above `0.1`, so the mean exceeds `max_temp`. And
after the single line `A;nan` the total and the mean are NaN, which no comparison with an
extremum accepts. -/
theorem mean_above_max :
    process_file_fread emptyTable tenthsFile (hash "A".toList) = [tenthsStation] ∧
      mmap_scan emptyTable tenthsFile (hash "A".toList) = [tenthsStation] ∧
      atof "0.1".toList = tenthsStation.max_temp ∧
      mean_temp tenthsStation = .fin false 7205759403792795 (-56) ∧
      Double.le (mean_temp tenthsStation) tenthsStation.max_temp = false ∧
      Double.lt tenthsStation.max_temp (mean_temp tenthsStation) = true ∧
      process_file_fread emptyTable "A;nan\n".toList (hash "A".toList) = [nanStation] ∧
      mmap_scan emptyTable "A;nan\n".toList (hash "A".toList) = [nanStation] ∧
      mean_temp nanStation = .nan ∧
      Double.le nanStation.min_temp (mean_temp nanStation) = false ∧
      Double.le (mean_temp nanStation) nanStation.max_temp = false := by
  decide!

end TempStat
